import Mathlib

/-!
# Mazerunner: path generation, path expansion and search

A shallow embedding of `mazerunner/mouse.cpp`.  Character buffers (`path`,
`commands`) are maps from an index to a character; loops carry an explicit
iteration budget and report `none` / `timeout` when the budget is used up before
the loop leaves.
-/

namespace Mazerunner

/-! ## Character buffers -/

/-- A region of `char` memory, addressed by index. -/
abbrev Buf := Nat → Char

/-- The string terminator. -/
def NUL : Char := Char.ofNat 0

/-- Size of the global arrays `path` and `commands`. -/
def BUFSIZE : Nat := 256

/-- The assignment `buf[i] = c`. -/
def Buf.write (buf : Buf) (i : Nat) (c : Char) : Buf :=
  fun j => if j = i then c else buf j

/-- A buffer whose first bytes are `s` and which is zero everywhere else, so that it
holds `s` followed by its terminator. -/
def Buf.ofList (s : List Char) : Buf :=
  fun i => s.getD i NUL

/-- Read at most `n` characters from index `i` on, stopping in front of the first NUL. -/
def Buf.cstrFrom (buf : Buf) : Nat → Nat → List Char
  | 0, _ => []
  | n + 1, i => if buf i = NUL then [] else buf i :: Buf.cstrFrom buf n (i + 1)

/-- The C string held by a 256-byte buffer. -/
def Buf.cstr (buf : Buf) : List Char :=
  Buf.cstrFrom buf BUFSIZE 0

/-! ## pathExpand -/

/-- The local variables of `pathExpand` together with the global `commands`. -/
structure ExpandState where
  pathIndex : Nat
  commandIndex : Nat
  commands : Buf

/-- How a run of `pathExpand` ends. -/
inductive ExpandResult where
  /-- The function returned; `commandIndex` is the index of the final NUL. -/
  | done (commands : Buf) (commandIndex : Nat)
  /-- A write landed outside the 256 bytes of `commands`. -/
  | overflow (index : Nat)
  /-- The iteration budget ran out with the loop still running. -/
  | timeout

/-- The statement `commands[commandIndex++] = c`, refused outside the array. -/
def ExpandState.emit (st : ExpandState) (c : Char) : Except Nat ExpandState :=
  if st.commandIndex < BUFSIZE then
    .ok { st with commands := st.commands.write st.commandIndex c,
                  commandIndex := st.commandIndex + 1 }
  else
    .error st.commandIndex

/-- The statement `pathIndex++`. -/
def ExpandState.advance (st : ExpandState) : ExpandState :=
  { st with pathIndex := st.pathIndex + 1 }

/-- The `switch (c)` of `pathExpand`: one loop body for the character `c`. -/
def expandSwitch (c : Char) (st : ExpandState) : Except Nat ExpandState :=
  if c = 'F' then do
    let st ← st.emit 'H'
    let st ← st.emit 'H'
    pure st.advance
  else if c = 'R' then do
    let st ← st.emit 'R'
    let st ← st.emit 'H'
    let st ← st.emit 'H'
    pure st.advance
  else if c = 'L' then do
    let st ← st.emit 'L'
    let st ← st.emit 'H'
    let st ← st.emit 'H'
    pure st.advance
  else if c = 'S' then do
    let st ← st.emit 'S'
    pure st.advance
  else if c = 'B' ∨ c = ' ' then
    pure st.advance
  else
    -- `default: break;` leaves the switch only: nothing is written, nothing advances
    pure st

/-- The `while (char c = pathString[pathIndex])` loop followed by the closing
`commands[commandIndex] = '\0'`. -/
def expandLoop (pathString : Buf) : Nat → ExpandState → ExpandResult
  | 0, _ => .timeout
  | fuel + 1, st =>
    if pathString st.pathIndex = NUL then
      if st.commandIndex < BUFSIZE then
        .done (st.commands.write st.commandIndex NUL) st.commandIndex
      else
        .overflow st.commandIndex
    else
      match expandSwitch (pathString st.pathIndex) st with
      | .ok st1 => expandLoop pathString fuel st1
      | .error i => .overflow i

/-- The function `pathExpand(pathString)`, started with `commands` holding `commands0`. -/
def pathExpand (fuel : Nat) (pathString : Buf) (commands0 : Buf) : ExpandResult :=
  expandLoop pathString fuel
    { pathIndex := 0, commandIndex := 1, commands := commands0.write 0 'B' }

/-- The C string left in `commands`, when the function returned. -/
def ExpandResult.cstr? : ExpandResult → Option (List Char)
  | .done commands _ => some commands.cstr
  | _ => none

/-- Whether the run returned. -/
def ExpandResult.returned : ExpandResult → Bool
  | .done _ _ => true
  | _ => false

/-- The rewrite rule of the expander for one path symbol, as the specification words it:
`F` gives `HH`, `R` gives `RHH`, `L` gives `LHH`, `S` gives `S`, `B` and space give nothing. -/
def expandRule (c : Char) : List Char :=
  if c = 'F' then ['H', 'H']
  else if c = 'R' then ['R', 'H', 'H']
  else if c = 'L' then ['L', 'H', 'H']
  else if c = 'S' then ['S']
  else []

/-- The expansion the specification asks for: the rules applied symbol by symbol. -/
def expandSpec (s : List Char) : List Char :=
  s.flatMap expandRule

/-- The alphabet the expander accepts. -/
def inExpandAlphabet (c : Char) : Prop :=
  c = 'B' ∨ c = ' ' ∨ c = 'F' ∨ c = 'R' ∨ c = 'L' ∨ c = 'S'

instance (c : Char) : Decidable (inExpandAlphabet c) := by
  unfold inExpandAlphabet; infer_instance

/-- Store the characters of a list at consecutive indices from `i` on. -/
def Buf.writeList (buf : Buf) (i : Nat) : List Char → Buf
  | [] => buf
  | c :: cs => (buf.write i c).writeList (i + 1) cs

/-- A buffer holds the NUL-terminated string `s` from index `0` on. -/
def Buf.holds (buf : Buf) (s : List Char) : Prop :=
  ∀ i, i ≤ s.length → buf i = s.getD i NUL

/-! ## The maze model

`maze.h` and `maze.cpp` are not part of the sources at hand.  Their constants are modelled
from the specification; their functions are parameters, gathered in `MazeModel`.  The
arrays `walls` and `cost` are maps from a cell index to a byte, handed explicitly to the
functions that read them. -/

/-- Modelled from the spec: the heading constants of `maze.h`, which is missing here.
Headings are the integers 0 to 3 and adding 1 is a right turn; this is NORTH. -/
def NORTH : Nat := 0

/-- Modelled from the spec: the heading constant EAST of `maze.h`, one right turn from NORTH. -/
def EAST : Nat := 1

/-- Modelled from the spec: the heading constant SOUTH of `maze.h`, two right turns from NORTH. -/
def SOUTH : Nat := 2

/-- Modelled from the spec: the heading constant WEST of `maze.h`, three right turns from NORTH. -/
def WEST : Nat := 3

/-- Modelled from the spec: the table `DtoR` of `maze.h`, missing here; "+1 = turn right 90°". -/
def DtoR (d : Nat) : Nat := (d + 1) % 4

/-- Modelled from the spec: the table `DtoL` of `maze.h`, missing here; "+3 = turn left 90°". -/
def DtoL (d : Nat) : Nat := (d + 3) % 4

/-- Modelled from the spec: the table `DtoB` of `maze.h`, missing here; "+2 = turn around". -/
def DtoB (d : Nat) : Nat := (d + 2) % 4

/-- The arrays `walls[]` and `cost[]`: cell index to byte. -/
abbrev Cells := Nat → Nat

/-- The parts of the maze module that `mouse.cpp` calls or reads and that are declared
elsewhere: two constants and the query functions, each reading the arrays it is given. -/
structure MazeModel where
  /-- The cost that marks an unreachable cell. -/
  MAX_COST : Nat
  /-- The bit mask of the visited flag in a `walls` entry. -/
  VISITED : Nat
  /-- The call `neighbour(cell, direction)`. -/
  neighbour : Nat → Nat → Nat
  /-- The call `is_exit(cell, direction)`, reading `walls`. -/
  is_exit : Cells → Nat → Nat → Bool
  /-- The call `neighbour_cost(cell, direction)`, reading `walls` and `cost`. -/
  neighbour_cost : Cells → Cells → Nat → Nat → Nat
  /-- The call `direction_to_smallest(cell, startDirection)`, reading `walls` and `cost`. -/
  direction_to_smallest : Cells → Cells → Nat → Nat → Nat
  /-- The call `flood_maze(target)`: the `cost` array it leaves, computed from `walls`. -/
  flood_maze : Cells → Int → Cells

/-! ## pathGenerate -/

/-- The local variables of `pathGenerate` together with the global `path`. -/
structure PathState where
  solved : Bool
  cell : Nat
  nextCost : Int
  commandIndex : Nat
  direction : Nat
  path : Buf

/-- The test `is_exit(cell, d) && neighbour_cost(cell, d) == nextCost`. -/
def exitWithCost (m : MazeModel) (walls cost : Cells) (cell d : Nat) (nextCost : Int) : Bool :=
  m.is_exit walls cell d && decide ((m.neighbour_cost walls cost cell d : Int) = nextCost)

/-- The `switch (direction)` of `pathGenerate`: the command chosen and the new direction.
The four case blocks are written out as they stand in the source. -/
def pathSwitch (m : MazeModel) (walls cost : Cells) (cell direction : Nat) (nextCost : Int) :
    Char × Nat :=
  if direction = NORTH then
    if exitWithCost m walls cost cell NORTH nextCost then ('F', direction)
    else if exitWithCost m walls cost cell EAST nextCost then ('R', DtoR direction)
    else if exitWithCost m walls cost cell WEST nextCost then ('L', DtoL direction)
    else if exitWithCost m walls cost cell SOUTH nextCost then ('A', DtoB direction)
    else ('S', direction)
  else if direction = EAST then
    if exitWithCost m walls cost cell EAST nextCost then ('F', direction)
    else if exitWithCost m walls cost cell SOUTH nextCost then ('R', DtoR direction)
    else if exitWithCost m walls cost cell NORTH nextCost then ('L', DtoL direction)
    else if exitWithCost m walls cost cell WEST nextCost then ('A', DtoB direction)
    else ('S', direction)
  else if direction = SOUTH then
    if exitWithCost m walls cost cell SOUTH nextCost then ('F', direction)
    else if exitWithCost m walls cost cell WEST nextCost then ('R', DtoR direction)
    else if exitWithCost m walls cost cell EAST nextCost then ('L', DtoL direction)
    else if exitWithCost m walls cost cell NORTH nextCost then ('A', DtoB direction)
    else ('S', direction)
  else if direction = WEST then
    if exitWithCost m walls cost cell WEST nextCost then ('F', direction)
    else if exitWithCost m walls cost cell NORTH nextCost then ('R', DtoR direction)
    else if exitWithCost m walls cost cell SOUTH nextCost then ('L', DtoL direction)
    else if exitWithCost m walls cost cell EAST nextCost then ('A', DtoB direction)
    else ('S', direction)
  else
    -- `default:` nothing is chosen
    ('S', direction)

/-- The assignment `cell = neighbour(cell, direction)` into an `unsigned char`. -/
def nextCell (m : MazeModel) (cell direction : Nat) : Nat :=
  m.neighbour cell direction % 256

/-- The test `(walls[cell] & VISITED) != VISITED`. -/
def notVisited (m : MazeModel) (walls : Cells) (cell : Nat) : Bool :=
  decide (walls cell &&& m.VISITED ≠ m.VISITED)

/-- One body of the `while (nextCost >= 0)` loop. `commandIndex` is an `unsigned char`. -/
def pathStep (m : MazeModel) (walls cost : Cells) (s : PathState) : PathState :=
  let r := pathSwitch m walls cost s.cell s.direction s.nextCost
  let cell := nextCell m s.cell r.2
  { solved := if notVisited m walls cell then false else s.solved,
    cell := cell,
    nextCost := s.nextCost - 1,
    commandIndex := (s.commandIndex + 1) % 256,
    direction := r.2,
    path := s.path.write s.commandIndex r.1 }

/-- The `while (nextCost >= 0)` loop; `none` when the budget ends first. -/
def pathLoop (m : MazeModel) (walls cost : Cells) : Nat → PathState → Option PathState
  | 0, _ => none
  | fuel + 1, s =>
    if 0 ≤ s.nextCost then pathLoop m walls cost fuel (pathStep m walls cost s) else some s

/-- The states in which the loop body is entered, in order: the steps of the walk. -/
def pathWalk (m : MazeModel) (walls cost : Cells) : Nat → PathState → List PathState
  | 0, _ => []
  | fuel + 1, s =>
    if 0 ≤ s.nextCost then s :: pathWalk m walls cost fuel (pathStep m walls cost s) else []

/-- The state of `pathGenerate` when the loop is first reached; `direction` is an
`unsigned char`. -/
def pathInit (m : MazeModel) (walls cost : Cells) (startCell : Nat) (path0 : Buf) : PathState :=
  { solved := true,
    cell := startCell,
    nextCost := (cost startCell : Int) - 1,
    commandIndex := 1,
    direction := m.direction_to_smallest walls cost startCell NORTH % 256,
    path := path0.write 0 'B' }

/-- The statements after the loop: store `'S'`, then the terminator. -/
def pathFinish (s : PathState) : PathState :=
  let i := (s.commandIndex + 1) % 256
  { s with commandIndex := i, path := (s.path.write s.commandIndex 'S').write i NUL }

/-- The function `pathGenerate(startCell)`: the final state, whose `solved` is the value
returned and whose `path` is the global array; `none` when the budget ends first. -/
def pathGenerate (m : MazeModel) (walls cost : Cells) (fuel : Nat) (startCell : Nat)
    (path0 : Buf) : Option PathState :=
  (pathLoop m walls cost fuel (pathInit m walls cost startCell path0)).map pathFinish

/-- The symbol a step of the walk writes. -/
def stepSymbol (m : MazeModel) (walls cost : Cells) (s : PathState) : Char :=
  (pathSwitch m walls cost s.cell s.direction s.nextCost).1

/-- The heading a step of the walk takes. -/
def stepHeading (m : MazeModel) (walls cost : Cells) (s : PathState) : Nat :=
  (pathSwitch m walls cost s.cell s.direction s.nextCost).2

/-- The candidates of a step in the order of the specification: forward, right, left,
turn-around, each with its absolute direction for heading `d`. -/
def candidates (d : Nat) : List (Char × Nat) :=
  [('F', d), ('R', (d + 1) % 4), ('L', (d + 3) % 4), ('A', (d + 2) % 4)]

/-- The rule of the specification: the first candidate whose direction is an open exit
with neighbour cost `nextCost`. -/
def firstExit (m : MazeModel) (walls cost : Cells) (cell d : Nat) (nextCost : Int) :
    Option (Char × Nat) :=
  (candidates d).find? (fun p => exitWithCost m walls cost cell p.2 nextCost)

/-- A consistent Manhattan flood: the cost reported for an open exit is the cost of the
cell behind it, and every reachable cell of cost above 0 has an open exit to a cell of
cost one less. Cells are bytes. -/
def ConsistentFlood (m : MazeModel) (walls cost : Cells) : Prop :=
  (∀ cell, cell < 256 → ∀ d, d < 4 → m.is_exit walls cell d = true →
      m.neighbour_cost walls cost cell d = cost (nextCell m cell d)) ∧
  (∀ cell, cell < 256 → 0 < cost cell → cost cell < m.MAX_COST →
      ∃ d, d < 4 ∧ m.is_exit walls cell d = true ∧ cost (nextCell m cell d) + 1 = cost cell)

/-- The move symbols of a path string. -/
def isMoveSymbol (c : Char) : Prop :=
  c = 'F' ∨ c = 'R' ∨ c = 'L' ∨ c = 'A'

instance (c : Char) : Decidable (isMoveSymbol c) := by
  unfold isMoveSymbol; infer_instance

/-- Stepping in a direction and then in the opposite direction returns to the same cell. -/
def BackStep (m : MazeModel) : Prop :=
  ∀ cell, cell < 256 → ∀ d, d < 4 → nextCell m (nextCell m cell d) ((d + 2) % 4) = cell

/-- The direction `d0` is an open exit of `cell` and no open exit of `cell` has a smaller
neighbour cost. -/
def SmallestExit (m : MazeModel) (walls cost : Cells) (cell d0 : Nat) : Prop :=
  d0 < 4 ∧ m.is_exit walls cell d0 = true ∧
  ∀ d, d < 4 → m.is_exit walls cell d = true →
    m.neighbour_cost walls cost cell d0 ≤ m.neighbour_cost walls cost cell d

/-- The symbols of a path that makes no turn-around. -/
def isForwardOrTurn (c : Char) : Prop :=
  c = 'F' ∨ c = 'R' ∨ c = 'L'

/-! ## A reference maze model

Used to evaluate the functions on concrete mazes. -/

/-- Modelled from the spec: a maze module meeting the interface of the specification on the
16 by 16 grid, missing from the sources at hand. A `walls` entry has bit `d` set when there
is a wall in direction `d`, and the high nibble is the visited flag; stepping north adds 1
to the cell index, east adds 16, south subtracts 1 and west subtracts 16, all modulo 256;
the sentinel is the largest byte. `direction_to_smallest` gives the direction whose
neighbour cost is smallest, ties broken ahead, right, left, behind, and 0 when no neighbour
is cheaper than the cell; the flood itself is handed in as a table. -/
def gridModel (flood : Cells → Int → Cells) : MazeModel where
  MAX_COST := 255
  VISITED := 0xF0
  neighbour := fun cell d =>
    if d = 0 then (cell + 1) % 256
    else if d = 1 then (cell + 16) % 256
    else if d = 2 then (cell + 255) % 256
    else if d = 3 then (cell + 240) % 256
    else 255
  is_exit := fun walls cell d => !(walls cell).testBit d
  neighbour_cost := fun walls cost cell d =>
    if (walls cell).testBit d then 255
    else if d = 0 then cost ((cell + 1) % 256)
    else if d = 1 then cost ((cell + 16) % 256)
    else if d = 2 then cost ((cell + 255) % 256)
    else if d = 3 then cost ((cell + 240) % 256)
    else 255
  direction_to_smallest := fun walls cost cell d =>
    let nc := fun k =>
      if (walls cell).testBit k then 255
      else if k = 0 then cost ((cell + 1) % 256)
      else if k = 1 then cost ((cell + 16) % 256)
      else if k = 2 then cost ((cell + 255) % 256)
      else cost ((cell + 240) % 256)
    let best := min (min (nc d) (nc ((d + 1) % 4))) (min (nc ((d + 3) % 4)) (nc ((d + 2) % 4)))
    if cost cell ≤ best then 0
    else if nc d = best then d
    else if nc ((d + 1) % 4) = best then (d + 1) % 4
    else if nc ((d + 3) % 4) = best then (d + 3) % 4
    else (d + 2) % 4
  flood_maze := flood

/-- A small maze with two bends: the route 0, 1, 17, 18, 2 (north, east, north, west).
Every cell of the route carries its walls and the visited flag; all other cells are closed
and unvisited. -/
def sampleWalls : Cells := fun cell =>
  if cell = 0 then 0xFE
  else if cell = 1 then 0xF9
  else if cell = 17 then 0xF6
  else if cell = 18 then 0xF3
  else if cell = 2 then 0xFD
  else 0x0F

/-- The flood of the sample maze toward cell 2. -/
def sampleCost : Cells := fun cell =>
  if cell = 0 then 4
  else if cell = 1 then 3
  else if cell = 17 then 2
  else if cell = 18 then 1
  else if cell = 2 then 0
  else 255

/-- The sample maze in which cell 17 has not been visited. -/
def sampleWallsUnvisited : Cells := fun cell =>
  if cell = 17 then 0x06 else sampleWalls cell

/-- The reference model whose flood toward any target is the sample flood. -/
def sampleModel : MazeModel := gridModel (fun _ _ => sampleCost)

/-- A maze in which every cell is closed on all four sides and unvisited. -/
def closedWalls : Cells := fun _ => 0x0F

/-- The flood of the closed maze toward cell 2: only the target is reachable. -/
def closedCost : Cells := fun cell => if cell = 2 then 0 else 255

/-- The reference model whose flood toward any target is the closed flood. -/
def closedModel : MazeModel := gridModel (fun _ _ => closedCost)

/-- A ring of ten cells: 2, 3, 4 going north, and 2, 1, 0, 16, 17, 18, 19, 20, 4 going round
the other way. Every cell of the ring is visited; all other cells are closed. -/
def ringWalls : Cells := fun cell =>
  if cell = 4 then 0xF9
  else if cell = 3 ∨ cell = 2 ∨ cell = 1 then 0xFA
  else if cell = 0 then 0xFC
  else if cell = 16 then 0xF6
  else if cell = 17 ∨ cell = 18 ∨ cell = 19 then 0xFA
  else if cell = 20 then 0xF3
  else 0x0F

/-- A cost field on the ring in which every cell of cost above 0 has an open exit to a cell
of cost one less, but which is not the flood toward cell 4: cell 2 carries the length of
the long way round, 8, next to cell 3 of cost 1. -/
def ringCost : Cells := fun cell =>
  if cell = 4 then 0
  else if cell = 3 then 1
  else if cell = 20 then 1
  else if cell = 19 then 2
  else if cell = 18 then 3
  else if cell = 17 then 4
  else if cell = 16 then 5
  else if cell = 0 then 6
  else if cell = 1 then 7
  else if cell = 2 then 8
  else 255

/-- The reference model whose flood toward any target is the ring cost field. -/
def ringModel : MazeModel := gridModel (fun _ _ => ringCost)

/-- The state of the walk through the sample maze after its first step: in cell 1, still
heading north, with cost 2 wanted next. -/
def sampleState : PathState :=
  { solved := true, cell := 1, nextCost := 2, commandIndex := 2, direction := 0,
    path := Buf.ofList "BF".toList }

/-! ## The mouse -/

/-- The global `mouse` (its type is declared in `mouse.h`, missing here): the fields that
`mouse.cpp` reads and writes. -/
structure Mouse where
  heading : Nat
  location : Nat
  leftWall : Bool
  frontWall : Bool
  rightWall : Bool
  handStart : Bool
deriving DecidableEq

/-- The calls that `mouse.cpp` makes into the motion, profile and motor modules. -/
inductive Motion where
  /-- The call `forward.start(distance, top_speed, end_speed, acceleration)`. -/
  | forward_start (distance topSpeed endSpeed acceleration : Int)
  /-- The call `spin_turn(angle, speed, acceleration)`. -/
  | spin_turn (angle speed acceleration : Int)
  /-- The call `turn(angle, speed, acceleration)`. -/
  | turn (angle speed acceleration : Int)
  /-- The call `wait_until_position(position)`. -/
  | wait_until_position (position : Int)
  /-- The call `stop_at(position)`. -/
  | stop_at (position : Int)
  | enable_steering
  | disable_steering
  | stop_motors
  /-- The call `wait_for_front_sensor()`. -/
  | wait_for_front_sensor
  /-- The call `delay(ms)`. -/
  | delay (ms : Int)
deriving DecidableEq

/-- The speed and acceleration constants of the configuration header and the goal cell,
all declared outside the sources at hand. -/
structure Config where
  SPEEDMAX_EXPLORE : Int
  SEARCH_ACCELERATION : Int
  SPEEDMAX_SPIN_TURN : Int
  SPIN_TURN_ACCELERATION : Int
  SPEEDMAX_SMOOTH_TURN : Int
  SPEEDMAX_STRAIGHT : Int
  GOAL : Nat

/-- One reading of the three wall sensors (`g_left_wall_present` and its siblings). -/
structure Sensors where
  left : Bool
  front : Bool
  right : Bool

/-- Everything `mouse.cpp` can read or change: its globals, the arrays of the maze module,
the static `direction` of `turnIP180`, the calls issued so far (oldest first) and the number
of sensor readings taken so far. Two more records keep what has happened: the number of
samples of `button_pressed()` taken so far, and every write to `mouseState` as the pair of
the value replaced and the value written (oldest first). -/
structure World where
  mouse : Mouse
  walls : Cells
  cost : Cells
  path : Buf
  commands : Buf
  mouseState : Nat
  direction : Int
  log : List Motion
  reads : Nat
  samples : Nat := 0
  phaseLog : List (Nat × Nat) := []

/-- Record a call into the motion layer. -/
def World.call (w : World) (c : Motion) : World :=
  { w with log := w.log ++ [c] }

/-- Modelled from the spec: `set_wall_present(cell, direction)` of `maze.cpp`, missing here;
"wall present in direction D at this cell" in the per-cell bitmap: bit `direction` of the
entry of `cell` is set and nothing else changes. -/
def set_wall_present (walls : Cells) (cell direction : Nat) : Cells :=
  fun j => if j = cell then walls cell ||| (1 <<< direction) else walls j

/-- A wall is recorded at `cell` in direction `d`. -/
def wallPresent (walls : Cells) (cell d : Nat) : Bool :=
  (walls cell).testBit d

/-- The statement `mouse.heading = (mouse.heading + k) & 0x03`. -/
def World.turnBy (w : World) (k : Nat) : World :=
  { w with mouse := { w.mouse with heading := (w.mouse.heading + k) % 4 } }

/-- The function `turnIP180`. -/
def turnIP180 (cfg : Config) (w : World) : World :=
  let direction := w.direction * (-1)
  let w := { w with direction := direction }
  let w := w.call (.spin_turn (direction * 180) cfg.SPEEDMAX_SPIN_TURN cfg.SPIN_TURN_ACCELERATION)
  w.turnBy 2

/-- The function `turnIP90R`. -/
def turnIP90R (cfg : Config) (w : World) : World :=
  (w.call (.spin_turn (-90) cfg.SPEEDMAX_SPIN_TURN cfg.SPIN_TURN_ACCELERATION)).turnBy 1

/-- The function `turnIP90L`. -/
def turnIP90L (cfg : Config) (w : World) : World :=
  (w.call (.spin_turn 90 cfg.SPEEDMAX_SPIN_TURN cfg.SPIN_TURN_ACCELERATION)).turnBy 3

/-- The function `mouseCheckWallSensors`: the next reading is copied into `mouse`. -/
def mouseCheckWallSensors (env : Nat → Sensors) (w : World) : World :=
  { w with
    mouse := { w.mouse with rightWall := (env w.reads).right,
                            leftWall := (env w.reads).left,
                            frontWall := (env w.reads).front },
    reads := w.reads + 1 }

/-- The function `stopAndAdjust`. -/
def stopAndAdjust (w : World) : World :=
  w.call (.stop_at 180)

/-- The statement `if (flag) set_wall_present(mouse.location, d);`. -/
def World.markIf (w : World) (flag : Bool) (d : Nat) : World :=
  if flag then { w with walls := set_wall_present w.walls w.mouse.location d } else w

/-- The function `mouseUpdateMapFromSensors`. -/
def mouseUpdateMapFromSensors (m : MazeModel) (w : World) : World :=
  let w1 :=
    if w.mouse.heading = NORTH then
      ((w.markIf w.mouse.frontWall NORTH).markIf w.mouse.rightWall EAST).markIf w.mouse.leftWall WEST
    else if w.mouse.heading = EAST then
      ((w.markIf w.mouse.frontWall EAST).markIf w.mouse.rightWall SOUTH).markIf w.mouse.leftWall NORTH
    else if w.mouse.heading = SOUTH then
      ((w.markIf w.mouse.frontWall SOUTH).markIf w.mouse.rightWall WEST).markIf w.mouse.leftWall EAST
    else if w.mouse.heading = WEST then
      ((w.markIf w.mouse.frontWall WEST).markIf w.mouse.rightWall NORTH).markIf w.mouse.leftWall SOUTH
    else
      w
  { w1 with walls := fun j =>
      if j = w1.mouse.location then w1.walls j ||| m.VISITED else w1.walls j }

/-- The statement `walls[mouse.location] |= mask`. -/
def World.orWalls (w : World) (mask : Nat) : World :=
  { w with walls := fun j => if j = w.mouse.location then w.walls j ||| mask else w.walls j }

/-- The function `mouseTurnToFace`. -/
def mouseTurnToFace (cfg : Config) (newHeading : Nat) (w : World) : World :=
  if w.mouse.heading = NORTH then
    if newHeading = EAST then turnIP90R cfg w
    else if newHeading = SOUTH then turnIP180 cfg w
    else if newHeading = WEST then turnIP90L cfg w
    else w
  else if w.mouse.heading = EAST then
    if newHeading = SOUTH then turnIP90R cfg w
    else if newHeading = WEST then turnIP180 cfg w
    else if newHeading = NORTH then turnIP90L cfg w
    else w
  else if w.mouse.heading = SOUTH then
    if newHeading = WEST then turnIP90R cfg w
    else if newHeading = NORTH then turnIP180 cfg w
    else if newHeading = EAST then turnIP90L cfg w
    else w
  else if w.mouse.heading = WEST then
    if newHeading = NORTH then turnIP90R cfg w
    else if newHeading = EAST then turnIP180 cfg w
    else if newHeading = SOUTH then turnIP90L cfg w
    else w
  else w

/-- The call `flood_maze(target)`: the cost array is recomputed from the walls. -/
def floodMaze (m : MazeModel) (target : Int) (w : World) : World :=
  { w with cost := m.flood_maze w.walls target }

/-- The `switch (hdgChange)` of `mouseSearchTo`. -/
def headingSwitch (cfg : Config) (hdgChange : Int) (w : World) : World :=
  if hdgChange = 0 then w.call (.wait_until_position 180)
  else if hdgChange = 1 then turnIP90R cfg (stopAndAdjust w)
  else if hdgChange = 2 then turnIP180 cfg (stopAndAdjust w)
  else if hdgChange = 3 then turnIP90L cfg (stopAndAdjust w)
  else w

/-- The `while (mouse.location != target)` loop of `mouseSearchTo` together with the
closing `return 0`: the value returned and the world left behind; `none` when the budget
ends first. -/
def searchLoop (cfg : Config) (m : MazeModel) (env : Nat → Sensors) (target : Int) :
    Nat → World → Option (Int × World)
  | 0, _ => none
  | fuel + 1, w =>
    if (w.mouse.location : Int) ≠ target then
      let w := w.call .enable_steering
      let w := w.call
        (.forward_start 25 cfg.SPEEDMAX_EXPLORE cfg.SPEEDMAX_EXPLORE cfg.SEARCH_ACCELERATION)
      let w := w.call (.wait_until_position 90)
      let w := { w with mouse :=
        { w.mouse with location := m.neighbour w.mouse.location w.mouse.heading } }
      let w := mouseCheckWallSensors env w
      let w := mouseUpdateMapFromSensors m w
      let w := floodMaze m target w
      if (w.mouse.location : Int) = target then
        some (0, stopAndAdjust w)
      else if w.cost w.mouse.location = m.MAX_COST then
        some (-1, stopAndAdjust w)
      else
        let newHeading :=
          m.direction_to_smallest w.walls w.cost w.mouse.location w.mouse.heading % 256
        let hdgChange := ((newHeading : Int) - (w.mouse.heading : Int)) % 4
        searchLoop cfg m env target fuel (headingSwitch cfg hdgChange w)
    else
      some (0, w)

/-- The function `mouseSearchTo(target)`. -/
def mouseSearchTo (cfg : Config) (m : MazeModel) (env : Nat → Sensors) (target : Int)
    (fuel : Nat) (w : World) : Option (Int × World) :=
  let w := floodMaze m target w
  if w.cost w.mouse.location = m.MAX_COST then
    some (-1, w)
  else
    let w :=
      if w.mouse.handStart then
        let w := { w with mouse := { w.mouse with handStart := false } }
        w.call
          (.forward_start 40 cfg.SPEEDMAX_EXPLORE cfg.SPEEDMAX_EXPLORE cfg.SEARCH_ACCELERATION)
      else
        let newHeading :=
          m.direction_to_smallest w.walls w.cost w.mouse.location w.mouse.heading % 256
        mouseTurnToFace cfg newHeading w
    searchLoop cfg m env target fuel w

/-- The turn the claim on `mouseTurnToFace` names for a heading change: none for 0, right 90
for 1, turn-around for 2, left 90 for 3. -/
def turnForChange (cfg : Config) (hdgChange : Int) (w : World) : World :=
  if hdgChange = 0 then w
  else if hdgChange = 1 then turnIP90R cfg w
  else if hdgChange = 2 then turnIP180 cfg w
  else turnIP90L cfg w

/-- The world in front of call number `n + 1` of `turnIP180`: `n` calls have been made, with
the code `between i` run behind call number `i` (and `between 0` from start-up to the first
call). -/
def turnArounds (cfg : Config) (between : Nat → World → World) : Nat → World → World
  | 0, w => between 0 w
  | n + 1, w => between (n + 1) (turnIP180 cfg (turnArounds cfg between n w))

/-! ## Running a path -/

/-- The function `turnSS90L`. -/
def turnSS90L (w : World) : World :=
  (w.call (.turn 90 200 2000)).turnBy 3

/-- The function `turnSS90R`. -/
def turnSS90R (w : World) : World :=
  (w.call (.turn (-90) 200 2000)).turnBy 1

/-- The function `move_forward(distance, top_speed, end_speed)`. -/
def move_forward (cfg : Config) (distance top_speed end_speed : Int) (w : World) : World :=
  w.call (.forward_start distance top_speed end_speed cfg.SEARCH_ACCELERATION)

/-- How the loop of a path executor is left. -/
inductive ExecExit where
  /-- The loop condition found `'S'` under the scan index. -/
  | stop
  /-- The sample of `button_pressed()` was true. -/
  | abort
  /-- The final `else` branch (instruction error). -/
  | error
deriving DecidableEq

/-- What a path executor leaves: the way its loop ended, the scan index at that point and
the world. -/
structure ExecResult where
  exit : ExecExit
  index : Nat
  world : World

/-- The statement `if (button_pressed())`: the next sample of the abort signal. -/
def World.sample (w : World) : World :=
  { w with samples := w.samples + 1 }

/-- The loop `while (commands[index] != 'S')` of `mouseRunInplaceTurns`; `none` when the
budget ends first. -/
def inplaceLoop (cfg : Config) (button : Nat → Bool) (topSpeed : Int) :
    Nat → Nat → World → Option ExecResult
  | 0, _, _ => none
  | fuel + 1, index, w =>
    if w.commands index = 'S' then
      some { exit := .stop, index := index, world := w }
    else if button w.samples then
      some { exit := .abort, index := index, world := w.sample }
    else if w.commands index = 'B' then
      inplaceLoop cfg button topSpeed fuel (index + 1) w.sample
    else if w.commands index = 'H' ∧ w.commands (index + 1) = 'R' ∧
        w.commands (index + 2) = 'H' then
      inplaceLoop cfg button topSpeed fuel (index + 3)
        (move_forward cfg 90 topSpeed topSpeed
          (turnIP90R cfg (move_forward cfg 90 topSpeed 0 w.sample)))
    else if w.commands index = 'H' ∧ w.commands (index + 1) = 'L' ∧
        w.commands (index + 2) = 'H' then
      inplaceLoop cfg button topSpeed fuel (index + 3)
        (move_forward cfg 90 topSpeed topSpeed
          (turnIP90L cfg (move_forward cfg 90 topSpeed 0 w.sample)))
    else if w.commands index = 'H' ∧ w.commands (index + 1) = 'H' then
      inplaceLoop cfg button topSpeed fuel (index + 1)
        (move_forward cfg 90 topSpeed topSpeed w.sample)
    else if w.commands index = 'H' ∧ w.commands (index + 1) = 'S' then
      inplaceLoop cfg button topSpeed fuel (index + 1)
        (move_forward cfg 90 topSpeed 0 w.sample)
    else
      some { exit := .error, index := index, world := w.sample }

/-- The loop `while (commands[index] != 'S')` of `mouseRunSmoothTurns`; `none` when the
budget ends first. -/
def smoothLoop (cfg : Config) (button : Nat → Bool) (topSpeed : Int) :
    Nat → Nat → World → Option ExecResult
  | 0, _, _ => none
  | fuel + 1, index, w =>
    if w.commands index = 'S' then
      some { exit := .stop, index := index, world := w }
    else if button w.samples then
      some { exit := .abort, index := index, world := w.sample }
    else if w.commands index = 'B' then
      smoothLoop cfg button topSpeed fuel (index + 1) w.sample
    else if w.commands index = 'H' ∧ w.commands (index + 1) = 'R' ∧
        w.commands (index + 2) = 'H' then
      smoothLoop cfg button topSpeed fuel (index + 3)
        (move_forward cfg 20 topSpeed topSpeed
          (turnSS90R (move_forward cfg 20 topSpeed cfg.SPEEDMAX_SMOOTH_TURN w.sample)))
    else if w.commands index = 'H' ∧ w.commands (index + 1) = 'L' ∧
        w.commands (index + 2) = 'H' then
      smoothLoop cfg button topSpeed fuel (index + 3)
        (move_forward cfg 20 topSpeed topSpeed
          (turnSS90L (move_forward cfg 20 topSpeed cfg.SPEEDMAX_SMOOTH_TURN w.sample)))
    else if w.commands index = 'H' ∧ w.commands (index + 1) = 'H' then
      smoothLoop cfg button topSpeed fuel (index + 1)
        (move_forward cfg 90 topSpeed topSpeed w.sample)
    else if w.commands index = 'H' ∧ w.commands (index + 1) = 'S' then
      smoothLoop cfg button topSpeed fuel (index + 1)
        (move_forward cfg 90 topSpeed 0 w.sample)
    else
      some { exit := .error, index := index, world := w.sample }

/-- The call `pathExpand(path)` on the globals: `commands` is rewritten; `none` when the
expander does not return or writes outside `commands`. -/
def World.expandPath (fuel : Nat) (w : World) : Option World :=
  match pathExpand fuel w.path w.commands with
  | .done commands _ => some { w with commands := commands }
  | _ => none

/-- The closing statement `mouse.location = GOAL` of both executors. -/
def ExecResult.atGoal (cfg : Config) (r : ExecResult) : ExecResult :=
  { r with world := { r.world with mouse := { r.world.mouse with location := cfg.GOAL } } }

/-- The function `mouseRunInplaceTurns(topSpeed)`. -/
def mouseRunInplaceTurns (cfg : Config) (button : Nat → Bool) (topSpeed : Int) (fuel : Nat)
    (w : World) : Option ExecResult :=
  match w.expandPath fuel with
  | some w1 => (inplaceLoop cfg button topSpeed fuel 0 w1).map (ExecResult.atGoal cfg)
  | none => none

/-- The function `mouseRunSmoothTurns(topSpeed)`. -/
def mouseRunSmoothTurns (cfg : Config) (button : Nat → Bool) (topSpeed : Int) (fuel : Nat)
    (w : World) : Option ExecResult :=
  match w.expandPath fuel with
  | some w1 => (smoothLoop cfg button topSpeed fuel 0 w1).map (ExecResult.atGoal cfg)
  | none => none

/-- What the in-place executor issues for one move symbol of the path once the scan stands
on the second half-cell of the symbol before it. -/
def inplaceSymLog (cfg : Config) (topSpeed : Int) (c : Char) : List Motion :=
  if c = 'R' then
    [.forward_start 90 topSpeed 0 cfg.SEARCH_ACCELERATION,
     .spin_turn (-90) cfg.SPEEDMAX_SPIN_TURN cfg.SPIN_TURN_ACCELERATION,
     .forward_start 90 topSpeed topSpeed cfg.SEARCH_ACCELERATION]
  else if c = 'L' then
    [.forward_start 90 topSpeed 0 cfg.SEARCH_ACCELERATION,
     .spin_turn 90 cfg.SPEEDMAX_SPIN_TURN cfg.SPIN_TURN_ACCELERATION,
     .forward_start 90 topSpeed topSpeed cfg.SEARCH_ACCELERATION]
  else
    [.forward_start 90 topSpeed topSpeed cfg.SEARCH_ACCELERATION,
     .forward_start 90 topSpeed topSpeed cfg.SEARCH_ACCELERATION]

/-- What the smooth executor issues for one move symbol of the path once the scan stands on
the second half-cell of the symbol before it. -/
def smoothSymLog (cfg : Config) (topSpeed : Int) (c : Char) : List Motion :=
  if c = 'R' then
    [.forward_start 20 topSpeed cfg.SPEEDMAX_SMOOTH_TURN cfg.SEARCH_ACCELERATION,
     .turn (-90) 200 2000,
     .forward_start 20 topSpeed topSpeed cfg.SEARCH_ACCELERATION]
  else if c = 'L' then
    [.forward_start 20 topSpeed cfg.SPEEDMAX_SMOOTH_TURN cfg.SEARCH_ACCELERATION,
     .turn 90 200 2000,
     .forward_start 20 topSpeed topSpeed cfg.SEARCH_ACCELERATION]
  else
    [.forward_start 90 topSpeed topSpeed cfg.SEARCH_ACCELERATION,
     .forward_start 90 topSpeed topSpeed cfg.SEARCH_ACCELERATION]

/-- The heading after the turns of a list of move symbols. -/
def headingAfter (h : Nat) : List Char → Nat
  | [] => h
  | c :: cs => headingAfter (if c = 'R' then (h + 1) % 4 else if c = 'L' then (h + 3) % 4 else h) cs

/-- A path string of the form `B F (F|R|L)* S`, with `mid` the symbols between the first
`F` and the `S`. -/
def runPath (mid : List Char) : List Char :=
  'B' :: 'F' :: mid ++ ['S']

/-- The symbols allowed between the first `F` and the `S`. -/
def isRunSymbol (c : Char) : Prop :=
  c = 'F' ∨ c = 'R' ∨ c = 'L'

instance (c : Char) : Decidable (isRunSymbol c) := by
  unfold isRunSymbol; infer_instance

/-- A call `forward.start` with distance 90, a half cell. -/
def Motion.isHalfCell : Motion → Bool
  | .forward_start 90 _ _ _ => true
  | _ => false

/-- A call `spin_turn`. -/
def Motion.isSpin : Motion → Bool
  | .spin_turn _ _ _ => true
  | _ => false

/-- The in-place turn a path symbol asks for: `R` a spin of -90, `L` a spin of 90. -/
def spinOf (cfg : Config) (c : Char) : Option Motion :=
  if c = 'R' then some (.spin_turn (-90) cfg.SPEEDMAX_SPIN_TURN cfg.SPIN_TURN_ACCELERATION)
  else if c = 'L' then some (.spin_turn 90 cfg.SPEEDMAX_SPIN_TURN cfg.SPIN_TURN_ACCELERATION)
  else none

/-- Every smooth turn in a list of calls stands between two forward moves, the one before
it ending at the speed `corner` and the one after it ending at the speed `top`. -/
def TurnsFramed (corner top : Int) (l : List Motion) : Prop :=
  ∀ k a s c, l[k]? = some (.turn a s c) →
    1 ≤ k ∧ (∃ d t acc, l[k - 1]? = some (.forward_start d t corner acc)) ∧
      (∃ d t acc, l[k + 1]? = some (.forward_start d t top acc))

/-- The branches of the `if` chain in the loop of a path executor: the skip of `B`, the
patterns `HRH`, `HLH`, `HH`, `HS`, and the final `else` (instruction error). -/
inductive Branch where
  | skipB
  | hrh
  | hlh
  | hh
  | hs
  | error
deriving DecidableEq

/-- The loop of `mouseRunInplaceTurns` with a record kept of the branch taken in each
iteration, oldest first; the statements are those of `inplaceLoop`. -/
def inplaceTrace (cfg : Config) (button : Nat → Bool) (topSpeed : Int) :
    Nat → Nat → World → Option (List Branch × ExecResult)
  | 0, _, _ => none
  | fuel + 1, index, w =>
    if w.commands index = 'S' then
      some ([], ⟨.stop, index, w⟩)
    else if button w.samples then
      some ([], ⟨.abort, index, w.sample⟩)
    else if w.commands index = 'B' then
      (inplaceTrace cfg button topSpeed fuel (index + 1) w.sample).map
        fun p => (Branch.skipB :: p.1, p.2)
    else if w.commands index = 'H' ∧ w.commands (index + 1) = 'R' ∧
        w.commands (index + 2) = 'H' then
      (inplaceTrace cfg button topSpeed fuel (index + 3)
        (move_forward cfg 90 topSpeed topSpeed
          (turnIP90R cfg (move_forward cfg 90 topSpeed 0 w.sample)))).map
        fun p => (Branch.hrh :: p.1, p.2)
    else if w.commands index = 'H' ∧ w.commands (index + 1) = 'L' ∧
        w.commands (index + 2) = 'H' then
      (inplaceTrace cfg button topSpeed fuel (index + 3)
        (move_forward cfg 90 topSpeed topSpeed
          (turnIP90L cfg (move_forward cfg 90 topSpeed 0 w.sample)))).map
        fun p => (Branch.hlh :: p.1, p.2)
    else if w.commands index = 'H' ∧ w.commands (index + 1) = 'H' then
      (inplaceTrace cfg button topSpeed fuel (index + 1)
        (move_forward cfg 90 topSpeed topSpeed w.sample)).map
        fun p => (Branch.hh :: p.1, p.2)
    else if w.commands index = 'H' ∧ w.commands (index + 1) = 'S' then
      (inplaceTrace cfg button topSpeed fuel (index + 1)
        (move_forward cfg 90 topSpeed 0 w.sample)).map
        fun p => (Branch.hs :: p.1, p.2)
    else
      some ([Branch.error], ⟨.error, index, w.sample⟩)

/-- The loop of `mouseRunSmoothTurns` with a record kept of the branch taken in each
iteration, oldest first; the statements are those of `smoothLoop`. -/
def smoothTrace (cfg : Config) (button : Nat → Bool) (topSpeed : Int) :
    Nat → Nat → World → Option (List Branch × ExecResult)
  | 0, _, _ => none
  | fuel + 1, index, w =>
    if w.commands index = 'S' then
      some ([], ⟨.stop, index, w⟩)
    else if button w.samples then
      some ([], ⟨.abort, index, w.sample⟩)
    else if w.commands index = 'B' then
      (smoothTrace cfg button topSpeed fuel (index + 1) w.sample).map
        fun p => (Branch.skipB :: p.1, p.2)
    else if w.commands index = 'H' ∧ w.commands (index + 1) = 'R' ∧
        w.commands (index + 2) = 'H' then
      (smoothTrace cfg button topSpeed fuel (index + 3)
        (move_forward cfg 20 topSpeed topSpeed
          (turnSS90R (move_forward cfg 20 topSpeed cfg.SPEEDMAX_SMOOTH_TURN w.sample)))).map
        fun p => (Branch.hrh :: p.1, p.2)
    else if w.commands index = 'H' ∧ w.commands (index + 1) = 'L' ∧
        w.commands (index + 2) = 'H' then
      (smoothTrace cfg button topSpeed fuel (index + 3)
        (move_forward cfg 20 topSpeed topSpeed
          (turnSS90L (move_forward cfg 20 topSpeed cfg.SPEEDMAX_SMOOTH_TURN w.sample)))).map
        fun p => (Branch.hlh :: p.1, p.2)
    else if w.commands index = 'H' ∧ w.commands (index + 1) = 'H' then
      (smoothTrace cfg button topSpeed fuel (index + 1)
        (move_forward cfg 90 topSpeed topSpeed w.sample)).map
        fun p => (Branch.hh :: p.1, p.2)
    else if w.commands index = 'H' ∧ w.commands (index + 1) = 'S' then
      (smoothTrace cfg button topSpeed fuel (index + 1)
        (move_forward cfg 90 topSpeed 0 w.sample)).map
        fun p => (Branch.hs :: p.1, p.2)
    else
      some ([Branch.error], ⟨.error, index, w.sample⟩)

/-- What the claim on the two strategies compares in a run of a loop: the branches taken,
the way the loop was left, the scan index, `mouse.heading`, `mouse.location` and the number
of samples of the abort signal taken. -/
def scanOutcome (p : List Branch × ExecResult) :
    List Branch × ExecExit × Nat × Nat × Nat × Nat :=
  (p.1, p.2.exit, p.2.index, p.2.world.mouse.heading, p.2.world.mouse.location,
    p.2.world.samples)

/-- What the claim on the two strategies compares in a call of an executor: the way the loop
was left, the scan index, `mouse.heading`, `mouse.location` and the number of samples of the
abort signal taken. -/
def ExecResult.outcome (r : ExecResult) : ExecExit × Nat × Nat × Nat × Nat :=
  (r.exit, r.index, r.world.mouse.heading, r.world.mouse.location, r.world.samples)

/-! ## The mission -/

/-- The phase constants of `mouse.h`, which is missing here: the values stored in
`mouseState`. -/
structure Phases where
  SEARCHING : Nat
  INPLACE_RUN : Nat
  SMOOTH_RUN : Nat
  FINISHED : Nat

/-- The four phase constants are different values. -/
def Phases.Distinct (ph : Phases) : Prop :=
  ph.SEARCHING ≠ ph.INPLACE_RUN ∧ ph.SEARCHING ≠ ph.SMOOTH_RUN ∧ ph.SEARCHING ≠ ph.FINISHED ∧
  ph.INPLACE_RUN ≠ ph.SMOOTH_RUN ∧ ph.INPLACE_RUN ≠ ph.FINISHED ∧
  ph.SMOOTH_RUN ≠ ph.FINISHED

instance (ph : Phases) : Decidable ph.Distinct := by
  unfold Phases.Distinct; infer_instance

/-- The place of a phase in the order SEARCHING, INPLACE_RUN, SMOOTH_RUN, FINISHED. -/
def Phases.rank (ph : Phases) (p : Nat) : Nat :=
  if p = ph.SEARCHING then 0
  else if p = ph.INPLACE_RUN then 1
  else if p = ph.SMOOTH_RUN then 2
  else 3

/-- The phase and the record of its writes. -/
def World.phase (w : World) : Nat × List (Nat × Nat) :=
  (w.mouseState, w.phaseLog)

/-- The assignment `mouseState = p`, kept in the record of writes. -/
def World.setPhase (w : World) (p : Nat) : World :=
  { w with mouseState := p, phaseLog := w.phaseLog ++ [(w.mouseState, p)] }

/-- The call `pathGenerate(0)` on the globals, its value dropped: `path` is rewritten. -/
def World.generatePath (m : MazeModel) (fuel : Nat) (w : World) : Option World :=
  (pathGenerate m w.walls w.cost fuel 0 w.path).map (fun s => { w with path := s.path })

/-- The statements of the `SEARCHING` block of `mouseRunMaze` up to its first search. -/
def searchingStart (w : World) : World :=
  let w := w.call .wait_for_front_sensor
  let w := { w with mouse := { w.mouse with handStart := true } }
  let w := w.call .enable_steering
  { w with mouse := { w.mouse with location := 0, heading := NORTH } }

/-- The block `if (mouseState == SEARCHING) { ... }` of `mouseRunMaze`, once entered. The
values returned by the two searches are dropped, as in the source. -/
def searchingBlock (cfg : Config) (ph : Phases) (m : MazeModel) (env : Nat → Sensors)
    (fuel : Nat) (w : World) : Option World := do
  let r1 ← mouseSearchTo cfg m env cfg.GOAL fuel (searchingStart w)
  let r2 ← mouseSearchTo cfg m env 0 fuel r1.2
  let w := mouseTurnToFace cfg NORTH r2.2
  let w := w.call (.delay 200)
  pure (w.setPhase ph.INPLACE_RUN)

/-- The block `if (mouseState == INPLACE_RUN) { ... }` of `mouseRunMaze`, once entered. -/
def inplaceBlock (cfg : Config) (ph : Phases) (m : MazeModel) (env : Nat → Sensors)
    (button : Nat → Bool) (fuel : Nat) (w : World) : Option World := do
  let w ← (floodMaze m cfg.GOAL w).generatePath m fuel
  let w := w.call .wait_for_front_sensor
  let r ← mouseRunInplaceTurns cfg button cfg.SPEEDMAX_STRAIGHT fuel w
  let r2 ← mouseSearchTo cfg m env 0 fuel r.world
  pure (r2.2.setPhase ph.SMOOTH_RUN)

/-- The block `if (mouseState == SMOOTH_RUN) { ... }` of `mouseRunMaze`, once entered. -/
def smoothBlock (cfg : Config) (ph : Phases) (m : MazeModel) (env : Nat → Sensors)
    (button : Nat → Bool) (fuel : Nat) (w : World) : Option World := do
  let w ← (floodMaze m cfg.GOAL w).generatePath m fuel
  let w := mouseTurnToFace cfg
    (m.direction_to_smallest w.walls w.cost w.mouse.location w.mouse.heading % 256) w
  let w := w.call (.delay 200)
  let w := w.call .wait_for_front_sensor
  let r ← mouseRunSmoothTurns cfg button cfg.SPEEDMAX_STRAIGHT fuel w
  let r2 ← mouseSearchTo cfg m env 0 fuel r.world
  pure (r2.2.setPhase ph.FINISHED)

/-- The function `mouseRunMaze`: the value returned and the world left; `none` when one of
the loops inside does not leave within the budget. The printing calls are left out. -/
def mouseRunMaze (cfg : Config) (ph : Phases) (m : MazeModel) (env : Nat → Sensors)
    (button : Nat → Bool) (fuel : Nat) (w : World) : Option (Int × World) :=
  (if w.mouseState = ph.SEARCHING then searchingBlock cfg ph m env fuel w
    else some w).bind fun w =>
  (if w.mouseState = ph.INPLACE_RUN then inplaceBlock cfg ph m env button fuel w
    else some w).bind fun w =>
  (if w.mouseState = ph.SMOOTH_RUN then smoothBlock cfg ph m env button fuel w
    else some w).bind fun w =>
  some (0, w.call .stop_motors)

/-! ## Sample worlds -/

/-- A configuration with plain numbers for the speeds and the goal in cell 2. -/
def sampleConfig : Config :=
  { SPEEDMAX_EXPLORE := 400, SEARCH_ACCELERATION := 2000, SPEEDMAX_SPIN_TURN := 400,
    SPIN_TURN_ACCELERATION := 4000, SPEEDMAX_SMOOTH_TURN := 300, SPEEDMAX_STRAIGHT := 800,
    GOAL := 2 }

/-- Sensors that see no wall at any reading. -/
def quietSensors : Nat → Sensors :=
  fun _ => { left := false, front := false, right := false }

/-- The mouse at rest in cell 0 heading north, hand-placed, nothing issued yet. -/
def startWorld (walls : Cells) : World :=
  { mouse := { heading := 0, location := 0, leftWall := false, frontWall := false,
               rightWall := false, handStart := true },
    walls := walls, cost := fun _ => 0, path := fun _ => NUL, commands := fun _ => NUL,
    mouseState := 0, direction := 1, log := [], reads := 0 }

/-- The mouse in cell 1 of the sample maze heading east, seeing a wall ahead and to its
left. -/
def sensingWorld : World :=
  { mouse := { heading := 1, location := 1, leftWall := true, frontWall := true,
               rightWall := false, handStart := false },
    walls := fun _ => 0, cost := fun _ => 0, path := fun _ => NUL, commands := fun _ => NUL,
    mouseState := 0, direction := 1, log := [], reads := 0 }

/-- Phase constants numbered in mission order from 1. -/
def samplePhases : Phases :=
  { SEARCHING := 1, INPLACE_RUN := 2, SMOOTH_RUN := 3, FINISHED := 4 }

/-- The abort signal that is never raised. -/
def noAbort : Nat → Bool :=
  fun _ => false

/-- The reference model of a maze in which every cell is walled in: whatever the target, the
flood reaches the target alone. -/
def walledInModel : MazeModel :=
  gridModel (fun _ target cell => if (cell : Int) = target then 0 else 255)

/-- The mouse in cell 0 of the closed maze, heading north, with the mission in its
searching phase. -/
def walledInWorld : World :=
  { mouse := { heading := 0, location := 0, leftWall := false, frontWall := false,
               rightWall := false, handStart := false },
    walls := closedWalls, cost := fun _ => 0, path := fun _ => NUL, commands := fun _ => NUL,
    mouseState := 1, direction := 1, log := [], reads := 0 }

/-- The mouse at rest in cell 0 heading north with `path` holding the given string. -/
def pathWorld (s : List Char) : World :=
  { mouse := { heading := 0, location := 0, leftWall := false, frontWall := false,
               rightWall := false, handStart := false },
    walls := sampleWalls, cost := sampleCost, path := Buf.ofList s, commands := fun _ => NUL,
    mouseState := 0, direction := 1, log := [], reads := 0 }

/-- The mouse heading south in cell 5, at rest, after an odd number of turn-arounds. -/
def southWorld : World :=
  { mouse := { heading := 2, location := 5, leftWall := false, frontWall := false,
               rightWall := false, handStart := false },
    walls := fun _ => 0, cost := fun _ => 0, path := fun _ => NUL, commands := fun _ => NUL,
    mouseState := 0, direction := -1, log := [], reads := 0 }

/-- The mouse at rest in cell 5 heading east, with `mouseState` holding the byte 77, which is
none of the sample phase constants. -/
def coldWorld : World :=
  { mouse := { heading := 1, location := 5, leftWall := false, frontWall := false,
               rightWall := false, handStart := false },
    walls := closedWalls, cost := fun _ => 0, path := fun _ => NUL, commands := fun _ => NUL,
    mouseState := 77, direction := 1, log := [], reads := 0 }

/-- A straight of 127 cells: `B`, 127 times `F`, `S`; 129 characters. -/
def longStraight : List Char :=
  'B' :: (List.replicate 127 'F' ++ ['S'])

/-! ## Lemmas on buffers -/

theorem Buf.write_same (buf : Buf) (i : Nat) (c : Char) : buf.write i c i = c := by
  simp [Buf.write]

theorem Buf.write_other (buf : Buf) (i j : Nat) (c : Char) (h : j ≠ i) :
    buf.write i c j = buf j := by
  simp [Buf.write, h]

theorem Buf.writeList_below (l : List Char) (buf : Buf) (i j : Nat) (h : j < i) :
    buf.writeList i l j = buf j := by
  induction l generalizing buf i with
  | nil => rfl
  | cons c cs ih =>
    simp only [Buf.writeList]
    rw [ih (buf.write i c) (i + 1) (by omega), Buf.write_other buf i j c (by omega)]

theorem Buf.writeList_at (l : List Char) (buf : Buf) (i k : Nat) (h : k < l.length) :
    buf.writeList i l (i + k) = l.getD k NUL := by
  induction l generalizing buf i k with
  | nil => simp at h
  | cons c cs ih =>
    simp only [Buf.writeList]
    cases k with
    | zero =>
      show (buf.write i c).writeList (i + 1) cs i = _
      rw [Buf.writeList_below cs (buf.write i c) (i + 1) i (by omega), Buf.write_same]
      simp
    | succ k =>
      have := ih (buf.write i c) (i + 1) k (by simpa using h)
      rw [show i + (k + 1) = i + 1 + k by omega, this]
      simp

theorem Buf.writeList_append (a b : List Char) (buf : Buf) (i : Nat) :
    buf.writeList i (a ++ b) = (buf.writeList i a).writeList (i + a.length) b := by
  induction a generalizing buf i with
  | nil => simp [Buf.writeList]
  | cons c cs ih =>
    show (buf.write i c).writeList (i + 1) (cs ++ b) = _
    simp only [Buf.writeList, List.length_cons]
    rw [ih, show i + 1 + cs.length = i + (cs.length + 1) by omega]

/-- Reading a C string back: a buffer that carries `t` (free of NUL) from `i` on, then a
NUL, yields `t`. -/
theorem Buf.cstrFrom_of_holds (t : List Char) (buf : Buf) (n i : Nat)
    (hget : ∀ k, k < t.length → buf (i + k) = t.getD k NUL)
    (hend : buf (i + t.length) = NUL) (hnul : NUL ∉ t) (hlen : t.length < n) :
    buf.cstrFrom n i = t := by
  induction t generalizing n i with
  | nil =>
    cases n with
    | zero => simp at hlen
    | succ n => simpa [Buf.cstrFrom] using hend
  | cons c cs ih =>
    cases n with
    | zero => simp at hlen
    | succ n =>
      have h0 : buf i = c := by simpa using hget 0 (by simp)
      have hc : c ≠ NUL := fun h => hnul (by simp [h])
      simp only [Buf.cstrFrom, h0, hc, if_false]
      congr 1
      apply ih
      · intro k hk
        have := hget (k + 1) (by simpa using hk)
        rw [show i + 1 + k = i + (k + 1) by omega, this]
        simp
      · rw [show i + 1 + cs.length = i + (c :: cs).length by simp; omega]
        exact hend
      · exact fun h => hnul (List.mem_cons_of_mem _ h)
      · simpa using hlen

/-! ## Lemmas on pathExpand -/

theorem expandRule_no_NUL (c : Char) : NUL ∉ expandRule c := by
  unfold expandRule
  split_ifs <;> decide

theorem expandSpec_no_NUL (s : List Char) : NUL ∉ expandSpec s := by
  simp only [expandSpec, List.mem_flatMap, not_exists, not_and]
  exact fun c _ => expandRule_no_NUL c

theorem expandSpec_cons (c : Char) (s : List Char) :
    expandSpec (c :: s) = expandRule c ++ expandSpec s := by
  simp [expandSpec]

/-- One loop body on an accepted symbol: its rule is stored and both indices move on. -/
theorem expandSwitch_alphabet (c : Char) (st : ExpandState) (hc : inExpandAlphabet c)
    (hfit : st.commandIndex + (expandRule c).length < BUFSIZE) :
    expandSwitch c st = .ok
      { pathIndex := st.pathIndex + 1,
        commandIndex := st.commandIndex + (expandRule c).length,
        commands := st.commands.writeList st.commandIndex (expandRule c) } := by
  rcases hc with h | h | h | h | h | h <;> subst h <;>
    simp [expandRule, BUFSIZE] at hfit <;>
    simp (disch := omega) [expandSwitch, expandRule, ExpandState.emit, ExpandState.advance,
      Buf.writeList, BUFSIZE, bind, Except.bind, pure, Except.pure, if_pos]

/-- One loop body on a symbol outside the alphabet changes nothing. -/
theorem expandSwitch_unknown (c : Char) (st : ExpandState) (hc : ¬ inExpandAlphabet c) :
    expandSwitch c st = .ok st := by
  simp only [inExpandAlphabet, not_or] at hc
  obtain ⟨hB, hsp, hF, hR, hL, hS⟩ := hc
  simp [expandSwitch, hB, hsp, hF, hR, hL, hS, pure, Except.pure]

theorem inExpandAlphabet_ne_NUL (c : Char) (hc : inExpandAlphabet c) : c ≠ NUL := by
  rcases hc with h | h | h | h | h | h <;> subst h <;> decide

/-- The loop on a string of accepted symbols whose expansion fits: it leaves after
`suf.length + 1` tests of the loop condition with the expansion stored and terminated. -/
theorem expandLoop_alphabet (pathString : Buf) (suf : List Char) :
    ∀ (st : ExpandState) (fuel : Nat),
      (∀ j, j ≤ suf.length → pathString (st.pathIndex + j) = suf.getD j NUL) →
      (∀ c ∈ suf, inExpandAlphabet c) →
      st.commandIndex + (expandSpec suf).length < BUFSIZE →
      suf.length < fuel →
      expandLoop pathString fuel st =
        .done ((st.commands.writeList st.commandIndex (expandSpec suf)).write
                (st.commandIndex + (expandSpec suf).length) NUL)
              (st.commandIndex + (expandSpec suf).length) := by
  induction suf with
  | nil =>
    intro st fuel hstr _ hfit hfuel
    obtain ⟨fuel, rfl⟩ : ∃ f, fuel = f + 1 := ⟨fuel - 1, by simp at hfuel; omega⟩
    have h0 : pathString st.pathIndex = NUL := by simpa using hstr 0 (by simp)
    simp only [expandSpec, List.flatMap_nil, List.length_nil, Nat.add_zero] at hfit ⊢
    simp [expandLoop, h0, hfit, Buf.writeList]
  | cons c cs ih =>
    intro st fuel hstr halpha hfit hfuel
    obtain ⟨fuel, rfl⟩ : ∃ f, fuel = f + 1 := ⟨fuel - 1, by simp at hfuel; omega⟩
    have hc : inExpandAlphabet c := halpha c (by simp)
    have h0 : pathString st.pathIndex = c := by simpa using hstr 0 (by simp)
    rw [expandSpec_cons, List.length_append] at hfit
    rw [expandLoop, h0, if_neg (inExpandAlphabet_ne_NUL c hc),
      expandSwitch_alphabet c st hc (by omega)]
    simp only
    rw [ih _ fuel ?_ (fun x hx => halpha x (List.mem_cons_of_mem _ hx)) (by simpa using by omega)
      (by simpa using hfuel)]
    · simp only [expandSpec_cons, List.length_append, Buf.writeList_append, Nat.add_assoc]
    · intro j hj
      have := hstr (j + 1) (by simpa using hj)
      simp only [List.getD_cons_succ] at this
      rw [← this]
      show pathString (st.pathIndex + 1 + j) = _
      congr 1
      omega

/-- The loop never leaves once the scan stands on a symbol outside the alphabet. -/
theorem expandLoop_stuck (pathString : Buf) (st : ExpandState)
    (hbad : ¬ inExpandAlphabet (pathString st.pathIndex))
    (hnul : pathString st.pathIndex ≠ NUL) :
    ∀ fuel, expandLoop pathString fuel st = .timeout := by
  intro fuel
  induction fuel with
  | zero => rfl
  | succ fuel ih =>
    rw [expandLoop, if_neg hnul, expandSwitch_unknown _ st hbad]
    exact ih

/-- The loop on a string that has accepted symbols `pre` (whose expansion fits) followed by
a symbol outside the alphabet: no iteration budget is enough for it to leave. -/
theorem expandLoop_unknown (pathString : Buf) (pre : List Char) :
    ∀ (st : ExpandState) (fuel : Nat),
      (∀ j, j < pre.length → pathString (st.pathIndex + j) = pre.getD j NUL) →
      (∀ c ∈ pre, inExpandAlphabet c) →
      ¬ inExpandAlphabet (pathString (st.pathIndex + pre.length)) →
      pathString (st.pathIndex + pre.length) ≠ NUL →
      st.commandIndex + (expandSpec pre).length < BUFSIZE →
      expandLoop pathString fuel st = .timeout := by
  induction pre with
  | nil =>
    intro st fuel _ _ hbad hnul _
    exact expandLoop_stuck pathString st (by simpa using hbad) (by simpa using hnul) fuel
  | cons c cs ih =>
    intro st fuel hstr halpha hbad hnul hfit
    cases fuel with
    | zero => rfl
    | succ fuel =>
      have hc : inExpandAlphabet c := halpha c (by simp)
      have h0 : pathString st.pathIndex = c := by simpa using hstr 0 (by simp)
      rw [expandSpec_cons, List.length_append] at hfit
      rw [expandLoop, h0, if_neg (inExpandAlphabet_ne_NUL c hc),
        expandSwitch_alphabet c st hc (by omega)]
      simp only
      have e : st.pathIndex + 1 + cs.length = st.pathIndex + (c :: cs).length := by
        simp only [List.length_cons]; omega
      apply ih
      · intro j hj
        have := hstr (j + 1) (by simpa using hj)
        simp only [List.getD_cons_succ] at this
        rw [← this]
        show pathString (st.pathIndex + 1 + j) = _
        congr 1
        omega
      · exact fun x hx => halpha x (List.mem_cons_of_mem _ hx)
      · simpa only [e] using hbad
      · simpa only [e] using hnul
      · simpa using by omega

/-- A buffer into which `t` was stored from index 0 on, followed by a NUL, holds `t`. -/
theorem Buf.cstr_writeList (buf : Buf) (t : List Char) (hnul : NUL ∉ t)
    (hlen : t.length < BUFSIZE) :
    ((buf.writeList 0 t).write t.length NUL).cstr = t := by
  apply Buf.cstrFrom_of_holds t _ BUFSIZE 0 _ _ hnul hlen
  · intro k hk
    rw [Nat.zero_add, Buf.write_other _ _ _ _ (by omega)]
    simpa using Buf.writeList_at t buf 0 k hk
  · rw [Nat.zero_add, Buf.write_same]

/-! ## Theorems on pathExpand -/

/-- C1: on a NUL-terminated path string over B, space, F, R, L, S whose expansion fits the
commands buffer, `pathExpand` returns (any budget above the length of the string is
enough), and `commands` then holds the C string made of one `B` followed by the rewrites
of the input symbols in order (`HH` for F, `RHH` for R, `LHH` for L, `S` for S, nothing for
B and space), with the NUL right behind it. -/
theorem pathExpand_rewrites (pathString commands0 : Buf) (s : List Char) (fuel : Nat)
    (hstr : pathString.holds s) (halpha : ∀ c ∈ s, inExpandAlphabet c)
    (hfit : ('B' :: expandSpec s).length < BUFSIZE) (hfuel : s.length < fuel) :
    ∃ commands,
      pathExpand fuel pathString commands0 = .done commands ('B' :: expandSpec s).length ∧
      commands.cstr = 'B' :: expandSpec s ∧
      commands ('B' :: expandSpec s).length = NUL := by
  have hrun := expandLoop_alphabet pathString s
    { pathIndex := 0, commandIndex := 1, commands := commands0.write 0 'B' } fuel
    (by intro j hj; simpa using hstr j hj) halpha
    (by simp only [List.length_cons] at hfit; simpa [Nat.add_comm] using hfit) hfuel
  simp only at hrun
  have hbuf : (commands0.write 0 'B').writeList 1 (expandSpec s)
      = commands0.writeList 0 ('B' :: expandSpec s) := rfl
  have hlen : 1 + (expandSpec s).length = ('B' :: expandSpec s).length := by
    simp [Nat.add_comm]
  rw [hbuf, hlen] at hrun
  refine ⟨_, hrun, ?_, Buf.write_same _ _ _⟩
  apply Buf.cstr_writeList _ _ _ hfit
  simp only [List.mem_cons, not_or]
  exact ⟨by decide, expandSpec_no_NUL s⟩

/-- Witness of C1: the input `BFRFLS` yields exactly `BHHRHHHHLHHS`. -/
theorem pathExpand_rewrites_witness :
    (Buf.ofList "BFRFLS".toList).holds "BFRFLS".toList ∧
    (∀ c ∈ "BFRFLS".toList, inExpandAlphabet c) ∧
    ('B' :: expandSpec "BFRFLS".toList).length < BUFSIZE ∧
    "BFRFLS".toList.length < 7 ∧
    ∃ commands,
      pathExpand 7 (Buf.ofList "BFRFLS".toList) (fun _ => 'x') = .done commands 12 ∧
      commands.cstr = "BHHRHHHHLHHS".toList ∧ commands 12 = NUL :=
  ⟨fun _ _ => rfl, by decide, by decide, by decide,
   pathExpand_rewrites (Buf.ofList "BFRFLS".toList) (fun _ => 'x') "BFRFLS".toList 7
     (fun _ _ => rfl) (by decide) (by decide) (by decide)⟩

/-- C2: on a path string with a symbol outside B, space, F, R, L, S (here after a stretch
`pre` of accepted symbols whose expansion fits), `pathExpand` does not stop and return: the
`default` branch leaves the switch without advancing the scan, so the loop tests the same
symbol again and again, and no iteration budget lets the function return. -/
theorem pathExpand_unknown_symbol_never_returns (pathString commands0 : Buf)
    (pre : List Char) (fuel : Nat)
    (hpre : ∀ j, j < pre.length → pathString j = pre.getD j NUL)
    (halpha : ∀ c ∈ pre, inExpandAlphabet c)
    (hbad : ¬ inExpandAlphabet (pathString pre.length))
    (hnul : pathString pre.length ≠ NUL)
    (hfit : ('B' :: expandSpec pre).length < BUFSIZE) :
    pathExpand fuel pathString commands0 = .timeout := by
  apply expandLoop_unknown pathString pre _ fuel
  · intro j hj; simpa using hpre j hj
  · exact halpha
  · simpa using hbad
  · simpa using hnul
  · simp only [List.length_cons] at hfit; simpa [Nat.add_comm] using hfit

/-- Witness of C2: on `BFAS`, whose `A` is a symbol `pathGenerate` can emit, a thousand
iterations are not enough. -/
theorem pathExpand_unknown_symbol_never_returns_witness :
    (∀ j, j < "BF".toList.length → Buf.ofList "BFAS".toList j = "BF".toList.getD j NUL) ∧
    (∀ c ∈ "BF".toList, inExpandAlphabet c) ∧
    ¬ inExpandAlphabet (Buf.ofList "BFAS".toList "BF".toList.length) ∧
    Buf.ofList "BFAS".toList "BF".toList.length ≠ NUL ∧
    ('B' :: expandSpec "BF".toList).length < BUFSIZE ∧
    pathExpand 1000 (Buf.ofList "BFAS".toList) (fun _ => NUL) = .timeout :=
  ⟨by decide, by decide, by decide, by decide, by decide,
   pathExpand_unknown_symbol_never_returns (Buf.ofList "BFAS".toList) (fun _ => NUL)
     "BF".toList 1000 (by decide) (by decide) (by decide) (by decide) (by decide)⟩

/-! ## Theorems on pathGenerate -/

/-- For a heading in 0..3 the four case blocks agree with the rule of the specification;
when no candidate qualifies the command is `S` and the heading stays. -/
theorem pathSwitch_eq_firstExit (m : MazeModel) (walls cost : Cells) (cell d : Nat)
    (nextCost : Int) (hd : d < 4) :
    pathSwitch m walls cost cell d nextCost
      = (firstExit m walls cost cell d nextCost).getD ('S', d) := by
  interval_cases d <;>
    simp only [pathSwitch, firstExit, candidates, List.find?, NORTH, EAST, SOUTH, WEST,
      DtoR, DtoL, DtoB] <;>
    cases exitWithCost m walls cost cell 0 nextCost <;>
    cases exitWithCost m walls cost cell 1 nextCost <;>
    cases exitWithCost m walls cost cell 2 nextCost <;>
    cases exitWithCost m walls cost cell 3 nextCost <;>
    simp

/-- What the rule selects is a move symbol with a heading in 0..3 that passes the test. -/
theorem firstExit_some (m : MazeModel) (walls cost : Cells) (cell d : Nat) (nextCost : Int)
    (hd : d < 4) (p : Char × Nat) (h : firstExit m walls cost cell d nextCost = some p) :
    isMoveSymbol p.1 ∧ p.2 < 4 ∧ exitWithCost m walls cost cell p.2 nextCost = true := by
  have hmem := List.mem_of_find?_eq_some h
  have htest := List.find?_some h
  refine ⟨?_, ?_, htest⟩
  · simp only [candidates, List.mem_cons, List.mem_singleton, List.not_mem_nil, or_false] at hmem
    rcases hmem with rfl | rfl | rfl | rfl <;> simp [isMoveSymbol]
  · simp only [candidates, List.mem_cons, List.mem_singleton, List.not_mem_nil, or_false] at hmem
    rcases hmem with rfl | rfl | rfl | rfl <;> simp only <;> omega

/-- The rule selects something as soon as some direction in 0..3 passes the test. -/
theorem firstExit_isSome (m : MazeModel) (walls cost : Cells) (cell d e : Nat)
    (nextCost : Int) (hd : d < 4) (he : e < 4)
    (h : exitWithCost m walls cost cell e nextCost = true) :
    ∃ p, firstExit m walls cost cell d nextCost = some p := by
  have hmem : ∃ c, (c, e) ∈ candidates d := by
    interval_cases d <;> interval_cases e <;> simp [candidates]
  obtain ⟨c, hc⟩ := hmem
  have : ((candidates d).find? (fun p => exitWithCost m walls cost cell p.2 nextCost)).isSome := by
    rw [List.find?_isSome]
    exact ⟨(c, e), hc, h⟩
  exact Option.isSome_iff_exists.mp this

/-- C3: at a step of `pathGenerate` with heading `d` in 0..3 and remaining cost `nextCost`,
if `(sym, dir)` is the first of F, R, L, A (directions `d`, `d+1`, `d+3`, `d+2` modulo 4)
whose direction is an open exit of the cell with neighbour cost `nextCost`, then the step
writes `sym` at the write index, the heading becomes `dir` (which is `d` itself for F) and
the cell becomes the neighbour of the old cell in direction `dir`. This holds for each of
the four case blocks. -/
theorem pathStep_takes_first_exit (m : MazeModel) (walls cost : Cells) (s : PathState)
    (sym : Char) (dir : Nat) (hd : s.direction < 4)
    (hfirst : firstExit m walls cost s.cell s.direction s.nextCost = some (sym, dir)) :
    stepSymbol m walls cost s = sym ∧
    (pathStep m walls cost s).path s.commandIndex = sym ∧
    (pathStep m walls cost s).direction = dir ∧
    (pathStep m walls cost s).cell = nextCell m s.cell dir ∧
    (sym = 'F' → dir = s.direction) := by
  have hsw := pathSwitch_eq_firstExit m walls cost s.cell s.direction s.nextCost hd
  rw [hfirst, Option.getD_some] at hsw
  refine ⟨?_, ?_, ?_, ?_, ?_⟩
  · simp [stepSymbol, hsw]
  · simp [pathStep, hsw, Buf.write_same]
  · simp [pathStep, hsw]
  · simp [pathStep, hsw]
  · intro hF
    subst hF
    have hmem := List.mem_of_find?_eq_some hfirst
    simp only [candidates, List.mem_cons, List.mem_singleton, List.not_mem_nil, or_false,
      Prod.mk.injEq] at hmem
    rcases hmem with h | h | h | h
    · exact h.2
    · exact absurd h.1 (by decide)
    · exact absurd h.1 (by decide)
    · exact absurd h.1 (by decide)

/-- Witness of C3: in cell 1 of the sample maze, heading north, the way ahead is walled and
the exit to the east has the wanted cost, so the step writes `R`, turns east and enters
cell 17. -/
theorem pathStep_takes_first_exit_witness :
    sampleState.direction < 4 ∧
    firstExit sampleModel sampleWalls sampleCost sampleState.cell sampleState.direction
      sampleState.nextCost = some ('R', 1) ∧
    stepSymbol sampleModel sampleWalls sampleCost sampleState = 'R' ∧
    (pathStep sampleModel sampleWalls sampleCost sampleState).path sampleState.commandIndex
      = 'R' ∧
    (pathStep sampleModel sampleWalls sampleCost sampleState).direction = 1 ∧
    (pathStep sampleModel sampleWalls sampleCost sampleState).cell
      = nextCell sampleModel sampleState.cell 1 ∧
    ('R' = 'F' → 1 = sampleState.direction) :=
  ⟨by decide, by decide,
   pathStep_takes_first_exit sampleModel sampleWalls sampleCost sampleState 'R' 1
     (by decide) (by decide)⟩

/-- On a consistent flood, a step from a reachable cell of positive cost writes a move
symbol, leaves through an open exit and lowers the cost by one. -/
theorem pathStep_descends (m : MazeModel) (walls cost : Cells) (s : PathState)
    (hcons : ConsistentFlood m walls cost) (hcell : s.cell < 256) (hdir : s.direction < 4)
    (hnc : s.nextCost = (cost s.cell : Int) - 1) (hpos : 0 ≤ s.nextCost)
    (hfin : cost s.cell < m.MAX_COST) :
    isMoveSymbol (stepSymbol m walls cost s) ∧
    stepHeading m walls cost s < 4 ∧
    m.is_exit walls s.cell (stepHeading m walls cost s) = true ∧
    (pathStep m walls cost s).cell = nextCell m s.cell (stepHeading m walls cost s) ∧
    cost (pathStep m walls cost s).cell + 1 = cost s.cell := by
  have hcpos : 0 < cost s.cell := by omega
  obtain ⟨e, he, hexit, hcost⟩ := hcons.2 s.cell hcell hcpos hfin
  have htest : exitWithCost m walls cost s.cell e s.nextCost = true := by
    simp only [exitWithCost, hexit, Bool.true_and, decide_eq_true_eq]
    rw [hcons.1 s.cell hcell e he hexit, hnc]
    omega
  obtain ⟨p, hp⟩ := firstExit_isSome m walls cost s.cell s.direction e s.nextCost hdir he htest
  obtain ⟨hsym, hlt, hpass⟩ := firstExit_some m walls cost s.cell s.direction s.nextCost hdir p hp
  have hsw := pathSwitch_eq_firstExit m walls cost s.cell s.direction s.nextCost hdir
  rw [hp, Option.getD_some] at hsw
  simp only [exitWithCost, Bool.and_eq_true, decide_eq_true_eq] at hpass
  have hnb := hcons.1 s.cell hcell p.2 hlt hpass.1
  have hstep : (pathStep m walls cost s).cell = nextCell m s.cell p.2 := by
    simp [pathStep, hsw]
  refine ⟨by simpa [stepSymbol, hsw] using hsym, by simpa [stepHeading, hsw] using hlt,
    by simpa [stepHeading, hsw] using hpass.1, by simpa [stepHeading, hsw] using hstep, ?_⟩
  rw [hstep]
  have h2 := hpass.2
  rw [hnb, hnc] at h2
  omega

/-- The loop on a consistent flood: it leaves on a cell of cost 0 and every step of the
walk goes through an open exit to a cell of cost one less, writing a move symbol. -/
theorem pathLoop_descends (m : MazeModel) (walls cost : Cells)
    (hcons : ConsistentFlood m walls cost) :
    ∀ (fuel : Nat) (s : PathState), s.cell < 256 →
      s.nextCost = (cost s.cell : Int) - 1 → cost s.cell < m.MAX_COST →
      (0 ≤ s.nextCost → s.direction < 4) → cost s.cell < fuel →
      ∃ final, pathLoop m walls cost fuel s = some final ∧ cost final.cell = 0 ∧
        ∀ t ∈ pathWalk m walls cost fuel s,
          isMoveSymbol (stepSymbol m walls cost t) ∧
          stepHeading m walls cost t < 4 ∧
          m.is_exit walls t.cell (stepHeading m walls cost t) = true ∧
          (pathStep m walls cost t).cell = nextCell m t.cell (stepHeading m walls cost t) ∧
          cost (pathStep m walls cost t).cell + 1 = cost t.cell := by
  intro fuel
  induction fuel with
  | zero => intro s _ _ _ _ hfuel; omega
  | succ fuel ih =>
    intro s hcell hnc hfin hdir hfuel
    by_cases hpos : 0 ≤ s.nextCost
    · have hstep := pathStep_descends m walls cost s hcons hcell (hdir hpos) hnc hpos hfin
      obtain ⟨hsym, hlt, hexit, hcell1, hcost1⟩ := hstep
      have hnc1 : (pathStep m walls cost s).nextCost
          = (cost (pathStep m walls cost s).cell : Int) - 1 := by
        show s.nextCost - 1 = _
        omega
      obtain ⟨final, hfinal, hzero, hall⟩ := ih (pathStep m walls cost s)
        (by rw [hcell1]; exact Nat.mod_lt _ (by decide)) hnc1 (by omega)
        (fun _ => hlt) (by omega)
      refine ⟨final, by simp [pathLoop, hpos, hfinal], hzero, ?_⟩
      intro t ht
      simp only [pathWalk, hpos, if_true, List.mem_cons] at ht
      rcases ht with rfl | ht
      · exact ⟨hsym, hlt, hexit, hcell1, hcost1⟩
      · exact hall t ht
    · refine ⟨s, by simp [pathLoop, hpos], by omega, ?_⟩
      intro t ht
      simp [pathWalk, hpos] at ht

/-- C4: on a consistent Manhattan flood and from a start cell of finite cost, `pathGenerate`
returns (any budget above the start cost is enough); every step of its walk leaves the
current cell through an open exit, enters the neighbour in the heading taken, lowers the
cost by exactly 1 and writes one of F, R, L, A; and the walk ends on a cell of cost 0. When
the start cost is above 0 the heading handed back by `direction_to_smallest` is taken to be
a heading in 0..3. -/
theorem pathGenerate_walk_descends (m : MazeModel) (walls cost : Cells) (startCell : Nat)
    (path0 : Buf) (fuel : Nat) (hcons : ConsistentFlood m walls cost)
    (hstart : startCell < 256) (hfin : cost startCell < m.MAX_COST)
    (hdir : 0 < cost startCell → m.direction_to_smallest walls cost startCell NORTH < 4)
    (hfuel : cost startCell < fuel) :
    ∃ final, pathGenerate m walls cost fuel startCell path0 = some final ∧
      cost final.cell = 0 ∧
      ∀ t ∈ pathWalk m walls cost fuel (pathInit m walls cost startCell path0),
        isMoveSymbol (stepSymbol m walls cost t) ∧
        stepHeading m walls cost t < 4 ∧
        m.is_exit walls t.cell (stepHeading m walls cost t) = true ∧
        (pathStep m walls cost t).cell = nextCell m t.cell (stepHeading m walls cost t) ∧
        cost (pathStep m walls cost t).cell + 1 = cost t.cell := by
  obtain ⟨final, hfinal, hzero, hall⟩ := pathLoop_descends m walls cost hcons fuel
    (pathInit m walls cost startCell path0) hstart rfl hfin
    (fun h => Nat.lt_of_le_of_lt (Nat.mod_le _ _)
      (hdir (by simp only [pathInit] at h; omega))) hfuel
  exact ⟨pathFinish final, by simp [pathGenerate, hfinal], hzero, hall⟩

/-- In the reference model the cost reported for an open exit is the cost of the cell
behind it. -/
theorem gridModel_neighbour_cost (flood : Cells → Int → Cells) (walls cost : Cells)
    (cell d : Nat) (hd : d < 4) (hexit : (gridModel flood).is_exit walls cell d = true) :
    (gridModel flood).neighbour_cost walls cost cell d
      = cost (nextCell (gridModel flood) cell d) := by
  have hbit : (walls cell).testBit d = false := by
    simpa [gridModel] using hexit
  simp only [gridModel, nextCell, hbit]
  interval_cases d <;> simp

/-- The sample maze is a consistent flood. -/
theorem sample_consistent : ConsistentFlood sampleModel sampleWalls sampleCost := by
  constructor
  · intro cell _ d hd hexit
    exact gridModel_neighbour_cost _ sampleWalls sampleCost cell d hd hexit
  · intro cell hcell hpos hfin
    have h : cell = 0 ∨ cell = 1 ∨ cell = 17 ∨ cell = 18 := by
      have hM : sampleModel.MAX_COST = 255 := rfl
      rw [hM] at hfin
      unfold sampleCost at hpos hfin
      split_ifs at hpos hfin <;> omega
    rcases h with rfl | rfl | rfl | rfl
    · exact ⟨0, by decide, by decide, by decide⟩
    · exact ⟨1, by decide, by decide, by decide⟩
    · exact ⟨0, by decide, by decide, by decide⟩
    · exact ⟨3, by decide, by decide, by decide⟩

/-- Witness of C4: the walk through the sample maze from cell 0. -/
theorem pathGenerate_walk_descends_witness :
    ConsistentFlood sampleModel sampleWalls sampleCost ∧
    sampleCost 0 < sampleModel.MAX_COST ∧
    sampleModel.direction_to_smallest sampleWalls sampleCost 0 NORTH < 4 ∧
    sampleCost 0 < 5 ∧
    ∃ final, pathGenerate sampleModel sampleWalls sampleCost 5 0 (fun _ => NUL) = some final ∧
      sampleCost final.cell = 0 ∧
      ∀ t ∈ pathWalk sampleModel sampleWalls sampleCost 5
          (pathInit sampleModel sampleWalls sampleCost 0 (fun _ => NUL)),
        isMoveSymbol (stepSymbol sampleModel sampleWalls sampleCost t) ∧
        stepHeading sampleModel sampleWalls sampleCost t < 4 ∧
        sampleModel.is_exit sampleWalls t.cell
          (stepHeading sampleModel sampleWalls sampleCost t) = true ∧
        (pathStep sampleModel sampleWalls sampleCost t).cell
          = nextCell sampleModel t.cell (stepHeading sampleModel sampleWalls sampleCost t) ∧
        sampleCost (pathStep sampleModel sampleWalls sampleCost t).cell + 1
          = sampleCost t.cell :=
  ⟨sample_consistent, by decide, by decide, by decide,
   pathGenerate_walk_descends sampleModel sampleWalls sampleCost 0 (fun _ => NUL) 5
     sample_consistent (by decide) (by decide) (fun _ => by decide) (by decide)⟩
/-- Every command the switch can choose is one of F, R, L, A, S. -/
theorem pathSwitch_symbol (m : MazeModel) (walls cost : Cells) (cell d : Nat) (nextCost : Int) :
    isMoveSymbol (pathSwitch m walls cost cell d nextCost).1 ∨
      (pathSwitch m walls cost cell d nextCost).1 = 'S' := by
  unfold pathSwitch
  split_ifs <;> simp [isMoveSymbol]

/-- The loop runs once per unit of cost, whatever the maze: with `nextCost = n - 1` it
makes exactly `n` steps and then leaves. -/
theorem pathLoop_steps (m : MazeModel) (walls cost : Cells) :
    ∀ (n fuel : Nat) (s : PathState), s.nextCost = (n : Int) - 1 → n < fuel →
      (∃ final, pathLoop m walls cost fuel s = some final) ∧
      (pathWalk m walls cost fuel s).length = n := by
  intro n
  induction n with
  | zero =>
    intro fuel s hnc hfuel
    obtain ⟨fuel, rfl⟩ : ∃ f, fuel = f + 1 := ⟨fuel - 1, by omega⟩
    have hneg : ¬ 0 ≤ s.nextCost := by rw [hnc]; simp
    exact ⟨⟨s, by simp [pathLoop, hneg]⟩, by simp [pathWalk, hneg]⟩
  | succ n ih =>
    intro fuel s hnc hfuel
    obtain ⟨fuel, rfl⟩ : ∃ f, fuel = f + 1 := ⟨fuel - 1, by omega⟩
    have hpos : 0 ≤ s.nextCost := by rw [hnc]; push_cast; omega
    obtain ⟨⟨final, hfinal⟩, hlen⟩ := ih fuel (pathStep m walls cost s)
      (by show s.nextCost - 1 = _; rw [hnc]; push_cast; omega) (by omega)
    exact ⟨⟨final, by simp [pathLoop, hpos, hfinal]⟩, by simp [pathWalk, hpos, hlen]⟩

/-- The loop while the write index does not wrap: the symbols of the walk are stored one
after the other from the write index on. -/
theorem pathLoop_writes (m : MazeModel) (walls cost : Cells) :
    ∀ (n fuel : Nat) (s : PathState), s.nextCost = (n : Int) - 1 → n < fuel →
      s.commandIndex + n < 256 →
      ∃ final, pathLoop m walls cost fuel s = some final ∧
        final.commandIndex = s.commandIndex + n ∧
        final.path = s.path.writeList s.commandIndex
          ((pathWalk m walls cost fuel s).map (stepSymbol m walls cost)) ∧
        ∀ t ∈ pathWalk m walls cost fuel s, t.commandIndex + 1 < 256 := by
  intro n
  induction n with
  | zero =>
    intro fuel s hnc hfuel _
    obtain ⟨fuel, rfl⟩ : ∃ f, fuel = f + 1 := ⟨fuel - 1, by omega⟩
    have hneg : ¬ 0 ≤ s.nextCost := by rw [hnc]; simp
    exact ⟨s, by simp [pathLoop, hneg], rfl, by simp [pathWalk, hneg, Buf.writeList],
      by simp [pathWalk, hneg]⟩
  | succ n ih =>
    intro fuel s hnc hfuel hfit
    obtain ⟨fuel, rfl⟩ : ∃ f, fuel = f + 1 := ⟨fuel - 1, by omega⟩
    have hpos : 0 ≤ s.nextCost := by rw [hnc]; push_cast; omega
    have hidx : (pathStep m walls cost s).commandIndex = s.commandIndex + 1 := by
      show (s.commandIndex + 1) % 256 = _
      exact Nat.mod_eq_of_lt (by omega)
    obtain ⟨final, hfinal, hci, hpath, hall⟩ := ih fuel (pathStep m walls cost s)
      (by show s.nextCost - 1 = _; rw [hnc]; push_cast; omega) (by omega)
      (by rw [hidx]; omega)
    refine ⟨final, by simp [pathLoop, hpos, hfinal], by rw [hci, hidx]; omega, ?_, ?_⟩
    · rw [hpath, hidx]
      simp only [pathWalk, hpos, if_true, List.map_cons, Buf.writeList]
      rfl
    · intro t ht
      simp only [pathWalk, hpos, if_true, List.mem_cons] at ht
      rcases ht with rfl | ht
      · omega
      · exact hall t ht

/-- C5: from a start cell of cost `c` at most 253, whatever the maze, `pathGenerate` returns
(any budget above `c` is enough) and `path` then holds a NUL-terminated string of length
`c + 2`: `B`, then the `c` symbols written by the `c` steps of the walk, then `S`, with the
NUL at index `c + 2`; for `c = 0` the string is `BS`. No increment of the 8-bit write index
wraps: each step finds it below 255 and it ends at `c + 2`. Each of the `c` symbols is one of
F, R, L, A or the default `S` of a step that found no exit, and all of them are move symbols
F, R, L, A when the flood is consistent. -/
theorem pathGenerate_string_length (m : MazeModel) (walls cost : Cells) (startCell : Nat)
    (path0 : Buf) (fuel : Nat) (hc : cost startCell ≤ 253) (hfuel : cost startCell < fuel) :
    ∃ final, pathGenerate m walls cost fuel startCell path0 = some final ∧
      ((pathWalk m walls cost fuel (pathInit m walls cost startCell path0)).map
        (stepSymbol m walls cost)).length = cost startCell ∧
      final.path.cstr = 'B' ::
        (pathWalk m walls cost fuel (pathInit m walls cost startCell path0)).map
          (stepSymbol m walls cost) ++ ['S'] ∧
      final.path.cstr.length = cost startCell + 2 ∧
      final.path (cost startCell + 2) = NUL ∧
      final.commandIndex = cost startCell + 2 ∧
      (∀ t ∈ pathWalk m walls cost fuel (pathInit m walls cost startCell path0),
        t.commandIndex + 1 < 256) ∧
      (cost startCell = 0 → final.path.cstr = ['B', 'S']) ∧
      (∀ x ∈ (pathWalk m walls cost fuel (pathInit m walls cost startCell path0)).map
          (stepSymbol m walls cost), isMoveSymbol x ∨ x = 'S') ∧
      (ConsistentFlood m walls cost → startCell < 256 → cost startCell < m.MAX_COST →
        (0 < cost startCell → m.direction_to_smallest walls cost startCell NORTH < 4) →
        ∀ x ∈ (pathWalk m walls cost fuel (pathInit m walls cost startCell path0)).map
          (stepSymbol m walls cost), isMoveSymbol x) := by
  obtain ⟨lf, hlf, hci, hpath, hnowrap⟩ := pathLoop_writes m walls cost (cost startCell) fuel
    (pathInit m walls cost startCell path0) rfl hfuel (by simp only [pathInit]; omega)
  have hlen := (pathLoop_steps m walls cost (cost startCell) fuel
    (pathInit m walls cost startCell path0) rfl hfuel).2
  generalize hw : pathWalk m walls cost fuel (pathInit m walls cost startCell path0) = walk
    at hpath hnowrap hlen ⊢
  have hci1 : lf.commandIndex = cost startCell + 1 := by
    rw [hci]; simp only [pathInit]; omega
  have hsyms : ∀ x ∈ walk.map (stepSymbol m walls cost), isMoveSymbol x ∨ x = 'S' := by
    intro x hx
    obtain ⟨t, _, rfl⟩ := List.mem_map.mp hx
    exact pathSwitch_symbol m walls cost t.cell t.direction t.nextCost
  have hnul : NUL ∉ 'B' :: walk.map (stepSymbol m walls cost) ++ ['S'] := by
    intro h
    simp only [List.cons_append, List.mem_cons, List.mem_append, List.mem_singleton,
      List.not_mem_nil, or_false] at h
    rcases h with h | h | h
    · exact absurd h (by decide)
    · rcases hsyms NUL h with h1 | h1
      · exact absurd h1 (by decide)
      · exact absurd h1 (by decide)
    · exact absurd h (by decide)
  have hlen2 : ('B' :: walk.map (stepSymbol m walls cost) ++ ['S']).length
      = cost startCell + 2 := by
    simp [hlen]
  have hfinal : (pathFinish lf).path
      = ((path0.writeList 0 ('B' :: walk.map (stepSymbol m walls cost) ++ ['S'])).write
          ('B' :: walk.map (stepSymbol m walls cost) ++ ['S']).length NUL) := by
    have hidx : (lf.commandIndex + 1) % 256 = cost startCell + 2 := by
      rw [hci1]; exact Nat.mod_eq_of_lt (by omega)
    have hw2 : path0.writeList 0 ('B' :: walk.map (stepSymbol m walls cost) ++ ['S'])
        = ((path0.write 0 'B').writeList 1 (walk.map (stepSymbol m walls cost))).write
            (cost startCell + 1) 'S' := by
      show (path0.write 0 'B').writeList (0 + 1) (walk.map (stepSymbol m walls cost) ++ ['S']) = _
      rw [Buf.writeList_append]
      simp only [Buf.writeList, List.length_map, hlen, Nat.zero_add, Nat.add_comm 1]
    simp only [pathFinish, hidx, hlen2]
    rw [hw2, hpath, hci1]
    rfl
  have hcstr : (pathFinish lf).path.cstr
      = 'B' :: walk.map (stepSymbol m walls cost) ++ ['S'] := by
    rw [hfinal]
    exact Buf.cstr_writeList _ _ hnul (by rw [hlen2]; simp only [BUFSIZE]; omega)
  refine ⟨pathFinish lf, by simp [pathGenerate, hlf], by simpa using hlen, hcstr,
    by rw [hcstr, hlen2], ?_, ?_, hnowrap, ?_, hsyms, ?_⟩
  · rw [hfinal, hlen2, Buf.write_same]
  · show (lf.commandIndex + 1) % 256 = _
    rw [hci1]; exact Nat.mod_eq_of_lt (by omega)
  · intro h0
    rw [hcstr]
    have : walk = [] := List.length_eq_zero.mp (by rw [hlen, h0])
    simp [this]
  · intro hcons hstart hfin hdir x hx
    obtain ⟨_, _, _, hall⟩ := pathLoop_descends m walls cost hcons fuel
      (pathInit m walls cost startCell path0) hstart rfl hfin
      (fun h => Nat.lt_of_le_of_lt (Nat.mod_le _ _)
      (hdir (by simp only [pathInit] at h; omega))) hfuel
    obtain ⟨t, ht, rfl⟩ := List.mem_map.mp hx
    exact (hall t (hw ▸ ht)).1

/-- Witness of C5: the sample maze from cell 0, of cost 4, gives the six characters
`BFRLLS`. -/
theorem pathGenerate_string_length_witness :
    sampleCost 0 ≤ 253 ∧ sampleCost 0 < 5 ∧
    ∃ final, pathGenerate sampleModel sampleWalls sampleCost 5 0 (fun _ => 'x') = some final ∧
      final.path.cstr = "BFRLLS".toList ∧ final.path.cstr.length = sampleCost 0 + 2 ∧
      final.path 6 = NUL ∧ final.commandIndex = 6 := by
  obtain ⟨final, h1, _, h3, h4, h5, h6, _⟩ :=
    pathGenerate_string_length sampleModel sampleWalls sampleCost 0 (fun _ => 'x') 5
      (by decide) (by decide)
  exact ⟨by decide, by decide, final, h1, h3.trans (by decide), h4, h5, h6⟩

/-- The flag left by the loop is true exactly when it was true before and no step of the
walk entered a cell without the visited flag. -/
theorem pathLoop_solved (m : MazeModel) (walls cost : Cells) :
    ∀ (fuel : Nat) (s final : PathState), pathLoop m walls cost fuel s = some final →
      (final.solved = true ↔ s.solved = true ∧
        ∀ t ∈ pathWalk m walls cost fuel s,
          notVisited m walls (pathStep m walls cost t).cell = false) := by
  intro fuel
  induction fuel with
  | zero => intro s final h; simp [pathLoop] at h
  | succ fuel ih =>
    intro s final h
    by_cases hpos : 0 ≤ s.nextCost
    · simp only [pathLoop, hpos, if_true] at h
      rw [ih _ _ h]
      simp only [pathWalk, hpos, if_true, List.mem_cons, forall_eq_or_imp]
      have hs : (pathStep m walls cost s).solved
          = (if notVisited m walls (pathStep m walls cost s).cell then false else s.solved) := rfl
      rw [hs]
      cases notVisited m walls (pathStep m walls cost s).cell <;> simp
    · simp only [pathLoop, hpos, if_false, Option.some.injEq] at h
      subst h
      simp [pathWalk, hpos]

/-- The flag is never read: started with another value of the flag, the loop ends in the
same state up to the flag. -/
theorem pathLoop_flag_unread (m : MazeModel) (walls cost : Cells) :
    ∀ (fuel : Nat) (s : PathState) (b : Bool),
      ∃ b1, pathLoop m walls cost fuel { s with solved := b }
        = (pathLoop m walls cost fuel s).map (fun r => { r with solved := b1 }) := by
  intro fuel
  induction fuel with
  | zero => intro s b; exact ⟨b, rfl⟩
  | succ fuel ih =>
    intro s b
    by_cases hpos : 0 ≤ s.nextCost
    · obtain ⟨b1, hb1⟩ := ih (pathStep m walls cost s)
        (if notVisited m walls (pathStep m walls cost s).cell then false else b)
      refine ⟨b1, ?_⟩
      simp only [pathLoop, hpos, if_true]
      rw [← hb1]
      rfl
    · exact ⟨b, by simp [pathLoop, hpos]⟩

/-- C6: `pathGenerate` returns (any budget above the start cost is enough), and the value
returned is false exactly when some step of the walk enters a cell whose `walls` entry lacks
the visited flag, true exactly when every cell entered carries it. The flag is only
returned: whatever its value at any point of the loop, the path left behind is the same. -/
theorem pathGenerate_solved_iff (m : MazeModel) (walls cost : Cells) (startCell : Nat)
    (path0 : Buf) (fuel : Nat) (hfuel : cost startCell < fuel) :
    ∃ final, pathGenerate m walls cost fuel startCell path0 = some final ∧
      (final.solved = false ↔
        ∃ t ∈ pathWalk m walls cost fuel (pathInit m walls cost startCell path0),
          notVisited m walls (pathStep m walls cost t).cell = true) ∧
      (final.solved = true ↔
        ∀ t ∈ pathWalk m walls cost fuel (pathInit m walls cost startCell path0),
          notVisited m walls (pathStep m walls cost t).cell = false) ∧
      (∀ (s : PathState) (b : Bool),
        (pathLoop m walls cost fuel { s with solved := b }).map (fun r => (pathFinish r).path)
          = (pathLoop m walls cost fuel s).map (fun r => (pathFinish r).path)) := by
  obtain ⟨⟨lf, hlf⟩, _⟩ := pathLoop_steps m walls cost (cost startCell) fuel
    (pathInit m walls cost startCell path0) rfl hfuel
  have hiff := pathLoop_solved m walls cost fuel _ lf hlf
  have htrue : (pathFinish lf).solved = true ↔
      ∀ t ∈ pathWalk m walls cost fuel (pathInit m walls cost startCell path0),
        notVisited m walls (pathStep m walls cost t).cell = false := by
    show lf.solved = true ↔ _
    rw [hiff]
    simp [pathInit]
  refine ⟨pathFinish lf, by simp [pathGenerate, hlf], ?_, htrue, ?_⟩
  · rw [← Bool.not_eq_true, htrue]
    simp
  · intro s b
    obtain ⟨b1, hb1⟩ := pathLoop_flag_unread m walls cost fuel s b
    rw [hb1, Option.map_map]
    rfl

/-- Witness of C6: in the sample maze with cell 17 unvisited the value returned is false,
and the path is the one of the fully visited maze. -/
theorem pathGenerate_solved_iff_witness :
    sampleCost 0 < 5 ∧
    (∃ final, pathGenerate sampleModel sampleWallsUnvisited sampleCost 5 0 (fun _ => 'x')
        = some final ∧
      (final.solved = false ↔
        ∃ t ∈ pathWalk sampleModel sampleWallsUnvisited sampleCost 5
            (pathInit sampleModel sampleWallsUnvisited sampleCost 0 (fun _ => 'x')),
          notVisited sampleModel sampleWallsUnvisited
            (pathStep sampleModel sampleWallsUnvisited sampleCost t).cell = true) ∧
      (final.solved = true ↔
        ∀ t ∈ pathWalk sampleModel sampleWallsUnvisited sampleCost 5
            (pathInit sampleModel sampleWallsUnvisited sampleCost 0 (fun _ => 'x')),
          notVisited sampleModel sampleWallsUnvisited
            (pathStep sampleModel sampleWallsUnvisited sampleCost t).cell = false) ∧
      (∀ (s : PathState) (b : Bool),
        (pathLoop sampleModel sampleWallsUnvisited sampleCost 5 { s with solved := b }).map
            (fun r => (pathFinish r).path)
          = (pathLoop sampleModel sampleWallsUnvisited sampleCost 5 s).map
            (fun r => (pathFinish r).path))) ∧
    (pathGenerate sampleModel sampleWallsUnvisited sampleCost 5 0 (fun _ => 'x')).map
        (fun s => (s.solved, s.path.cstr)) = some (false, "BFRLLS".toList) ∧
    (pathGenerate sampleModel sampleWalls sampleCost 5 0 (fun _ => 'x')).map
        (fun s => (s.solved, s.path.cstr)) = some (true, "BFRLLS".toList) :=
  ⟨by decide,
   pathGenerate_solved_iff sampleModel sampleWallsUnvisited sampleCost 0 (fun _ => 'x') 5
     (by decide),
   by decide, by decide⟩

/-- C8, as the code has it: `pathGenerate` makes no test of the unreachable sentinel. From
a start cell whose cost equals `MAX_COST` it returns after exactly `MAX_COST` steps of the
walk, each of which writes one symbol into `path` and moves the cell to the neighbour in the
heading of that step; what it hands back is the visited flag and nothing else. -/
theorem pathGenerate_walks_from_unreachable (m : MazeModel) (walls cost : Cells)
    (startCell : Nat) (path0 : Buf) (fuel : Nat) (hmax : cost startCell = m.MAX_COST)
    (hfuel : m.MAX_COST < fuel) :
    ∃ final, pathGenerate m walls cost fuel startCell path0 = some final ∧
      (pathWalk m walls cost fuel (pathInit m walls cost startCell path0)).length
        = m.MAX_COST ∧
      ∀ t ∈ pathWalk m walls cost fuel (pathInit m walls cost startCell path0),
        (pathStep m walls cost t).cell = nextCell m t.cell (stepHeading m walls cost t) ∧
        (pathStep m walls cost t).path t.commandIndex = stepSymbol m walls cost t := by
  obtain ⟨⟨lf, hlf⟩, hlen⟩ := pathLoop_steps m walls cost (cost startCell) fuel
    (pathInit m walls cost startCell path0) rfl (by omega)
  refine ⟨pathFinish lf, by simp [pathGenerate, hlf], by rw [hlen, hmax], ?_⟩
  intro t _
  exact ⟨rfl, Buf.write_same _ _ _⟩

set_option maxRecDepth 100000 in
/-- Witness of C8 as amended: the closed maze, whose cell 0 has the sentinel cost 255. -/
theorem pathGenerate_walks_from_unreachable_witness :
    closedCost 0 = closedModel.MAX_COST ∧ closedModel.MAX_COST < 256 ∧
    ∃ final, pathGenerate closedModel closedWalls closedCost 256 0 (fun _ => NUL)
        = some final ∧
      (pathWalk closedModel closedWalls closedCost 256
          (pathInit closedModel closedWalls closedCost 0 (fun _ => NUL))).length
        = closedModel.MAX_COST ∧
      ∀ t ∈ pathWalk closedModel closedWalls closedCost 256
          (pathInit closedModel closedWalls closedCost 0 (fun _ => NUL)),
        (pathStep closedModel closedWalls closedCost t).cell
          = nextCell closedModel t.cell (stepHeading closedModel closedWalls closedCost t) ∧
        (pathStep closedModel closedWalls closedCost t).path t.commandIndex
          = stepSymbol closedModel closedWalls closedCost t :=
  ⟨by decide, by decide,
   pathGenerate_walks_from_unreachable closedModel closedWalls closedCost 0 (fun _ => NUL) 256
     (by decide) (by decide)⟩

set_option maxRecDepth 100000 in
/-- Counterexample to C8 as stated: in the closed maze the start cell 0 has the sentinel
cost, yet the walk of `pathGenerate` has 255 steps, its first step already leaves cell 0 for
cell 1, it ends in cell 255, and the function returns the flag `false` with `S` in `path`. -/
theorem pathGenerate_no_route_counterexample :
    closedCost 0 = closedModel.MAX_COST ∧
    (pathWalk closedModel closedWalls closedCost 256
        (pathInit closedModel closedWalls closedCost 0 (fun _ => NUL))).length = 255 ∧
    (pathStep closedModel closedWalls closedCost
        (pathInit closedModel closedWalls closedCost 0 (fun _ => NUL))).cell = 1 ∧
    (pathGenerate closedModel closedWalls closedCost 256 0 (fun _ => NUL)).map
        (fun s => (s.solved, s.cell, s.path.cstr)) = some (false, 255, ['S']) := by
  decide

/-! ## Theorems on mouseSearchTo -/

/-- C7: when the flood toward the target leaves the sentinel `MAX_COST` on the cell the
mouse is in, `mouseSearchTo` returns -1 at once, whatever the budget: nothing is issued to
the motion layer (the log of calls is unchanged) and `mouse`, with its location and heading,
is as before; only `cost` holds the new flood. -/
theorem mouseSearchTo_unreachable_at_start (cfg : Config) (m : MazeModel)
    (env : Nat → Sensors) (target : Int) (fuel : Nat) (w : World)
    (hmax : m.flood_maze w.walls target w.mouse.location = m.MAX_COST) :
    ∃ w1, mouseSearchTo cfg m env target fuel w = some (-1, w1) ∧
      w1.log = w.log ∧ w1.mouse.location = w.mouse.location ∧
      w1.mouse.heading = w.mouse.heading ∧ w1.mouse = w.mouse ∧ w1.walls = w.walls ∧
      w1.cost = m.flood_maze w.walls target := by
  refine ⟨floodMaze m target w, ?_, rfl, rfl, rfl, rfl, rfl, rfl⟩
  simp [mouseSearchTo, floodMaze, hmax]

/-- Witness of C7: the mouse walled in at cell 0 of the closed maze, sent to cell 2. -/
theorem mouseSearchTo_unreachable_at_start_witness :
    closedModel.flood_maze (startWorld closedWalls).walls 2 (startWorld closedWalls).mouse.location
      = closedModel.MAX_COST ∧
    ∃ w1, mouseSearchTo sampleConfig closedModel quietSensors 2 0 (startWorld closedWalls)
        = some (-1, w1) ∧
      w1.log = (startWorld closedWalls).log ∧
      w1.mouse.location = (startWorld closedWalls).mouse.location ∧
      w1.mouse.heading = (startWorld closedWalls).mouse.heading ∧
      w1.mouse = (startWorld closedWalls).mouse ∧ w1.walls = (startWorld closedWalls).walls ∧
      w1.cost = closedModel.flood_maze (startWorld closedWalls).walls 2 :=
  ⟨by decide,
   mouseSearchTo_unreachable_at_start sampleConfig closedModel quietSensors 2 0
     (startWorld closedWalls) (by decide)⟩

/-- What the search loop can return: 0 with the mouse on the target, or -1 with the
sentinel on the mouse's cell under the flood of the current walls toward the target. -/
theorem searchLoop_result (cfg : Config) (m : MazeModel) (env : Nat → Sensors) (target : Int) :
    ∀ (fuel : Nat) (w : World) (r : Int) (w1 : World),
      searchLoop cfg m env target fuel w = some (r, w1) →
      (r = 0 ∨ r = -1) ∧ (r = 0 → (w1.mouse.location : Int) = target) ∧
      (r = -1 → w1.cost = m.flood_maze w1.walls target ∧
        w1.cost w1.mouse.location = m.MAX_COST) := by
  intro fuel
  induction fuel with
  | zero => intro w r w1 h; simp [searchLoop] at h
  | succ fuel ih =>
    intro w r w1 h
    unfold searchLoop at h
    dsimp only at h
    split_ifs at h with h1 h2 h3
    · simp only [Option.some.injEq, Prod.mk.injEq] at h
      obtain ⟨rfl, rfl⟩ := h
      exact ⟨Or.inl rfl, fun _ => h2, fun h => absurd h (by decide)⟩
    · simp only [Option.some.injEq, Prod.mk.injEq] at h
      obtain ⟨rfl, rfl⟩ := h
      exact ⟨Or.inr rfl, fun h => absurd h (by decide), fun _ => ⟨rfl, h3⟩⟩
    · exact ih _ r w1 h
    · simp only [Option.some.injEq, Prod.mk.injEq] at h
      obtain ⟨rfl, rfl⟩ := h
      exact ⟨Or.inl rfl, fun _ => by simpa using h1, fun h => absurd h (by decide)⟩

/-- C9: whenever `mouseSearchTo(target)` returns, the value is 0 or -1; it is 0 only with
`mouse.location` equal to the target, and -1 only with `cost`, as left by the latest flood
of the current walls toward the target, holding `MAX_COST` on the cell the mouse is in. -/
theorem mouseSearchTo_result (cfg : Config) (m : MazeModel) (env : Nat → Sensors)
    (target : Int) (fuel : Nat) (w : World) (r : Int) (w1 : World)
    (h : mouseSearchTo cfg m env target fuel w = some (r, w1)) :
    (r = 0 ∨ r = -1) ∧ (r = 0 → (w1.mouse.location : Int) = target) ∧
    (r = -1 → w1.cost = m.flood_maze w1.walls target ∧
      w1.cost w1.mouse.location = m.MAX_COST) := by
  unfold mouseSearchTo at h
  dsimp only at h
  split_ifs at h with h1 h2
  · simp only [Option.some.injEq, Prod.mk.injEq] at h
    obtain ⟨rfl, rfl⟩ := h
    exact ⟨Or.inr rfl, fun h => absurd h (by decide), fun _ => ⟨rfl, h1⟩⟩
  · exact searchLoop_result cfg m env target fuel _ r w1 h
  · exact searchLoop_result cfg m env target fuel _ r w1 h

/-- Witness of C9: the search through the sample maze from cell 0 to cell 2 returns 0 with
the mouse in cell 2. -/
theorem mouseSearchTo_result_witness :
    ∃ w1, mouseSearchTo sampleConfig sampleModel quietSensors 2 10 (startWorld sampleWalls)
        = some (0, w1) ∧
      (((0 : Int) = 0 ∨ (0 : Int) = -1) ∧ ((0 : Int) = 0 → (w1.mouse.location : Int) = 2) ∧
        ((0 : Int) = -1 → w1.cost = sampleModel.flood_maze w1.walls 2 ∧
          w1.cost w1.mouse.location = sampleModel.MAX_COST)) := by
  have hrun : (mouseSearchTo sampleConfig sampleModel quietSensors 2 10
      (startWorld sampleWalls)).map (fun p => p.1) = some 0 := by decide
  obtain ⟨⟨r, w1⟩, hp, hr⟩ := Option.map_eq_some'.mp hrun
  simp only at hr
  subst hr
  exact ⟨w1, hp, mouseSearchTo_result sampleConfig sampleModel quietSensors 2 10
    (startWorld sampleWalls) 0 w1 hp⟩

/-! ## Theorems on the map update -/

/-- Marking a wall sets the bit of its direction in the entry of the cell and keeps all
other bits. -/
theorem set_wall_present_testBit (walls : Cells) (cell a d : Nat) :
    wallPresent (set_wall_present walls cell a) cell d
      = (wallPresent walls cell d || decide (d = a)) := by
  simp [wallPresent, set_wall_present, Nat.testBit_lor, Nat.one_shiftLeft, Nat.testBit_two_pow,
    eq_comm]

theorem set_wall_present_other (walls : Cells) (cell a c : Nat) (h : c ≠ cell) :
    set_wall_present walls cell a c = walls c := by
  simp [set_wall_present, h]

theorem markIf_mouse (w : World) (flag : Bool) (d : Nat) : (w.markIf flag d).mouse = w.mouse := by
  unfold World.markIf; split <;> rfl

theorem markIf_wallPresent (w : World) (flag : Bool) (a d : Nat) :
    wallPresent (w.markIf flag a).walls w.mouse.location d
      = (wallPresent w.walls w.mouse.location d || (flag && decide (d = a))) := by
  cases flag
  · simp [World.markIf]
  · simp [World.markIf, set_wall_present_testBit]

theorem markIf_other (w : World) (flag : Bool) (a c : Nat) (h : c ≠ w.mouse.location) :
    (w.markIf flag a).walls c = w.walls c := by
  cases flag
  · simp [World.markIf]
  · simp [World.markIf, set_wall_present_other _ _ _ _ h]

theorem lor_land_self (x v : Nat) : (x ||| v) &&& v = v := by
  apply Nat.eq_of_testBit_eq
  intro i
  simp only [Nat.testBit_land, Nat.testBit_lor]
  cases x.testBit i <;> cases v.testBit i <;> rfl

/-- Three conditional markings in a row: the mouse is untouched, the entry of its cell
gains the marked bits, every other entry stays. -/
theorem mark3_spec (w : World) (f r l : Bool) (a b c : Nat) :
    (((w.markIf f a).markIf r b).markIf l c).mouse = w.mouse ∧
    (∀ d, wallPresent (((w.markIf f a).markIf r b).markIf l c).walls w.mouse.location d
      = (wallPresent w.walls w.mouse.location d || (f && decide (d = a)) ||
          (r && decide (d = b)) || (l && decide (d = c)))) ∧
    (∀ x, x ≠ w.mouse.location →
      (((w.markIf f a).markIf r b).markIf l c).walls x = w.walls x) := by
  have m1 : (w.markIf f a).mouse = w.mouse := markIf_mouse w f a
  have m2 : ((w.markIf f a).markIf r b).mouse = w.mouse := (markIf_mouse _ r b).trans m1
  refine ⟨(markIf_mouse _ l c).trans m2, ?_, ?_⟩
  · intro d
    have h3 := markIf_wallPresent ((w.markIf f a).markIf r b) l c d
    have h2 := markIf_wallPresent (w.markIf f a) r b d
    have h1 := markIf_wallPresent w f a d
    rw [m2] at h3
    rw [m1] at h2
    rw [h3, h2, h1]
  · intro x hx
    rw [markIf_other _ l c x (by rw [m2]; exact hx), markIf_other _ r b x (by rw [m1]; exact hx),
      markIf_other w f a x hx]

/-- The map update written with the rotation of the heading: for a heading in 0..3 the
four case blocks mark front at `h`, right at `h + 1` and left at `h + 3` modulo 4. -/
theorem mouseUpdateMapFromSensors_eq (m : MazeModel) (w : World) (hh : w.mouse.heading < 4) :
    mouseUpdateMapFromSensors m w =
      { (((w.markIf w.mouse.frontWall w.mouse.heading).markIf w.mouse.rightWall
            ((w.mouse.heading + 1) % 4)).markIf w.mouse.leftWall ((w.mouse.heading + 3) % 4))
        with walls := fun j =>
          if j = (((w.markIf w.mouse.frontWall w.mouse.heading).markIf w.mouse.rightWall
              ((w.mouse.heading + 1) % 4)).markIf w.mouse.leftWall
                ((w.mouse.heading + 3) % 4)).mouse.location then
            (((w.markIf w.mouse.frontWall w.mouse.heading).markIf w.mouse.rightWall
              ((w.mouse.heading + 1) % 4)).markIf w.mouse.leftWall
                ((w.mouse.heading + 3) % 4)).walls j ||| m.VISITED
          else
            (((w.markIf w.mouse.frontWall w.mouse.heading).markIf w.mouse.rightWall
              ((w.mouse.heading + 1) % 4)).markIf w.mouse.leftWall
                ((w.mouse.heading + 3) % 4)).walls j } := by
  have h : w.mouse.heading = 0 ∨ w.mouse.heading = 1 ∨ w.mouse.heading = 2 ∨
      w.mouse.heading = 3 := by omega
  rcases h with h | h | h | h <;>
    simp only [mouseUpdateMapFromSensors, h, NORTH, EAST, SOUTH, WEST] <;>
    rfl

/-- C10: for a heading `h` in 0..3 and any three observations, `mouseUpdateMapFromSensors`
makes the wall set of the mouse's cell its old wall set together with `h` when a front
wall is seen, `(h + 1) mod 4` when a right wall is seen and `(h + 3) mod 4` when a left wall
is seen (for NORTH: front to NORTH, right to EAST, left to WEST); the cell then carries the
visited flag; no other cell changes; no wall bit that was set is cleared; `mouse` is
untouched. The visited mask is taken to lie outside the four wall bits. -/
theorem mouseUpdateMapFromSensors_adds_walls (m : MazeModel) (w : World)
    (hh : w.mouse.heading < 4) (hflag : ∀ d, d < 4 → m.VISITED.testBit d = false) :
    (∀ d, d < 4 →
      (wallPresent (mouseUpdateMapFromSensors m w).walls w.mouse.location d = true ↔
        wallPresent w.walls w.mouse.location d = true ∨
        (w.mouse.frontWall = true ∧ d = w.mouse.heading) ∨
        (w.mouse.rightWall = true ∧ d = (w.mouse.heading + 1) % 4) ∨
        (w.mouse.leftWall = true ∧ d = (w.mouse.heading + 3) % 4))) ∧
    (w.mouse.heading = NORTH → ∀ d, d < 4 →
      (wallPresent (mouseUpdateMapFromSensors m w).walls w.mouse.location d = true ↔
        wallPresent w.walls w.mouse.location d = true ∨
        (w.mouse.frontWall = true ∧ d = NORTH) ∨
        (w.mouse.rightWall = true ∧ d = EAST) ∨
        (w.mouse.leftWall = true ∧ d = WEST))) ∧
    notVisited m (mouseUpdateMapFromSensors m w).walls w.mouse.location = false ∧
    (∀ c, c ≠ w.mouse.location → (mouseUpdateMapFromSensors m w).walls c = w.walls c) ∧
    (∀ c d, wallPresent w.walls c d = true →
      wallPresent (mouseUpdateMapFromSensors m w).walls c d = true) ∧
    (mouseUpdateMapFromSensors m w).mouse = w.mouse := by
  obtain ⟨hmouse, hbits, hother⟩ := mark3_spec w w.mouse.frontWall w.mouse.rightWall
    w.mouse.leftWall w.mouse.heading ((w.mouse.heading + 1) % 4) ((w.mouse.heading + 3) % 4)
  have hloc : ∀ d, wallPresent (mouseUpdateMapFromSensors m w).walls w.mouse.location d
      = (wallPresent w.walls w.mouse.location d ||
          (w.mouse.frontWall && decide (d = w.mouse.heading)) ||
          (w.mouse.rightWall && decide (d = (w.mouse.heading + 1) % 4)) ||
          (w.mouse.leftWall && decide (d = (w.mouse.heading + 3) % 4)) ||
          m.VISITED.testBit d) := by
    intro d
    rw [mouseUpdateMapFromSensors_eq m w hh, ← hbits d]
    simp only [wallPresent, hmouse, if_true, Nat.testBit_lor]
  have hfar : ∀ c, c ≠ w.mouse.location →
      (mouseUpdateMapFromSensors m w).walls c = w.walls c := by
    intro c hc
    rw [mouseUpdateMapFromSensors_eq m w hh]
    simp only [hmouse, hc, if_false]
    exact hother c hc
  have hmain : ∀ d, d < 4 →
      (wallPresent (mouseUpdateMapFromSensors m w).walls w.mouse.location d = true ↔
        wallPresent w.walls w.mouse.location d = true ∨
        (w.mouse.frontWall = true ∧ d = w.mouse.heading) ∨
        (w.mouse.rightWall = true ∧ d = (w.mouse.heading + 1) % 4) ∨
        (w.mouse.leftWall = true ∧ d = (w.mouse.heading + 3) % 4)) := by
    intro d hd
    rw [hloc d, hflag d hd]
    simp only [Bool.or_false, Bool.or_eq_true, Bool.and_eq_true, decide_eq_true_eq, or_assoc]
  refine ⟨hmain, ?_, ?_, hfar, ?_, ?_⟩
  · intro hN d hd
    have := hmain d hd
    rw [hN] at this
    simpa [NORTH, EAST, WEST] using this
  · rw [mouseUpdateMapFromSensors_eq m w hh]
    simp [notVisited, hmouse, lor_land_self]
  · intro c d hcd
    by_cases hc : c = w.mouse.location
    · subst hc
      rw [hloc d, hcd]
      simp
    · unfold wallPresent at hcd ⊢
      rw [hfar c hc]
      exact hcd
  · rw [mouseUpdateMapFromSensors_eq m w hh]
    exact hmouse

/-- Witness of C10: heading east in cell 1 with a wall ahead and to the left, the entry of
cell 1 goes from 0 to `0xF3`: east and north marked, visited set. -/
theorem mouseUpdateMapFromSensors_adds_walls_witness :
    sensingWorld.mouse.heading < 4 ∧
    (∀ d, d < 4 → sampleModel.VISITED.testBit d = false) ∧
    (∀ d, d < 4 →
      (wallPresent (mouseUpdateMapFromSensors sampleModel sensingWorld).walls 1 d = true ↔
        wallPresent sensingWorld.walls 1 d = true ∨
        (sensingWorld.mouse.frontWall = true ∧ d = 1) ∨
        (sensingWorld.mouse.rightWall = true ∧ d = 2) ∨
        (sensingWorld.mouse.leftWall = true ∧ d = 0))) ∧
    (mouseUpdateMapFromSensors sampleModel sensingWorld).walls 1 = 0xF3 ∧
    (mouseUpdateMapFromSensors sampleModel sensingWorld).walls 17 = 0 :=
  ⟨by decide, by decide,
   (mouseUpdateMapFromSensors_adds_walls sampleModel sensingWorld (by decide) (by decide)).1,
   by decide, by decide⟩

/-! ## More on the map update -/

theorem orWalls_orWalls (w : World) (a b : Nat) :
    (w.orWalls a).orWalls b = w.orWalls (a ||| b) := by
  simp only [World.orWalls]
  congr 1
  funext j
  by_cases hj : j = w.mouse.location
  · simp [hj, Nat.lor_assoc]
  · simp [hj]

theorem markIf_eq_orWalls (w : World) (flag : Bool) (d : Nat) :
    w.markIf flag d = w.orWalls (if flag then 1 <<< d else 0) := by
  cases flag
  · simp only [World.markIf, World.orWalls, Bool.false_eq_true, if_false, Nat.or_zero]
    simp
  · simp only [World.markIf, World.orWalls, if_true, set_wall_present]
    congr 1
    funext j
    by_cases hj : j = w.mouse.location
    · simp [hj, set_wall_present]
    · simp [hj, set_wall_present]

/-- The update is one or-assignment to the entry of the mouse's cell, with a mask that
depends on the mouse (heading and observations) and the visited mask alone. -/
theorem mouseUpdateMapFromSensors_mask (m : MazeModel) (mouse : Mouse) :
    ∃ mask : Nat, ∀ w : World, w.mouse = mouse →
      mouseUpdateMapFromSensors m w = w.orWalls mask := by
  have hfin : ∀ w1 : World, ({ w1 with walls := fun j =>
      if j = w1.mouse.location then w1.walls j ||| m.VISITED else w1.walls j } : World)
      = w1.orWalls m.VISITED := fun _ => rfl
  have key : ∀ (d1 d2 d3 : Nat), ∃ mask : Nat, ∀ w : World, w.mouse = mouse →
      ((((w.markIf w.mouse.frontWall d1).markIf w.mouse.rightWall d2).markIf
        w.mouse.leftWall d3).orWalls m.VISITED) = w.orWalls mask := by
    intro d1 d2 d3
    refine ⟨(((if mouse.frontWall then 1 <<< d1 else 0) |||
      (if mouse.rightWall then 1 <<< d2 else 0)) |||
      (if mouse.leftWall then 1 <<< d3 else 0)) ||| m.VISITED, fun w hw => ?_⟩
    rw [markIf_eq_orWalls, markIf_eq_orWalls, markIf_eq_orWalls, orWalls_orWalls,
      orWalls_orWalls, orWalls_orWalls, hw]
    simp only [Nat.lor_assoc]
  have hN : mouse.heading = 0 ∨ mouse.heading = 1 ∨ mouse.heading = 2 ∨ mouse.heading = 3 ∨
      (mouse.heading ≠ 0 ∧ mouse.heading ≠ 1 ∧ mouse.heading ≠ 2 ∧ mouse.heading ≠ 3) := by
    omega
  rcases hN with h | h | h | h | ⟨h0, h1, h2, h3⟩
  · obtain ⟨mask, hmask⟩ := key NORTH EAST WEST
    refine ⟨mask, fun w hw => ?_⟩
    have := hmask w hw
    rw [← hfin] at this
    simpa [mouseUpdateMapFromSensors, NORTH, EAST, SOUTH, WEST, hw, h] using this
  · obtain ⟨mask, hmask⟩ := key EAST SOUTH NORTH
    refine ⟨mask, fun w hw => ?_⟩
    have := hmask w hw
    rw [← hfin] at this
    simpa [mouseUpdateMapFromSensors, NORTH, EAST, SOUTH, WEST, hw, h] using this
  · obtain ⟨mask, hmask⟩ := key SOUTH WEST EAST
    refine ⟨mask, fun w hw => ?_⟩
    have := hmask w hw
    rw [← hfin] at this
    simpa [mouseUpdateMapFromSensors, NORTH, EAST, SOUTH, WEST, hw, h] using this
  · obtain ⟨mask, hmask⟩ := key WEST NORTH SOUTH
    refine ⟨mask, fun w hw => ?_⟩
    have := hmask w hw
    rw [← hfin] at this
    simpa [mouseUpdateMapFromSensors, NORTH, EAST, SOUTH, WEST, hw, h] using this
  · refine ⟨m.VISITED, fun w hw => ?_⟩
    rw [← hfin]
    simp [mouseUpdateMapFromSensors, NORTH, EAST, SOUTH, WEST, hw, h0, h1, h2, h3]

/-- C11: calling `mouseUpdateMapFromSensors` a second time, with the mouse (location,
heading and the three observations) as the first call found it, leaves the world, and with
it the wall store and the visited flags, exactly as the first call left it. -/
theorem mouseUpdateMapFromSensors_idempotent (m : MazeModel) (w : World) :
    mouseUpdateMapFromSensors m (mouseUpdateMapFromSensors m w)
      = mouseUpdateMapFromSensors m w := by
  obtain ⟨mask, h⟩ := mouseUpdateMapFromSensors_mask m w.mouse
  rw [h w rfl, h (w.orWalls mask) rfl, orWalls_orWalls, Nat.or_self]

/-! ## Theorems on the heading -/

/-- C18: from a heading `h` in 0..3, each of `turnIP90R`, `turnIP90L`, `turnIP180`,
`turnSS90R` and `turnSS90L` leaves `mouse.heading` in 0..3, namely at `h + 1`, `h + 3`,
`h + 2`, `h + 1` and `h + 3` modulo 4; four right turns, in place or smooth, bring the
heading back to `h`, and so does a left turn followed by a right turn. -/
theorem turn_headings (cfg : Config) (w : World) (hh : w.mouse.heading < 4) :
    ((turnIP90R cfg w).mouse.heading = (w.mouse.heading + 1) % 4 ∧
      (turnIP90L cfg w).mouse.heading = (w.mouse.heading + 3) % 4 ∧
      (turnIP180 cfg w).mouse.heading = (w.mouse.heading + 2) % 4 ∧
      (turnSS90R w).mouse.heading = (w.mouse.heading + 1) % 4 ∧
      (turnSS90L w).mouse.heading = (w.mouse.heading + 3) % 4) ∧
    ((turnIP90R cfg w).mouse.heading < 4 ∧ (turnIP90L cfg w).mouse.heading < 4 ∧
      (turnIP180 cfg w).mouse.heading < 4 ∧ (turnSS90R w).mouse.heading < 4 ∧
      (turnSS90L w).mouse.heading < 4) ∧
    (turnIP90R cfg (turnIP90R cfg (turnIP90R cfg (turnIP90R cfg w)))).mouse.heading
      = w.mouse.heading ∧
    (turnSS90R (turnSS90R (turnSS90R (turnSS90R w)))).mouse.heading = w.mouse.heading ∧
    (turnIP90R cfg (turnIP90L cfg w)).mouse.heading = w.mouse.heading ∧
    (turnSS90R (turnSS90L w)).mouse.heading = w.mouse.heading := by
  refine ⟨⟨rfl, rfl, rfl, rfl, rfl⟩, ⟨?_, ?_, ?_, ?_, ?_⟩, ?_, ?_, ?_, ?_⟩ <;>
    simp only [turnIP90R, turnIP90L, turnIP180, turnSS90R, turnSS90L, World.turnBy,
      World.call] <;>
    omega

/-- Witness of C18: the mouse heading east. -/
theorem turn_headings_witness :
    sensingWorld.mouse.heading < 4 ∧
    (turnIP90R sampleConfig sensingWorld).mouse.heading = 2 ∧
    (turnIP90L sampleConfig sensingWorld).mouse.heading = 0 ∧
    (turnIP180 sampleConfig sensingWorld).mouse.heading = 3 ∧
    (turnSS90R sensingWorld).mouse.heading = 2 ∧
    (turnSS90L sensingWorld).mouse.heading = 0 ∧
    (turnIP90R sampleConfig (turnIP90R sampleConfig (turnIP90R sampleConfig
      (turnIP90R sampleConfig sensingWorld)))).mouse.heading = sensingWorld.mouse.heading :=
  have h := turn_headings sampleConfig sensingWorld (by decide)
  ⟨by decide, h.1.1, h.1.2.1, h.1.2.2.1, h.1.2.2.2.1, h.1.2.2.2.2, h.2.2.1⟩

/-! ## The length of the expansion -/

theorem expandRule_length (c : Char) : (expandRule c).length ≤ 3 := by
  unfold expandRule
  split_ifs <;> simp

theorem expandSpec_length (s : List Char) : (expandSpec s).length ≤ 3 * s.length := by
  induction s with
  | nil => simp [expandSpec]
  | cons c cs ih =>
    rw [expandSpec_cons, List.length_append, List.length_cons]
    have := expandRule_length c
    omega

theorem except_bind_ok {α β : Type} (x : Except Nat α) (f : α → Except Nat β) (r : β) :
    (x >>= f) = .ok r ↔ ∃ a, x = .ok a ∧ f a = .ok r := by
  cases x with
  | error e => simp [bind, Except.bind]
  | ok a => simp [bind, Except.bind]

theorem emit_ok (st st1 : ExpandState) (ch : Char) :
    st.emit ch = .ok st1 ↔ st.commandIndex < BUFSIZE ∧
      st1 = { st with commands := st.commands.write st.commandIndex ch,
                      commandIndex := st.commandIndex + 1 } := by
  unfold ExpandState.emit
  split_ifs with h
  · simp [h, eq_comm]
  · simp [h]

/-- One loop body on an accepted symbol, when it does not write outside `commands`: its rule
is stored and both indices move on. -/
theorem expandSwitch_ok (c : Char) (st st1 : ExpandState) (hc : inExpandAlphabet c)
    (h : expandSwitch c st = .ok st1) :
    st1 = { pathIndex := st.pathIndex + 1,
            commandIndex := st.commandIndex + (expandRule c).length,
            commands := st.commands.writeList st.commandIndex (expandRule c) } := by
  rcases hc with hc | hc | hc | hc | hc | hc <;> subst hc <;>
    simp only [expandSwitch, except_bind_ok, emit_ok, pure, Except.pure, ExpandState.advance,
      Char.reduceEq, if_true, if_false, true_or, or_true, Except.ok.injEq] at h
  · subst h; simp [expandRule, Buf.writeList]
  · subst h; simp [expandRule, Buf.writeList]
  · obtain ⟨_, ⟨_, rfl⟩, _, ⟨_, rfl⟩, rfl⟩ := h
    simp [expandRule, Buf.writeList]
  · obtain ⟨_, ⟨_, rfl⟩, _, ⟨_, rfl⟩, _, ⟨_, rfl⟩, rfl⟩ := h
    simp [expandRule, Buf.writeList]
  · obtain ⟨_, ⟨_, rfl⟩, _, ⟨_, rfl⟩, _, ⟨_, rfl⟩, rfl⟩ := h
    simp [expandRule, Buf.writeList]
  · obtain ⟨_, ⟨_, rfl⟩, rfl⟩ := h
    simp [expandRule, Buf.writeList]

/-- The loop on a string of accepted symbols, when it returns: the expansion is stored and
terminated, all inside `commands`. -/
theorem expandLoop_done (pathString : Buf) (suf : List Char) :
    ∀ (st : ExpandState) (fuel : Nat) (commands : Buf) (idx : Nat),
      (∀ j, j ≤ suf.length → pathString (st.pathIndex + j) = suf.getD j NUL) →
      (∀ c ∈ suf, inExpandAlphabet c) →
      expandLoop pathString fuel st = .done commands idx →
      idx = st.commandIndex + (expandSpec suf).length ∧ idx < BUFSIZE ∧
      commands = (st.commands.writeList st.commandIndex (expandSpec suf)).write idx NUL := by
  induction suf with
  | nil =>
    intro st fuel commands idx hstr _ h
    cases fuel with
    | zero => simp [expandLoop] at h
    | succ fuel =>
      have h0 : pathString st.pathIndex = NUL := by simpa using hstr 0 (by simp)
      rw [expandLoop, if_pos h0] at h
      split_ifs at h with hlt
      · simp only [ExpandResult.done.injEq] at h
        obtain ⟨rfl, rfl⟩ := h
        simp [expandSpec, Buf.writeList, hlt]
  | cons c cs ih =>
    intro st fuel commands idx hstr halpha h
    cases fuel with
    | zero => simp [expandLoop] at h
    | succ fuel =>
      have hc : inExpandAlphabet c := halpha c (by simp)
      have h0 : pathString st.pathIndex = c := by simpa using hstr 0 (by simp)
      rw [expandLoop, h0, if_neg (inExpandAlphabet_ne_NUL c hc)] at h
      cases hsw : expandSwitch c st with
      | error e => simp [hsw] at h
      | ok st1 =>
        rw [hsw] at h
        simp only at h
        have hst1 := expandSwitch_ok c st st1 hc hsw
        have hrec := ih st1 fuel commands idx ?_
          (fun x hx => halpha x (List.mem_cons_of_mem _ hx)) h
        · subst hst1
          obtain ⟨h1, h2, h3⟩ := hrec
          simp only at h1 h3
          refine ⟨?_, h2, ?_⟩
          · rw [h1, expandSpec_cons, List.length_append]; omega
          · rw [h3, expandSpec_cons, Buf.writeList_append]
        · intro j hj
          have := hstr (j + 1) (by simpa using hj)
          simp only [List.getD_cons_succ] at this
          rw [← this, hst1]
          show pathString (st.pathIndex + 1 + j) = _
          congr 1
          omega

/-- The result of `pathExpand` on a string of accepted symbols whose expansion fits. -/
theorem pathExpand_done (pathString commands0 : Buf) (s : List Char) (fuel : Nat)
    (hstr : pathString.holds s) (halpha : ∀ c ∈ s, inExpandAlphabet c)
    (hfit : ('B' :: expandSpec s).length < BUFSIZE) (hfuel : s.length < fuel) :
    pathExpand fuel pathString commands0 =
      .done ((commands0.writeList 0 ('B' :: expandSpec s)).write
        ('B' :: expandSpec s).length NUL) ('B' :: expandSpec s).length := by
  have hrun := expandLoop_alphabet pathString s
    { pathIndex := 0, commandIndex := 1, commands := commands0.write 0 'B' } fuel
    (by intro j hj; simpa using hstr j hj) halpha
    (by simp only [List.length_cons] at hfit; simpa [Nat.add_comm] using hfit) hfuel
  simp only at hrun
  have hlen : 1 + (expandSpec s).length = ('B' :: expandSpec s).length := by
    simp [Nat.add_comm]
  rw [hlen] at hrun
  exact hrun

/-- C19: when `pathExpand` returns on a path string over B, space, F, R, L, S, the command
string it leaves is `B` followed by the rewrites of the input, its length (the NUL not
counted) is the index at which the NUL was stored, and that length is at most
`1 + 3 * len(input)`. -/
theorem pathExpand_length_bound (pathString commands0 : Buf) (s : List Char) (fuel : Nat)
    (commands : Buf) (idx : Nat) (hstr : pathString.holds s)
    (halpha : ∀ c ∈ s, inExpandAlphabet c)
    (h : pathExpand fuel pathString commands0 = .done commands idx) :
    commands.cstr = 'B' :: expandSpec s ∧ commands.cstr.length = idx ∧
    commands.cstr.length ≤ 1 + 3 * s.length := by
  obtain ⟨h1, h2, h3⟩ := expandLoop_done pathString s
    { pathIndex := 0, commandIndex := 1, commands := commands0.write 0 'B' } fuel commands idx
    (by intro j hj; simpa using hstr j hj) halpha h
  simp only at h1 h3
  have hlen : ('B' :: expandSpec s).length = idx := by
    rw [h1, List.length_cons]; omega
  have hcstr : commands.cstr = 'B' :: expandSpec s := by
    rw [h3, ← hlen]
    apply Buf.cstr_writeList commands0 ('B' :: expandSpec s) _ (by rw [hlen]; exact h2)
    simp only [List.mem_cons, not_or]
    exact ⟨by decide, expandSpec_no_NUL s⟩
  refine ⟨hcstr, by rw [hcstr, hlen], ?_⟩
  rw [hcstr, List.length_cons]
  have := expandSpec_length s
  omega

/-- Witness of C19: `BFRFLS`, of length 6, expands to the 12 characters `BHHRHHHHLHHS`. -/
theorem pathExpand_length_bound_witness :
    (Buf.ofList "BFRFLS".toList).holds "BFRFLS".toList ∧
    (∀ c ∈ "BFRFLS".toList, inExpandAlphabet c) ∧
    ∃ commands, pathExpand 7 (Buf.ofList "BFRFLS".toList) (fun _ => 'x') = .done commands 12 ∧
      commands.cstr = 'B' :: expandSpec "BFRFLS".toList ∧ commands.cstr.length = 12 ∧
      commands.cstr.length ≤ 1 + 3 * "BFRFLS".toList.length :=
  ⟨fun _ _ => rfl, by decide, _,
   pathExpand_done (Buf.ofList "BFRFLS".toList) (fun _ => 'x') "BFRFLS".toList 7
     (fun _ _ => rfl) (by decide) (by decide) (by decide),
   pathExpand_length_bound (Buf.ofList "BFRFLS".toList) (fun _ => 'x') "BFRFLS".toList 7 _ 12
     (fun _ _ => rfl) (by decide)
     (pathExpand_done (Buf.ofList "BFRFLS".toList) (fun _ => 'x') "BFRFLS".toList 7
       (fun _ _ => rfl) (by decide) (by decide) (by decide))⟩

/-! ## Lemmas on the path executors -/

theorem inplaceLoop_S (cfg : Config) (button : Nat → Bool) (topSpeed : Int) (fuel i : Nat)
    (w : World) (h0 : w.commands i = 'S') :
    inplaceLoop cfg button topSpeed (fuel + 1) i w
      = some { exit := .stop, index := i, world := w } := by
  simp [inplaceLoop, h0]

theorem inplaceLoop_B (cfg : Config) (button : Nat → Bool) (topSpeed : Int) (fuel i : Nat)
    (w : World) (h0 : w.commands i = 'B') (hb : button w.samples = false) :
    inplaceLoop cfg button topSpeed (fuel + 1) i w
      = inplaceLoop cfg button topSpeed fuel (i + 1) w.sample := by
  simp [inplaceLoop, h0, hb]

theorem inplaceLoop_HRH (cfg : Config) (button : Nat → Bool) (topSpeed : Int) (fuel i : Nat)
    (w : World) (h0 : w.commands i = 'H') (h1 : w.commands (i + 1) = 'R')
    (h2 : w.commands (i + 2) = 'H') (hb : button w.samples = false) :
    inplaceLoop cfg button topSpeed (fuel + 1) i w
      = inplaceLoop cfg button topSpeed fuel (i + 3)
          (move_forward cfg 90 topSpeed topSpeed
            (turnIP90R cfg (move_forward cfg 90 topSpeed 0 w.sample))) := by
  simp [inplaceLoop, h0, h1, h2, hb]

theorem inplaceLoop_HLH (cfg : Config) (button : Nat → Bool) (topSpeed : Int) (fuel i : Nat)
    (w : World) (h0 : w.commands i = 'H') (h1 : w.commands (i + 1) = 'L')
    (h2 : w.commands (i + 2) = 'H') (hb : button w.samples = false) :
    inplaceLoop cfg button topSpeed (fuel + 1) i w
      = inplaceLoop cfg button topSpeed fuel (i + 3)
          (move_forward cfg 90 topSpeed topSpeed
            (turnIP90L cfg (move_forward cfg 90 topSpeed 0 w.sample))) := by
  simp [inplaceLoop, h0, h1, h2, hb]

theorem inplaceLoop_HH (cfg : Config) (button : Nat → Bool) (topSpeed : Int) (fuel i : Nat)
    (w : World) (h0 : w.commands i = 'H') (h1 : w.commands (i + 1) = 'H')
    (hb : button w.samples = false) :
    inplaceLoop cfg button topSpeed (fuel + 1) i w
      = inplaceLoop cfg button topSpeed fuel (i + 1)
          (move_forward cfg 90 topSpeed topSpeed w.sample) := by
  simp [inplaceLoop, h0, h1, hb]

theorem inplaceLoop_HS (cfg : Config) (button : Nat → Bool) (topSpeed : Int) (fuel i : Nat)
    (w : World) (h0 : w.commands i = 'H') (h1 : w.commands (i + 1) = 'S')
    (hb : button w.samples = false) :
    inplaceLoop cfg button topSpeed (fuel + 1) i w
      = inplaceLoop cfg button topSpeed fuel (i + 1)
          (move_forward cfg 90 topSpeed 0 w.sample) := by
  simp [inplaceLoop, h0, h1, hb]

theorem smoothLoop_S (cfg : Config) (button : Nat → Bool) (topSpeed : Int) (fuel i : Nat)
    (w : World) (h0 : w.commands i = 'S') :
    smoothLoop cfg button topSpeed (fuel + 1) i w
      = some { exit := .stop, index := i, world := w } := by
  simp [smoothLoop, h0]

theorem smoothLoop_B (cfg : Config) (button : Nat → Bool) (topSpeed : Int) (fuel i : Nat)
    (w : World) (h0 : w.commands i = 'B') (hb : button w.samples = false) :
    smoothLoop cfg button topSpeed (fuel + 1) i w
      = smoothLoop cfg button topSpeed fuel (i + 1) w.sample := by
  simp [smoothLoop, h0, hb]

theorem smoothLoop_HRH (cfg : Config) (button : Nat → Bool) (topSpeed : Int) (fuel i : Nat)
    (w : World) (h0 : w.commands i = 'H') (h1 : w.commands (i + 1) = 'R')
    (h2 : w.commands (i + 2) = 'H') (hb : button w.samples = false) :
    smoothLoop cfg button topSpeed (fuel + 1) i w
      = smoothLoop cfg button topSpeed fuel (i + 3)
          (move_forward cfg 20 topSpeed topSpeed
            (turnSS90R (move_forward cfg 20 topSpeed cfg.SPEEDMAX_SMOOTH_TURN w.sample))) := by
  simp [smoothLoop, h0, h1, h2, hb]

theorem smoothLoop_HLH (cfg : Config) (button : Nat → Bool) (topSpeed : Int) (fuel i : Nat)
    (w : World) (h0 : w.commands i = 'H') (h1 : w.commands (i + 1) = 'L')
    (h2 : w.commands (i + 2) = 'H') (hb : button w.samples = false) :
    smoothLoop cfg button topSpeed (fuel + 1) i w
      = smoothLoop cfg button topSpeed fuel (i + 3)
          (move_forward cfg 20 topSpeed topSpeed
            (turnSS90L (move_forward cfg 20 topSpeed cfg.SPEEDMAX_SMOOTH_TURN w.sample))) := by
  simp [smoothLoop, h0, h1, h2, hb]

theorem smoothLoop_HH (cfg : Config) (button : Nat → Bool) (topSpeed : Int) (fuel i : Nat)
    (w : World) (h0 : w.commands i = 'H') (h1 : w.commands (i + 1) = 'H')
    (hb : button w.samples = false) :
    smoothLoop cfg button topSpeed (fuel + 1) i w
      = smoothLoop cfg button topSpeed fuel (i + 1)
          (move_forward cfg 90 topSpeed topSpeed w.sample) := by
  simp [smoothLoop, h0, h1, hb]

theorem smoothLoop_HS (cfg : Config) (button : Nat → Bool) (topSpeed : Int) (fuel i : Nat)
    (w : World) (h0 : w.commands i = 'H') (h1 : w.commands (i + 1) = 'S')
    (hb : button w.samples = false) :
    smoothLoop cfg button topSpeed (fuel + 1) i w
      = smoothLoop cfg button topSpeed fuel (i + 1)
          (move_forward cfg 90 topSpeed 0 w.sample) := by
  simp [smoothLoop, h0, h1, hb]

/-- The in-place loop from the second half-cell of a move symbol, with the symbols `rest`
still to come before the `S` and no abort: it leaves at the `S`, having issued the calls of
each symbol in turn and the closing half-cell move that ends at rest. -/
theorem inplaceLoop_run (cfg : Config) (button : Nat → Bool) (topSpeed : Int)
    (hquiet : ∀ n, button n = false) (rest : List Char) :
    ∀ (i fuel : Nat) (w : World), (∀ c ∈ rest, isRunSymbol c) →
      (∀ k, k < ('H' :: expandSpec rest ++ ['S']).length →
        w.commands (i + k) = ('H' :: expandSpec rest ++ ['S']).getD k NUL) →
      2 * rest.length + 2 ≤ fuel →
      ∃ w1, inplaceLoop cfg button topSpeed fuel i w
          = some { exit := .stop, index := i + 1 + (expandSpec rest).length, world := w1 } ∧
        w1.log = w.log ++ (rest.flatMap (inplaceSymLog cfg topSpeed) ++
          [.forward_start 90 topSpeed 0 cfg.SEARCH_ACCELERATION]) ∧
        w1.commands = w.commands ∧
        w1.mouse.heading = headingAfter w.mouse.heading rest ∧
        w1.mouse.location = w.mouse.location ∧ w1.path = w.path ∧
        w1.mouseState = w.mouseState ∧ w1.phaseLog = w.phaseLog := by
  induction rest with
  | nil =>
    intro i fuel w _ hcmd hfuel
    obtain ⟨fuel, rfl⟩ : ∃ f, fuel = f + 2 := ⟨fuel - 2, by omega⟩
    have h0 : w.commands i = 'H' := by simpa using hcmd 0 (by simp)
    have h1 : w.commands (i + 1) = 'S' := by simpa [expandSpec] using hcmd 1 (by simp)
    rw [inplaceLoop_HS cfg button topSpeed (fuel + 1) i w h0 h1 (hquiet _),
      inplaceLoop_S cfg button topSpeed fuel (i + 1) (move_forward cfg 90 topSpeed 0 w.sample) h1]
    refine ⟨move_forward cfg 90 topSpeed 0 w.sample, ?_, ?_, rfl, rfl, rfl, rfl, rfl, rfl⟩
    · simp [expandSpec]
    · simp [move_forward, World.call, World.sample]
  | cons c cs ih =>
    intro i fuel w hrun hcmd hfuel
    obtain ⟨fuel, rfl⟩ : ∃ f, fuel = f + 2 := ⟨fuel - 2, by simp at hfuel; omega⟩
    have hc : isRunSymbol c := hrun c (by simp)
    have hcs : ∀ x ∈ cs, isRunSymbol x := fun x hx => hrun x (List.mem_cons_of_mem _ hx)
    have h0 : w.commands i = 'H' := by simpa using hcmd 0 (by simp)
    rcases hc with hF | hR | hL
    · subst hF
      have hexp : expandSpec ('F' :: cs) = 'H' :: 'H' :: expandSpec cs := by
        simp [expandSpec, expandRule]
      rw [hexp] at hcmd ⊢
      have h1 : w.commands (i + 1) = 'H' := by simpa using hcmd 1 (by simp)
      have h2 : w.commands (i + 2) = 'H' := by simpa using hcmd 2 (by simp)
      rw [inplaceLoop_HH cfg button topSpeed (fuel + 1) i w h0 h1 (hquiet _),
        inplaceLoop_HH cfg button topSpeed fuel (i + 1)
          (move_forward cfg 90 topSpeed topSpeed w.sample) h1 h2 (hquiet _)]
      obtain ⟨w1, hw1, hlog, hcm, hhd, hloc, hp, hms, hpl⟩ := ih (i + 2) fuel
        (move_forward cfg 90 topSpeed topSpeed
          (move_forward cfg 90 topSpeed topSpeed w.sample).sample) hcs
        (by
          intro k hk
          have := hcmd (k + 2) (by simp at hk ⊢; omega)
          simp only [List.cons_append, List.getD_cons_succ] at this
          show w.commands (i + 2 + k) = _
          rw [show i + 2 + k = i + (k + 2) by omega, this]
          rfl)
        (by simp at hfuel; omega)
      refine ⟨w1, ?_, ?_, hcm, ?_, hloc, hp, hms, hpl⟩
      · rw [hw1]; simp only [List.length_cons]; congr 2; omega
      · rw [hlog]
        simp [move_forward, World.call, World.sample, inplaceSymLog]
      · rw [hhd]; simp [headingAfter, move_forward, World.call, World.sample]
    · subst hR
      have hexp : expandSpec ('R' :: cs) = 'R' :: 'H' :: 'H' :: expandSpec cs := by
        simp [expandSpec, expandRule]
      rw [hexp] at hcmd ⊢
      have h1 : w.commands (i + 1) = 'R' := by simpa using hcmd 1 (by simp)
      have h2 : w.commands (i + 2) = 'H' := by simpa using hcmd 2 (by simp)
      rw [inplaceLoop_HRH cfg button topSpeed (fuel + 1) i w h0 h1 h2 (hquiet _)]
      obtain ⟨w1, hw1, hlog, hcm, hhd, hloc, hp, hms, hpl⟩ := ih (i + 3) (fuel + 1)
        (move_forward cfg 90 topSpeed topSpeed
          (turnIP90R cfg (move_forward cfg 90 topSpeed 0 w.sample))) hcs
        (by
          intro k hk
          have := hcmd (k + 3) (by simp at hk ⊢; omega)
          simp only [List.cons_append, List.getD_cons_succ] at this
          show w.commands (i + 3 + k) = _
          rw [show i + 3 + k = i + (k + 3) by omega, this]
          rfl)
        (by simp at hfuel; omega)
      refine ⟨w1, ?_, ?_, hcm, ?_, hloc, hp, hms, hpl⟩
      · rw [hw1]; simp only [List.length_cons]; congr 2; omega
      · rw [hlog]
        simp [move_forward, World.call, World.sample, inplaceSymLog, turnIP90R, World.turnBy]
      · rw [hhd]
        simp [headingAfter, move_forward, World.call, World.sample, turnIP90R, World.turnBy]
    · subst hL
      have hexp : expandSpec ('L' :: cs) = 'L' :: 'H' :: 'H' :: expandSpec cs := by
        simp [expandSpec, expandRule]
      rw [hexp] at hcmd ⊢
      have h1 : w.commands (i + 1) = 'L' := by simpa using hcmd 1 (by simp)
      have h2 : w.commands (i + 2) = 'H' := by simpa using hcmd 2 (by simp)
      rw [inplaceLoop_HLH cfg button topSpeed (fuel + 1) i w h0 h1 h2 (hquiet _)]
      obtain ⟨w1, hw1, hlog, hcm, hhd, hloc, hp, hms, hpl⟩ := ih (i + 3) (fuel + 1)
        (move_forward cfg 90 topSpeed topSpeed
          (turnIP90L cfg (move_forward cfg 90 topSpeed 0 w.sample))) hcs
        (by
          intro k hk
          have := hcmd (k + 3) (by simp at hk ⊢; omega)
          simp only [List.cons_append, List.getD_cons_succ] at this
          show w.commands (i + 3 + k) = _
          rw [show i + 3 + k = i + (k + 3) by omega, this]
          rfl)
        (by simp at hfuel; omega)
      refine ⟨w1, ?_, ?_, hcm, ?_, hloc, hp, hms, hpl⟩
      · rw [hw1]; simp only [List.length_cons]; congr 2; omega
      · rw [hlog]
        simp [move_forward, World.call, World.sample, inplaceSymLog, turnIP90L, World.turnBy]
      · rw [hhd]
        simp [headingAfter, move_forward, World.call, World.sample, turnIP90L, World.turnBy]

/-- The smooth loop from the second half-cell of a move symbol, with the symbols `rest`
still to come before the `S` and no abort: it leaves at the `S`, having issued the calls of
each symbol in turn and the closing half-cell move that ends at rest. -/
theorem smoothLoop_run (cfg : Config) (button : Nat → Bool) (topSpeed : Int)
    (hquiet : ∀ n, button n = false) (rest : List Char) :
    ∀ (i fuel : Nat) (w : World), (∀ c ∈ rest, isRunSymbol c) →
      (∀ k, k < ('H' :: expandSpec rest ++ ['S']).length →
        w.commands (i + k) = ('H' :: expandSpec rest ++ ['S']).getD k NUL) →
      2 * rest.length + 2 ≤ fuel →
      ∃ w1, smoothLoop cfg button topSpeed fuel i w
          = some { exit := .stop, index := i + 1 + (expandSpec rest).length, world := w1 } ∧
        w1.log = w.log ++ (rest.flatMap (smoothSymLog cfg topSpeed) ++
          [.forward_start 90 topSpeed 0 cfg.SEARCH_ACCELERATION]) ∧
        w1.commands = w.commands ∧
        w1.mouse.heading = headingAfter w.mouse.heading rest ∧
        w1.mouse.location = w.mouse.location ∧ w1.path = w.path ∧
        w1.mouseState = w.mouseState ∧ w1.phaseLog = w.phaseLog := by
  induction rest with
  | nil =>
    intro i fuel w _ hcmd hfuel
    obtain ⟨fuel, rfl⟩ : ∃ f, fuel = f + 2 := ⟨fuel - 2, by omega⟩
    have h0 : w.commands i = 'H' := by simpa using hcmd 0 (by simp)
    have h1 : w.commands (i + 1) = 'S' := by simpa [expandSpec] using hcmd 1 (by simp)
    rw [smoothLoop_HS cfg button topSpeed (fuel + 1) i w h0 h1 (hquiet _),
      smoothLoop_S cfg button topSpeed fuel (i + 1) (move_forward cfg 90 topSpeed 0 w.sample) h1]
    refine ⟨move_forward cfg 90 topSpeed 0 w.sample, ?_, ?_, rfl, rfl, rfl, rfl, rfl, rfl⟩
    · simp [expandSpec]
    · simp [move_forward, World.call, World.sample]
  | cons c cs ih =>
    intro i fuel w hrun hcmd hfuel
    obtain ⟨fuel, rfl⟩ : ∃ f, fuel = f + 2 := ⟨fuel - 2, by simp at hfuel; omega⟩
    have hc : isRunSymbol c := hrun c (by simp)
    have hcs : ∀ x ∈ cs, isRunSymbol x := fun x hx => hrun x (List.mem_cons_of_mem _ hx)
    have h0 : w.commands i = 'H' := by simpa using hcmd 0 (by simp)
    rcases hc with hF | hR | hL
    · subst hF
      have hexp : expandSpec ('F' :: cs) = 'H' :: 'H' :: expandSpec cs := by
        simp [expandSpec, expandRule]
      rw [hexp] at hcmd ⊢
      have h1 : w.commands (i + 1) = 'H' := by simpa using hcmd 1 (by simp)
      have h2 : w.commands (i + 2) = 'H' := by simpa using hcmd 2 (by simp)
      rw [smoothLoop_HH cfg button topSpeed (fuel + 1) i w h0 h1 (hquiet _),
        smoothLoop_HH cfg button topSpeed fuel (i + 1)
          (move_forward cfg 90 topSpeed topSpeed w.sample) h1 h2 (hquiet _)]
      obtain ⟨w1, hw1, hlog, hcm, hhd, hloc, hp, hms, hpl⟩ := ih (i + 2) fuel
        (move_forward cfg 90 topSpeed topSpeed
          (move_forward cfg 90 topSpeed topSpeed w.sample).sample) hcs
        (by
          intro k hk
          have := hcmd (k + 2) (by simp at hk ⊢; omega)
          simp only [List.cons_append, List.getD_cons_succ] at this
          show w.commands (i + 2 + k) = _
          rw [show i + 2 + k = i + (k + 2) by omega, this]
          rfl)
        (by simp at hfuel; omega)
      refine ⟨w1, ?_, ?_, hcm, ?_, hloc, hp, hms, hpl⟩
      · rw [hw1]; simp only [List.length_cons]; congr 2; omega
      · rw [hlog]
        simp [move_forward, World.call, World.sample, smoothSymLog]
      · rw [hhd]; simp [headingAfter, move_forward, World.call, World.sample]
    · subst hR
      have hexp : expandSpec ('R' :: cs) = 'R' :: 'H' :: 'H' :: expandSpec cs := by
        simp [expandSpec, expandRule]
      rw [hexp] at hcmd ⊢
      have h1 : w.commands (i + 1) = 'R' := by simpa using hcmd 1 (by simp)
      have h2 : w.commands (i + 2) = 'H' := by simpa using hcmd 2 (by simp)
      rw [smoothLoop_HRH cfg button topSpeed (fuel + 1) i w h0 h1 h2 (hquiet _)]
      obtain ⟨w1, hw1, hlog, hcm, hhd, hloc, hp, hms, hpl⟩ := ih (i + 3) (fuel + 1)
        (move_forward cfg 20 topSpeed topSpeed
          (turnSS90R (move_forward cfg 20 topSpeed cfg.SPEEDMAX_SMOOTH_TURN w.sample))) hcs
        (by
          intro k hk
          have := hcmd (k + 3) (by simp at hk ⊢; omega)
          simp only [List.cons_append, List.getD_cons_succ] at this
          show w.commands (i + 3 + k) = _
          rw [show i + 3 + k = i + (k + 3) by omega, this]
          rfl)
        (by simp at hfuel; omega)
      refine ⟨w1, ?_, ?_, hcm, ?_, hloc, hp, hms, hpl⟩
      · rw [hw1]; simp only [List.length_cons]; congr 2; omega
      · rw [hlog]
        simp [move_forward, World.call, World.sample, smoothSymLog, turnSS90R, World.turnBy]
      · rw [hhd]
        simp [headingAfter, move_forward, World.call, World.sample, turnSS90R, World.turnBy]
    · subst hL
      have hexp : expandSpec ('L' :: cs) = 'L' :: 'H' :: 'H' :: expandSpec cs := by
        simp [expandSpec, expandRule]
      rw [hexp] at hcmd ⊢
      have h1 : w.commands (i + 1) = 'L' := by simpa using hcmd 1 (by simp)
      have h2 : w.commands (i + 2) = 'H' := by simpa using hcmd 2 (by simp)
      rw [smoothLoop_HLH cfg button topSpeed (fuel + 1) i w h0 h1 h2 (hquiet _)]
      obtain ⟨w1, hw1, hlog, hcm, hhd, hloc, hp, hms, hpl⟩ := ih (i + 3) (fuel + 1)
        (move_forward cfg 20 topSpeed topSpeed
          (turnSS90L (move_forward cfg 20 topSpeed cfg.SPEEDMAX_SMOOTH_TURN w.sample))) hcs
        (by
          intro k hk
          have := hcmd (k + 3) (by simp at hk ⊢; omega)
          simp only [List.cons_append, List.getD_cons_succ] at this
          show w.commands (i + 3 + k) = _
          rw [show i + 3 + k = i + (k + 3) by omega, this]
          rfl)
        (by simp at hfuel; omega)
      refine ⟨w1, ?_, ?_, hcm, ?_, hloc, hp, hms, hpl⟩
      · rw [hw1]; simp only [List.length_cons]; congr 2; omega
      · rw [hlog]
        simp [move_forward, World.call, World.sample, smoothSymLog, turnSS90L, World.turnBy]
      · rw [hhd]
        simp [headingAfter, move_forward, World.call, World.sample, turnSS90L, World.turnBy]

/-- The expansion of a path `B F mid S`. -/
theorem expandSpec_runPath (mid : List Char) :
    expandSpec (runPath mid) = 'H' :: 'H' :: (expandSpec mid ++ ['S']) := by
  simp [runPath, expandSpec, expandRule]

theorem runPath_alphabet (mid : List Char) (hmid : ∀ c ∈ mid, isRunSymbol c) :
    ∀ c ∈ runPath mid, inExpandAlphabet c := by
  intro c hc
  simp only [runPath, List.mem_cons, List.mem_append, List.mem_singleton, List.not_mem_nil,
    or_false] at hc
  have hsym : ∀ x, isRunSymbol x → inExpandAlphabet x := by
    intro x hx
    rcases hx with rfl | rfl | rfl <;> decide
  rcases hc with (rfl | rfl | h) | rfl
  · decide
  · decide
  · exact hsym c (hmid c h)
  · decide

theorem getD_append_last (l : List Char) (x d : Char) : (l ++ [x]).getD l.length d = x := by
  induction l with
  | nil => rfl
  | cons c cs ih => simp [ih]

/-- Reading back what `pathExpand` stored. -/
theorem Buf.written_get (buf : Buf) (t : List Char) (k : Nat) (hk : k < t.length) :
    ((buf.writeList 0 t).write t.length NUL) k = t.getD k NUL := by
  rw [Buf.write_other _ _ _ _ (by omega)]
  simpa using Buf.writeList_at t buf 0 k hk

/-- The call `pathExpand(path)` on a path `B F mid S` whose expansion fits. -/
theorem expandPath_runPath (fuel : Nat) (w : World) (mid : List Char)
    (hpath : w.path.holds (runPath mid)) (hmid : ∀ c ∈ mid, isRunSymbol c)
    (hfit : ('B' :: expandSpec (runPath mid)).length < BUFSIZE)
    (hfuel : 2 * mid.length + 4 ≤ fuel) :
    ∃ w1, w.expandPath fuel = some w1 ∧ w1.log = w.log ∧ w1.mouse = w.mouse ∧
      w1.samples = w.samples ∧ w1.path = w.path ∧ w1.mouseState = w.mouseState ∧
      w1.phaseLog = w.phaseLog ∧
      w1.commands.cstr = 'B' :: expandSpec (runPath mid) ∧
      ∀ k, k < ('B' :: 'H' :: 'H' :: (expandSpec mid ++ ['S'])).length →
        w1.commands k = ('B' :: 'H' :: 'H' :: (expandSpec mid ++ ['S'])).getD k NUL := by
  have hdone := pathExpand_done w.path w.commands (runPath mid) fuel hpath
    (runPath_alphabet mid hmid) hfit (by simp [runPath]; omega)
  refine ⟨{ w with commands := ((w.commands.writeList 0 ('B' :: expandSpec (runPath mid))).write
      ('B' :: expandSpec (runPath mid)).length NUL) }, ?_, rfl, rfl, rfl, rfl, rfl, rfl, ?_, ?_⟩
  · simp [World.expandPath, hdone]
  · apply Buf.cstr_writeList _ _ _ hfit
    simp only [List.mem_cons, not_or]
    exact ⟨by decide, expandSpec_no_NUL _⟩
  · intro k hk
    rw [← expandSpec_runPath] at hk ⊢
    exact Buf.written_get _ _ k hk

/-- The run of `mouseRunInplaceTurns` on a path `B F mid S` with no abort. -/
theorem mouseRunInplaceTurns_run (cfg : Config) (button : Nat → Bool) (topSpeed : Int)
    (fuel : Nat) (w : World) (mid : List Char)
    (hpath : w.path.holds (runPath mid)) (hmid : ∀ c ∈ mid, isRunSymbol c)
    (hfit : ('B' :: expandSpec (runPath mid)).length < BUFSIZE)
    (hquiet : ∀ n, button n = false) (hfuel : 2 * mid.length + 4 ≤ fuel) :
    ∃ r, mouseRunInplaceTurns cfg button topSpeed fuel w = some r ∧ r.exit = .stop ∧
      r.index + 1 = ('B' :: expandSpec (runPath mid)).length ∧
      r.world.commands r.index = 'S' ∧
      r.world.commands.cstr = 'B' :: expandSpec (runPath mid) ∧
      r.world.log = w.log ++
        (.forward_start 90 topSpeed topSpeed cfg.SEARCH_ACCELERATION ::
          (mid.flatMap (inplaceSymLog cfg topSpeed) ++
            [.forward_start 90 topSpeed 0 cfg.SEARCH_ACCELERATION])) ∧
      r.world.mouse.heading = headingAfter w.mouse.heading mid ∧
      r.world.mouse.location = cfg.GOAL := by
  obtain ⟨w1, hexp, hlog1, hmouse1, hs1, _, _, _, hcstr, hget⟩ :=
    expandPath_runPath fuel w mid hpath hmid hfit hfuel
  obtain ⟨fuel, rfl⟩ : ∃ f, fuel = f + 2 := ⟨fuel - 2, by omega⟩
  have c0 : w1.commands 0 = 'B' := by simpa using hget 0 (by simp)
  have c1 : w1.commands 1 = 'H' := by simpa using hget 1 (by simp)
  have c2 : w1.commands 2 = 'H' := by simpa using hget 2 (by simp)
  obtain ⟨w2, hw2, hlog2, hcm2, hhd2, _⟩ := inplaceLoop_run cfg button topSpeed hquiet mid 2 fuel
    (move_forward cfg 90 topSpeed topSpeed w1.sample.sample) hmid
    (by
      intro k hk
      have := hget (k + 2) (by simp at hk ⊢; omega)
      show w1.commands (2 + k) = _
      rw [show 2 + k = k + 2 by omega, this]
      rfl)
    (by omega)
  have hrun : inplaceLoop cfg button topSpeed (fuel + 2) 0 w1
      = some { exit := .stop, index := 2 + 1 + (expandSpec mid).length, world := w2 } := by
    rw [inplaceLoop_B cfg button topSpeed (fuel + 1) 0 w1 c0 (hquiet _),
      inplaceLoop_HH cfg button topSpeed fuel 1 w1.sample c1 c2 (hquiet _)]
    exact hw2
  refine ⟨ExecResult.atGoal cfg ⟨.stop, 2 + 1 + (expandSpec mid).length, w2⟩,
    ?_, rfl, ?_, ?_, ?_, ?_, ?_, rfl⟩
  · simp [mouseRunInplaceTurns, hexp, hrun]
  · simp [ExecResult.atGoal, expandSpec_runPath]; omega
  · show w2.commands (2 + 1 + (expandSpec mid).length) = 'S'
    rw [hcm2]
    have := hget (2 + 1 + (expandSpec mid).length) (by simp; omega)
    show w1.commands (2 + 1 + (expandSpec mid).length) = 'S'
    rw [this, show 2 + 1 + (expandSpec mid).length = (expandSpec mid).length + 1 + 1 + 1 by omega]
    simp only [List.getD_cons_succ]
    exact getD_append_last _ _ _
  · show w2.commands.cstr = _
    rw [hcm2]
    exact hcstr
  · show w2.log = _
    rw [hlog2]
    simp [move_forward, World.call, World.sample, hlog1]
  · show w2.mouse.heading = _
    rw [hhd2]
    simp [move_forward, World.call, World.sample, hmouse1]

/-- The run of `mouseRunSmoothTurns` on a path `B F mid S` with no abort. -/
theorem mouseRunSmoothTurns_run (cfg : Config) (button : Nat → Bool) (topSpeed : Int)
    (fuel : Nat) (w : World) (mid : List Char)
    (hpath : w.path.holds (runPath mid)) (hmid : ∀ c ∈ mid, isRunSymbol c)
    (hfit : ('B' :: expandSpec (runPath mid)).length < BUFSIZE)
    (hquiet : ∀ n, button n = false) (hfuel : 2 * mid.length + 4 ≤ fuel) :
    ∃ r, mouseRunSmoothTurns cfg button topSpeed fuel w = some r ∧ r.exit = .stop ∧
      r.index + 1 = ('B' :: expandSpec (runPath mid)).length ∧
      r.world.commands r.index = 'S' ∧
      r.world.commands.cstr = 'B' :: expandSpec (runPath mid) ∧
      r.world.log = w.log ++
        (.forward_start 90 topSpeed topSpeed cfg.SEARCH_ACCELERATION ::
          (mid.flatMap (smoothSymLog cfg topSpeed) ++
            [.forward_start 90 topSpeed 0 cfg.SEARCH_ACCELERATION])) ∧
      r.world.mouse.heading = headingAfter w.mouse.heading mid ∧
      r.world.mouse.location = cfg.GOAL := by
  obtain ⟨w1, hexp, hlog1, hmouse1, hs1, _, _, _, hcstr, hget⟩ :=
    expandPath_runPath fuel w mid hpath hmid hfit hfuel
  obtain ⟨fuel, rfl⟩ : ∃ f, fuel = f + 2 := ⟨fuel - 2, by omega⟩
  have c0 : w1.commands 0 = 'B' := by simpa using hget 0 (by simp)
  have c1 : w1.commands 1 = 'H' := by simpa using hget 1 (by simp)
  have c2 : w1.commands 2 = 'H' := by simpa using hget 2 (by simp)
  obtain ⟨w2, hw2, hlog2, hcm2, hhd2, _⟩ := smoothLoop_run cfg button topSpeed hquiet mid 2 fuel
    (move_forward cfg 90 topSpeed topSpeed w1.sample.sample) hmid
    (by
      intro k hk
      have := hget (k + 2) (by simp at hk ⊢; omega)
      show w1.commands (2 + k) = _
      rw [show 2 + k = k + 2 by omega, this]
      rfl)
    (by omega)
  have hrun : smoothLoop cfg button topSpeed (fuel + 2) 0 w1
      = some { exit := .stop, index := 2 + 1 + (expandSpec mid).length, world := w2 } := by
    rw [smoothLoop_B cfg button topSpeed (fuel + 1) 0 w1 c0 (hquiet _),
      smoothLoop_HH cfg button topSpeed fuel 1 w1.sample c1 c2 (hquiet _)]
    exact hw2
  refine ⟨ExecResult.atGoal cfg ⟨.stop, 2 + 1 + (expandSpec mid).length, w2⟩,
    ?_, rfl, ?_, ?_, ?_, ?_, ?_, rfl⟩
  · simp [mouseRunSmoothTurns, hexp, hrun]
  · simp [ExecResult.atGoal, expandSpec_runPath]; omega
  · show w2.commands (2 + 1 + (expandSpec mid).length) = 'S'
    rw [hcm2]
    have := hget (2 + 1 + (expandSpec mid).length) (by simp; omega)
    show w1.commands (2 + 1 + (expandSpec mid).length) = 'S'
    rw [this, show 2 + 1 + (expandSpec mid).length = (expandSpec mid).length + 1 + 1 + 1 by omega]
    simp only [List.getD_cons_succ]
    exact getD_append_last _ _ _
  · show w2.commands.cstr = _
    rw [hcm2]
    exact hcstr
  · show w2.log = _
    rw [hlog2]
    simp [move_forward, World.call, World.sample, hlog1]
  · show w2.mouse.heading = _
    rw [hhd2]
    simp [move_forward, World.call, World.sample, hmouse1]

/-! ## Theorems on the path executors -/

theorem TurnsFramed_append (corner top : Int) (l1 l2 : List Motion)
    (h1 : TurnsFramed corner top l1) (h2 : TurnsFramed corner top l2) :
    TurnsFramed corner top (l1 ++ l2) := by
  intro k a s c hk
  by_cases hlt : k < l1.length
  · rw [List.getElem?_append_left hlt] at hk
    obtain ⟨hk1, ⟨d, t, acc, hp⟩, ⟨d2, t2, acc2, hn⟩⟩ := h1 k a s c hk
    have hn1 : k + 1 < l1.length := by
      by_contra hcon
      rw [List.getElem?_eq_none (by omega)] at hn
      exact absurd hn (by simp)
    refine ⟨hk1, ⟨d, t, acc, ?_⟩, ⟨d2, t2, acc2, ?_⟩⟩
    · rw [List.getElem?_append_left (by omega)]; exact hp
    · rw [List.getElem?_append_left hn1]; exact hn
  · have hge : l1.length ≤ k := by omega
    rw [List.getElem?_append_right hge] at hk
    obtain ⟨hk1, ⟨d, t, acc, hp⟩, ⟨d2, t2, acc2, hn⟩⟩ := h2 (k - l1.length) a s c hk
    refine ⟨by omega, ⟨d, t, acc, ?_⟩, ⟨d2, t2, acc2, ?_⟩⟩
    · rw [List.getElem?_append_right (by omega), show k - 1 - l1.length = k - l1.length - 1 by omega]
      exact hp
    · rw [List.getElem?_append_right (by omega), show k + 1 - l1.length = k - l1.length + 1 by omega]
      exact hn

theorem TurnsFramed_forward (corner top d t e acc : Int) :
    TurnsFramed corner top [.forward_start d t e acc] := by
  intro k a s c hk
  cases k with
  | zero => simp at hk
  | succ k => simp at hk

theorem TurnsFramed_smoothSymLog (cfg : Config) (topSpeed : Int) (c : Char) :
    TurnsFramed cfg.SPEEDMAX_SMOOTH_TURN topSpeed (smoothSymLog cfg topSpeed c) := by
  intro k a s x hk
  unfold smoothSymLog at hk ⊢
  split_ifs at hk ⊢ <;>
  · rcases k with _ | _ | _ | k
    · simp at hk
    · first
      | exact ⟨by omega, ⟨_, _, _, rfl⟩, ⟨_, _, _, rfl⟩⟩
      | simp at hk
    · simp at hk
    · simp at hk

theorem TurnsFramed_flatMap (cfg : Config) (topSpeed : Int) (mid : List Char) :
    TurnsFramed cfg.SPEEDMAX_SMOOTH_TURN topSpeed (mid.flatMap (smoothSymLog cfg topSpeed)) := by
  induction mid with
  | nil => intro k a s c hk; simp at hk
  | cons c cs ih =>
    rw [List.flatMap_cons]
    exact TurnsFramed_append _ _ _ _ (TurnsFramed_smoothSymLog cfg topSpeed c) ih

theorem halfCells_flatMap (cfg : Config) (topSpeed : Int) (mid : List Char) :
    ((mid.flatMap (inplaceSymLog cfg topSpeed)).filter Motion.isHalfCell).length
      = 2 * mid.length := by
  induction mid with
  | nil => rfl
  | cons c cs ih =>
    rw [List.flatMap_cons, List.filter_append, List.length_append, ih, List.length_cons]
    have : ((inplaceSymLog cfg topSpeed c).filter Motion.isHalfCell).length = 2 := by
      unfold inplaceSymLog
      split_ifs <;> simp [Motion.isHalfCell]
    omega

theorem spins_flatMap (cfg : Config) (topSpeed : Int) (mid : List Char) :
    (mid.flatMap (inplaceSymLog cfg topSpeed)).filter Motion.isSpin
      = mid.filterMap (spinOf cfg) := by
  induction mid with
  | nil => rfl
  | cons c cs ih =>
    rw [List.flatMap_cons, List.filter_append, ih]
    unfold inplaceSymLog spinOf
    split_ifs <;> simp [Motion.isSpin, List.filterMap_cons, spinOf, *]

theorem count_H_expandSpec (mid : List Char) (hmid : ∀ c ∈ mid, isRunSymbol c) :
    (expandSpec mid).count 'H' = 2 * mid.length := by
  induction mid with
  | nil => rfl
  | cons c cs ih =>
    rw [expandSpec_cons, List.count_append, ih (fun x hx => hmid x (List.mem_cons_of_mem _ hx)),
      List.length_cons]
    have : (expandRule c).count 'H' = 2 := by
      rcases hmid c (by simp) with h | h | h <;> subst h <;> decide
    omega

/-- C12: on the path `BFFS`, whose expansion is the command string `BHHHHS`, and with no
abort, both `mouseRunInplaceTurns` and `mouseRunSmoothTurns` return after issuing four
calls `forward.start`, each over the 90 of one half-cell: three ending at `topSpeed` and a
last one ending at 0. The four half-cells are not merged into one call. -/
theorem executors_one_call_per_half_cell (cfg : Config) (button : Nat → Bool)
    (topSpeed : Int) (fuel : Nat) (w : World) (hpath : w.path.holds ['B', 'F', 'F', 'S'])
    (hquiet : ∀ n, button n = false) (hfuel : 6 ≤ fuel) :
    (∃ r, mouseRunInplaceTurns cfg button topSpeed fuel w = some r ∧
      r.world.commands.cstr = ['B', 'H', 'H', 'H', 'H', 'S'] ∧
      r.world.log = w.log ++
        [.forward_start 90 topSpeed topSpeed cfg.SEARCH_ACCELERATION,
         .forward_start 90 topSpeed topSpeed cfg.SEARCH_ACCELERATION,
         .forward_start 90 topSpeed topSpeed cfg.SEARCH_ACCELERATION,
         .forward_start 90 topSpeed 0 cfg.SEARCH_ACCELERATION]) ∧
    (∃ r, mouseRunSmoothTurns cfg button topSpeed fuel w = some r ∧
      r.world.commands.cstr = ['B', 'H', 'H', 'H', 'H', 'S'] ∧
      r.world.log = w.log ++
        [.forward_start 90 topSpeed topSpeed cfg.SEARCH_ACCELERATION,
         .forward_start 90 topSpeed topSpeed cfg.SEARCH_ACCELERATION,
         .forward_start 90 topSpeed topSpeed cfg.SEARCH_ACCELERATION,
         .forward_start 90 topSpeed 0 cfg.SEARCH_ACCELERATION]) := by
  have hmid : ∀ c ∈ ['F'], isRunSymbol c := by decide
  constructor
  · obtain ⟨r, hr, _, _, _, hcstr, hlog, _⟩ := mouseRunInplaceTurns_run cfg button topSpeed
      fuel w ['F'] hpath hmid (by decide) hquiet (by simpa using by omega)
    exact ⟨r, hr, hcstr, hlog⟩
  · obtain ⟨r, hr, _, _, _, hcstr, hlog, _⟩ := mouseRunSmoothTurns_run cfg button topSpeed
      fuel w ['F'] hpath hmid (by decide) hquiet (by simpa using by omega)
    exact ⟨r, hr, hcstr, hlog⟩

/-- Witness of C12: the run on `BFFS` at top speed 800 from a world with an empty log. -/
theorem executors_one_call_per_half_cell_witness :
    (pathWorld ['B', 'F', 'F', 'S']).path.holds ['B', 'F', 'F', 'S'] ∧
    (∀ n, noAbort n = false) ∧ 6 ≤ 10 ∧
    (∃ r, mouseRunInplaceTurns sampleConfig noAbort 800 10 (pathWorld ['B', 'F', 'F', 'S'])
        = some r ∧
      r.world.commands.cstr = ['B', 'H', 'H', 'H', 'H', 'S'] ∧
      r.world.log = (pathWorld ['B', 'F', 'F', 'S']).log ++
        [.forward_start 90 800 800 sampleConfig.SEARCH_ACCELERATION,
         .forward_start 90 800 800 sampleConfig.SEARCH_ACCELERATION,
         .forward_start 90 800 800 sampleConfig.SEARCH_ACCELERATION,
         .forward_start 90 800 0 sampleConfig.SEARCH_ACCELERATION]) ∧
    (∃ r, mouseRunSmoothTurns sampleConfig noAbort 800 10 (pathWorld ['B', 'F', 'F', 'S'])
        = some r ∧
      r.world.commands.cstr = ['B', 'H', 'H', 'H', 'H', 'S'] ∧
      r.world.log = (pathWorld ['B', 'F', 'F', 'S']).log ++
        [.forward_start 90 800 800 sampleConfig.SEARCH_ACCELERATION,
         .forward_start 90 800 800 sampleConfig.SEARCH_ACCELERATION,
         .forward_start 90 800 800 sampleConfig.SEARCH_ACCELERATION,
         .forward_start 90 800 0 sampleConfig.SEARCH_ACCELERATION]) :=
  ⟨fun _ _ => rfl, fun _ => rfl, by decide,
   executors_one_call_per_half_cell sampleConfig noAbort 800 10
     (pathWorld ['B', 'F', 'F', 'S']) (fun _ _ => rfl) (fun _ => rfl) (by decide)⟩

/-- C15: on a path `B F mid S` with `mid` over F, R, L, whose expansion fits `commands`, and
with no abort, `mouseRunSmoothTurns` returns at the `S` having issued one half-cell move,
then the calls of each symbol of `mid` in turn, then a half-cell move ending at 0. In what it
issued every smooth turn stands right behind a forward move ending at
`SPEEDMAX_SMOOTH_TURN` and right in front of a forward move ending at `topSpeed`, and the
last call is a forward move ending at speed 0. -/
theorem mouseRunSmoothTurns_speeds (cfg : Config) (button : Nat → Bool) (topSpeed : Int)
    (fuel : Nat) (w : World) (mid : List Char)
    (hpath : w.path.holds (runPath mid)) (hmid : ∀ c ∈ mid, isRunSymbol c)
    (hfit : ('B' :: expandSpec (runPath mid)).length < BUFSIZE)
    (hquiet : ∀ n, button n = false) (hfuel : 2 * mid.length + 4 ≤ fuel) :
    ∃ r issued, mouseRunSmoothTurns cfg button topSpeed fuel w = some r ∧ r.exit = .stop ∧
      r.world.commands.cstr = 'B' :: expandSpec (runPath mid) ∧
      r.world.log = w.log ++ issued ∧
      issued = .forward_start 90 topSpeed topSpeed cfg.SEARCH_ACCELERATION ::
        (mid.flatMap (smoothSymLog cfg topSpeed) ++
          [.forward_start 90 topSpeed 0 cfg.SEARCH_ACCELERATION]) ∧
      TurnsFramed cfg.SPEEDMAX_SMOOTH_TURN topSpeed issued ∧
      issued.getLast? = some (.forward_start 90 topSpeed 0 cfg.SEARCH_ACCELERATION) := by
  obtain ⟨r, hr, hexit, _, _, hcstr, hlog, _⟩ := mouseRunSmoothTurns_run cfg button topSpeed
    fuel w mid hpath hmid hfit hquiet hfuel
  refine ⟨r, _, hr, hexit, hcstr, hlog, rfl, ?_, ?_⟩
  · have := TurnsFramed_append cfg.SPEEDMAX_SMOOTH_TURN topSpeed
      [.forward_start 90 topSpeed topSpeed cfg.SEARCH_ACCELERATION]
      (mid.flatMap (smoothSymLog cfg topSpeed) ++
        [.forward_start 90 topSpeed 0 cfg.SEARCH_ACCELERATION])
      (TurnsFramed_forward _ _ _ _ _ _)
      (TurnsFramed_append _ _ _ _ (TurnsFramed_flatMap cfg topSpeed mid)
        (TurnsFramed_forward _ _ _ _ _ _))
    simpa using this
  · rw [← List.cons_append, List.getLast?_append]
    simp

/-- Witness of C15: the smooth run on `BFRLLS`, the path of the sample maze. -/
theorem mouseRunSmoothTurns_speeds_witness :
    (pathWorld (runPath ['R', 'L', 'L'])).path.holds (runPath ['R', 'L', 'L']) ∧
    (∀ c ∈ ['R', 'L', 'L'], isRunSymbol c) ∧
    ('B' :: expandSpec (runPath ['R', 'L', 'L'])).length < BUFSIZE ∧
    (∀ n, noAbort n = false) ∧ 2 * ['R', 'L', 'L'].length + 4 ≤ 20 ∧
    ∃ r issued, mouseRunSmoothTurns sampleConfig noAbort 800 20
        (pathWorld (runPath ['R', 'L', 'L'])) = some r ∧ r.exit = .stop ∧
      r.world.commands.cstr = 'B' :: expandSpec (runPath ['R', 'L', 'L']) ∧
      r.world.log = (pathWorld (runPath ['R', 'L', 'L'])).log ++ issued ∧
      issued = .forward_start 90 800 800 sampleConfig.SEARCH_ACCELERATION ::
        (['R', 'L', 'L'].flatMap (smoothSymLog sampleConfig 800) ++
          [.forward_start 90 800 0 sampleConfig.SEARCH_ACCELERATION]) ∧
      TurnsFramed sampleConfig.SPEEDMAX_SMOOTH_TURN 800 issued ∧
      issued.getLast? = some (.forward_start 90 800 0 sampleConfig.SEARCH_ACCELERATION) :=
  ⟨fun _ _ => rfl, by decide, by decide, fun _ => rfl, by decide,
   mouseRunSmoothTurns_speeds sampleConfig noAbort 800 20 (pathWorld (runPath ['R', 'L', 'L']))
     ['R', 'L', 'L'] (fun _ _ => rfl) (by decide) (by decide) (fun _ => rfl) (by decide)⟩

/-- C20: on a path `B F mid S` with `mid` over F, R, L, whose expansion fits `commands`,
and with no abort, `mouseRunInplaceTurns` returns with its loop left at the `S` (not through
the error branch), the scan index on the last character `S` of the command string. It has
issued one half-cell move, then the calls of each symbol of `mid` in turn, then a half-cell
move ending at 0: the calls `forward.start(90, ...)` are as many as the `H` of the command
string, two for each move symbol of the path, and the in-place turns are, in path order, a
spin of -90 for each R and of 90 for each L. -/
theorem mouseRunInplaceTurns_on_run_path (cfg : Config) (button : Nat → Bool)
    (topSpeed : Int) (fuel : Nat) (w : World) (mid : List Char)
    (hpath : w.path.holds (runPath mid)) (hmid : ∀ c ∈ mid, isRunSymbol c)
    (hfit : ('B' :: expandSpec (runPath mid)).length < BUFSIZE)
    (hquiet : ∀ n, button n = false) (hfuel : 2 * mid.length + 4 ≤ fuel) :
    ∃ r issued, mouseRunInplaceTurns cfg button topSpeed fuel w = some r ∧ r.exit = .stop ∧
      r.world.commands.cstr = 'B' :: expandSpec (runPath mid) ∧
      r.index + 1 = r.world.commands.cstr.length ∧ r.world.commands r.index = 'S' ∧
      r.world.log = w.log ++ issued ∧
      issued = .forward_start 90 topSpeed topSpeed cfg.SEARCH_ACCELERATION ::
        (mid.flatMap (inplaceSymLog cfg topSpeed) ++
          [.forward_start 90 topSpeed 0 cfg.SEARCH_ACCELERATION]) ∧
      (issued.filter Motion.isHalfCell).length = r.world.commands.cstr.count 'H' ∧
      (issued.filter Motion.isHalfCell).length = 2 * (1 + mid.length) ∧
      (∀ e ∈ issued, e.isHalfCell = true ∨ e.isSpin = true) ∧
      issued.filter Motion.isSpin = mid.filterMap (spinOf cfg) ∧
      r.world.mouse.heading = headingAfter w.mouse.heading mid := by
  obtain ⟨r, hr, hexit, hidx, hS, hcstr, hlog, hhd, _⟩ := mouseRunInplaceTurns_run cfg button
    topSpeed fuel w mid hpath hmid hfit hquiet hfuel
  have hhalf : ((Motion.forward_start 90 topSpeed topSpeed cfg.SEARCH_ACCELERATION ::
      (mid.flatMap (inplaceSymLog cfg topSpeed) ++
        [.forward_start 90 topSpeed 0 cfg.SEARCH_ACCELERATION])).filter
          Motion.isHalfCell).length = 2 * (1 + mid.length) := by
    simp only [List.filter_cons, List.filter_append, Motion.isHalfCell, if_true,
      List.length_cons, List.length_append, halfCells_flatMap, List.filter_nil,
      List.length_nil]
    omega
  have hcount : ('B' :: expandSpec (runPath mid)).count 'H' = 2 * (1 + mid.length) := by
    rw [expandSpec_runPath]
    simp only [List.count_cons, List.count_append, count_H_expandSpec mid hmid]
    simp
    omega
  refine ⟨r, _, hr, hexit, hcstr, by rw [hcstr]; exact hidx, hS, hlog, rfl, ?_, hhalf, ?_, ?_,
    hhd⟩
  · rw [hhalf, hcstr, hcount]
  · intro e he
    simp only [List.mem_cons, List.mem_append, List.mem_flatMap, List.mem_singleton,
      List.not_mem_nil, or_false] at he
    rcases he with rfl | ⟨c, _, hc⟩ | rfl
    · exact Or.inl rfl
    · unfold inplaceSymLog at hc
      split_ifs at hc <;>
        simp only [List.mem_cons, List.mem_singleton, List.not_mem_nil, or_false] at hc <;>
        rcases hc with rfl | rfl | rfl <;> simp [Motion.isHalfCell, Motion.isSpin]
    · exact Or.inl rfl
  · simp only [List.filter_cons, List.filter_append, Motion.isSpin, spins_flatMap,
      List.filter_nil, List.append_nil]
    simp

/-- Witness of C20: the in-place run on `BFRLLS`, the path of the sample maze. -/
theorem mouseRunInplaceTurns_on_run_path_witness :
    (pathWorld (runPath ['R', 'L', 'L'])).path.holds (runPath ['R', 'L', 'L']) ∧
    (∀ c ∈ ['R', 'L', 'L'], isRunSymbol c) ∧
    ('B' :: expandSpec (runPath ['R', 'L', 'L'])).length < BUFSIZE ∧
    (∀ n, noAbort n = false) ∧ 2 * ['R', 'L', 'L'].length + 4 ≤ 20 ∧
    ∃ r issued, mouseRunInplaceTurns sampleConfig noAbort 800 20
        (pathWorld (runPath ['R', 'L', 'L'])) = some r ∧ r.exit = .stop ∧
      r.world.commands.cstr = 'B' :: expandSpec (runPath ['R', 'L', 'L']) ∧
      r.index + 1 = r.world.commands.cstr.length ∧ r.world.commands r.index = 'S' ∧
      r.world.log = (pathWorld (runPath ['R', 'L', 'L'])).log ++ issued ∧
      issued = .forward_start 90 800 800 sampleConfig.SEARCH_ACCELERATION ::
        (['R', 'L', 'L'].flatMap (inplaceSymLog sampleConfig 800) ++
          [.forward_start 90 800 0 sampleConfig.SEARCH_ACCELERATION]) ∧
      (issued.filter Motion.isHalfCell).length = r.world.commands.cstr.count 'H' ∧
      (issued.filter Motion.isHalfCell).length = 2 * (1 + ['R', 'L', 'L'].length) ∧
      (∀ e ∈ issued, e.isHalfCell = true ∨ e.isSpin = true) ∧
      issued.filter Motion.isSpin = ['R', 'L', 'L'].filterMap (spinOf sampleConfig) ∧
      r.world.mouse.heading
        = headingAfter (pathWorld (runPath ['R', 'L', 'L'])).mouse.heading ['R', 'L', 'L'] :=
  ⟨fun _ _ => rfl, by decide, by decide, fun _ => rfl, by decide,
   mouseRunInplaceTurns_on_run_path sampleConfig noAbort 800 20
     (pathWorld (runPath ['R', 'L', 'L'])) ['R', 'L', 'L'] (fun _ _ => rfl) (by decide)
     (by decide) (fun _ => rfl) (by decide)⟩

theorem expandPath_frame (fuel : Nat) (w w1 : World) (h : w.expandPath fuel = some w1) :
    w1.log = w.log ∧ w1.samples = w.samples ∧ w1.mouse = w.mouse ∧
      w1.mouseState = w.mouseState ∧ w1.phaseLog = w.phaseLog ∧ w1.walls = w.walls ∧
      w1.cost = w.cost := by
  unfold World.expandPath at h
  split at h
  · simp only [Option.some.injEq] at h
    subst h
    exact ⟨rfl, rfl, rfl, rfl, rfl, rfl, rfl⟩
  · simp at h

/-- C17: whenever `mouseRunInplaceTurns` or `mouseRunSmoothTurns` returns, whatever the
path, the command string and the abort signal, and whichever way the loop was left,
`mouse.location` is `GOAL`; and when the first sample of the abort signal is true nothing
has been issued to the motion layer. -/
theorem executors_end_at_goal (cfg : Config) (button : Nat → Bool) (topSpeed : Int)
    (fuel : Nat) (w : World) (r : ExecResult)
    (h : mouseRunInplaceTurns cfg button topSpeed fuel w = some r ∨
      mouseRunSmoothTurns cfg button topSpeed fuel w = some r) :
    r.world.mouse.location = cfg.GOAL ∧
    (button w.samples = true → r.world.log = w.log ∧ r.exit ≠ .error) := by
  rcases h with h | h
  · unfold mouseRunInplaceTurns at h
    cases hexp : w.expandPath fuel with
    | none => simp [hexp] at h
    | some w1 =>
      obtain ⟨hlog, hsam, _⟩ := expandPath_frame fuel w w1 hexp
      simp only [hexp, Option.map_eq_some'] at h
      obtain ⟨r0, hr0, rfl⟩ := h
      refine ⟨rfl, fun hb => ?_⟩
      cases fuel with
      | zero => simp [inplaceLoop] at hr0
      | succ fuel =>
        rw [← hsam] at hb
        unfold inplaceLoop at hr0
        split_ifs at hr0 with hS
        · simp only [Option.some.injEq] at hr0
          subst hr0
          exact ⟨hlog, by simp [ExecResult.atGoal]⟩
        · simp only [Option.some.injEq] at hr0
          subst hr0
          exact ⟨hlog, by simp [ExecResult.atGoal]⟩
  · unfold mouseRunSmoothTurns at h
    cases hexp : w.expandPath fuel with
    | none => simp [hexp] at h
    | some w1 =>
      obtain ⟨hlog, hsam, _⟩ := expandPath_frame fuel w w1 hexp
      simp only [hexp, Option.map_eq_some'] at h
      obtain ⟨r0, hr0, rfl⟩ := h
      refine ⟨rfl, fun hb => ?_⟩
      cases fuel with
      | zero => simp [smoothLoop] at hr0
      | succ fuel =>
        rw [← hsam] at hb
        unfold smoothLoop at hr0
        split_ifs at hr0 with hS
        · simp only [Option.some.injEq] at hr0
          subst hr0
          exact ⟨hlog, by simp [ExecResult.atGoal]⟩
        · simp only [Option.some.injEq] at hr0
          subst hr0
          exact ⟨hlog, by simp [ExecResult.atGoal]⟩

/-- Witness of C17: the in-place run on `BFFS` with the abort signal raised from the first
sample on returns with the mouse at the goal and nothing issued. -/
theorem executors_end_at_goal_witness :
    ∃ r, (mouseRunInplaceTurns sampleConfig (fun _ => true) 800 10
          (pathWorld ['B', 'F', 'F', 'S']) = some r ∨
        mouseRunSmoothTurns sampleConfig (fun _ => true) 800 10
          (pathWorld ['B', 'F', 'F', 'S']) = some r) ∧
      r.world.mouse.location = sampleConfig.GOAL ∧
      r.world.log = (pathWorld ['B', 'F', 'F', 'S']).log ∧ r.exit ≠ .error := by
  have hsome : (mouseRunInplaceTurns sampleConfig (fun _ => true) 800 10
      (pathWorld ['B', 'F', 'F', 'S'])).isSome = true := by decide
  obtain ⟨r, hr⟩ := Option.isSome_iff_exists.mp hsome
  have h := executors_end_at_goal sampleConfig (fun _ => true) 800 10
    (pathWorld ['B', 'F', 'F', 'S']) r (Or.inl hr)
  exact ⟨r, Or.inl hr, h.1, (h.2 rfl).1, (h.2 rfl).2⟩

/-! ## Theorems on the mission -/

set_option maxRecDepth 100000 in
/-- C13: in the closed maze, with the mission in its searching phase, the first
`mouseSearchTo` of `mouseRunMaze` reports no route (-1), and `mouseRunMaze` goes on all the
same: it starts the next search with a forward move, waits for the start signal of both
runs, goes through all its phases to FINISHED and returns 0. -/
theorem mouseRunMaze_ignores_no_route :
    (mouseSearchTo sampleConfig walledInModel quietSensors sampleConfig.GOAL 300
        (searchingStart walledInWorld)).map (fun r => (r.1, r.2.log))
      = some (-1, [.wait_for_front_sensor, .enable_steering]) ∧
    (mouseRunMaze sampleConfig samplePhases walledInModel quietSensors noAbort 300
        walledInWorld).map (fun r => (r.1, r.2.log))
      = some (0, [.wait_for_front_sensor, .enable_steering, .forward_start 40 400 400 2000,
          .delay 200, .wait_for_front_sensor, .delay 200, .wait_for_front_sensor,
          .stop_motors]) ∧
    (mouseRunMaze sampleConfig samplePhases walledInModel quietSensors noAbort 300
        walledInWorld).map (fun r => r.2.mouseState) = some samplePhases.FINISHED := by
  decide

theorem mouseUpdateMapFromSensors_phase (m : MazeModel) (w : World) :
    (mouseUpdateMapFromSensors m w).phase = w.phase := by
  obtain ⟨mask, h⟩ := mouseUpdateMapFromSensors_mask m w.mouse
  rw [h w rfl]
  rfl

theorem headingSwitch_phase (cfg : Config) (hdgChange : Int) (w : World) :
    (headingSwitch cfg hdgChange w).phase = w.phase := by
  unfold headingSwitch
  split_ifs <;> rfl

theorem mouseTurnToFace_phase (cfg : Config) (newHeading : Nat) (w : World) :
    (mouseTurnToFace cfg newHeading w).phase = w.phase := by
  unfold mouseTurnToFace
  split_ifs <;> rfl

/-- The search loop does not write `mouseState`. -/
theorem searchLoop_phase (cfg : Config) (m : MazeModel) (env : Nat → Sensors) (target : Int) :
    ∀ (fuel : Nat) (w : World) (r : Int) (w1 : World),
      searchLoop cfg m env target fuel w = some (r, w1) → w1.phase = w.phase := by
  intro fuel
  induction fuel with
  | zero => intro w r w1 h; simp [searchLoop] at h
  | succ fuel ih =>
    intro w r w1 h
    unfold searchLoop at h
    dsimp only at h
    have hbody : (mouseUpdateMapFromSensors m (mouseCheckWallSensors env
        { ((w.call .enable_steering).call (.forward_start 25 cfg.SPEEDMAX_EXPLORE
            cfg.SPEEDMAX_EXPLORE cfg.SEARCH_ACCELERATION)).call (.wait_until_position 90) with
          mouse := { w.mouse with
            location := m.neighbour w.mouse.location w.mouse.heading } })).phase = w.phase := by
      rw [mouseUpdateMapFromSensors_phase]
      rfl
    split_ifs at h with h1 h2 h3
    · simp only [Option.some.injEq, Prod.mk.injEq] at h
      obtain ⟨_, rfl⟩ := h
      exact hbody
    · simp only [Option.some.injEq, Prod.mk.injEq] at h
      obtain ⟨_, rfl⟩ := h
      exact hbody
    · rw [ih _ r w1 h, headingSwitch_phase]
      exact hbody
    · simp only [Option.some.injEq, Prod.mk.injEq] at h
      obtain ⟨_, rfl⟩ := h
      rfl

/-- `mouseSearchTo` does not write `mouseState`. -/
theorem mouseSearchTo_phase (cfg : Config) (m : MazeModel) (env : Nat → Sensors)
    (target : Int) (fuel : Nat) (w : World) (r : Int) (w1 : World)
    (h : mouseSearchTo cfg m env target fuel w = some (r, w1)) : w1.phase = w.phase := by
  unfold mouseSearchTo at h
  dsimp only at h
  split_ifs at h with h1 h2
  · simp only [Option.some.injEq, Prod.mk.injEq] at h
    obtain ⟨_, rfl⟩ := h
    rfl
  · rw [searchLoop_phase cfg m env target fuel _ r w1 h]
    rfl
  · rw [searchLoop_phase cfg m env target fuel _ r w1 h, mouseTurnToFace_phase]
    rfl

/-- The in-place loop does not write `mouseState`. -/
theorem inplaceLoop_phase (cfg : Config) (button : Nat → Bool) (topSpeed : Int) :
    ∀ (fuel i : Nat) (w : World) (r : ExecResult),
      inplaceLoop cfg button topSpeed fuel i w = some r → r.world.phase = w.phase := by
  intro fuel
  induction fuel with
  | zero => intro i w r h; simp [inplaceLoop] at h
  | succ fuel ih =>
    intro i w r h
    unfold inplaceLoop at h
    split_ifs at h
    all_goals first
      | (simp only [Option.some.injEq] at h; subst h; rfl)
      | (rw [ih _ _ r h]; rfl)

/-- The smooth loop does not write `mouseState`. -/
theorem smoothLoop_phase (cfg : Config) (button : Nat → Bool) (topSpeed : Int) :
    ∀ (fuel i : Nat) (w : World) (r : ExecResult),
      smoothLoop cfg button topSpeed fuel i w = some r → r.world.phase = w.phase := by
  intro fuel
  induction fuel with
  | zero => intro i w r h; simp [smoothLoop] at h
  | succ fuel ih =>
    intro i w r h
    unfold smoothLoop at h
    split_ifs at h
    all_goals first
      | (simp only [Option.some.injEq] at h; subst h; rfl)
      | (rw [ih _ _ r h]; rfl)

theorem expandPath_phase (fuel : Nat) (w w1 : World) (h : w.expandPath fuel = some w1) :
    w1.phase = w.phase := by
  obtain ⟨_, _, _, h1, h2, _⟩ := expandPath_frame fuel w w1 h
  simp [World.phase, h1, h2]

theorem mouseRunInplaceTurns_phase (cfg : Config) (button : Nat → Bool) (topSpeed : Int)
    (fuel : Nat) (w : World) (r : ExecResult)
    (h : mouseRunInplaceTurns cfg button topSpeed fuel w = some r) :
    r.world.phase = w.phase := by
  unfold mouseRunInplaceTurns at h
  cases hexp : w.expandPath fuel with
  | none => simp [hexp] at h
  | some w1 =>
    simp only [hexp, Option.map_eq_some'] at h
    obtain ⟨r0, hr0, rfl⟩ := h
    rw [← expandPath_phase fuel w w1 hexp, ← inplaceLoop_phase cfg button topSpeed fuel 0 w1 r0 hr0]
    rfl

theorem mouseRunSmoothTurns_phase (cfg : Config) (button : Nat → Bool) (topSpeed : Int)
    (fuel : Nat) (w : World) (r : ExecResult)
    (h : mouseRunSmoothTurns cfg button topSpeed fuel w = some r) :
    r.world.phase = w.phase := by
  unfold mouseRunSmoothTurns at h
  cases hexp : w.expandPath fuel with
  | none => simp [hexp] at h
  | some w1 =>
    simp only [hexp, Option.map_eq_some'] at h
    obtain ⟨r0, hr0, rfl⟩ := h
    rw [← expandPath_phase fuel w w1 hexp, ← smoothLoop_phase cfg button topSpeed fuel 0 w1 r0 hr0]
    rfl

theorem generatePath_phase (m : MazeModel) (fuel : Nat) (w w1 : World)
    (h : w.generatePath m fuel = some w1) : w1.phase = w.phase := by
  simp only [World.generatePath, Option.map_eq_some'] at h
  obtain ⟨s, _, rfl⟩ := h
  rfl

theorem setPhase_phase (w : World) (p : Nat) :
    (w.setPhase p).phase = (p, w.phase.2 ++ [(w.phase.1, p)]) := rfl

/-- The searching block writes `mouseState` once, at its end. -/
theorem searchingBlock_phase (cfg : Config) (ph : Phases) (m : MazeModel) (env : Nat → Sensors)
    (fuel : Nat) (w w1 : World) (h : searchingBlock cfg ph m env fuel w = some w1) :
    w1.phase = (ph.INPLACE_RUN, w.phaseLog ++ [(w.mouseState, ph.INPLACE_RUN)]) := by
  simp only [searchingBlock, bind, Option.bind_eq_some, pure, Option.some.injEq] at h
  obtain ⟨r1, h1, r2, h2, rfl⟩ := h
  have p1 := mouseSearchTo_phase cfg m env _ fuel _ r1.1 r1.2 h1
  have p2 := mouseSearchTo_phase cfg m env _ fuel _ r2.1 r2.2 h2
  rw [setPhase_phase]
  have p3 : ((mouseTurnToFace cfg NORTH r2.2).call (.delay 200)).phase = w.phase := by
    show (mouseTurnToFace cfg NORTH r2.2).phase = _
    rw [mouseTurnToFace_phase, p2, p1]
    rfl
  rw [p3]
  rfl

/-- The in-place block writes `mouseState` once, at its end. -/
theorem inplaceBlock_phase (cfg : Config) (ph : Phases) (m : MazeModel) (env : Nat → Sensors)
    (button : Nat → Bool) (fuel : Nat) (w w1 : World)
    (h : inplaceBlock cfg ph m env button fuel w = some w1) :
    w1.phase = (ph.SMOOTH_RUN, w.phaseLog ++ [(w.mouseState, ph.SMOOTH_RUN)]) := by
  simp only [inplaceBlock, bind, Option.bind_eq_some, pure, Option.some.injEq] at h
  obtain ⟨wa, ha, r, hr, r2, h2, rfl⟩ := h
  have pa := generatePath_phase m fuel _ wa ha
  have pr := mouseRunInplaceTurns_phase cfg button _ fuel _ r hr
  have p2 := mouseSearchTo_phase cfg m env _ fuel _ r2.1 r2.2 h2
  rw [setPhase_phase, p2, pr]
  have : (wa.call .wait_for_front_sensor).phase = w.phase := by
    show wa.phase = _
    rw [pa]
    rfl
  rw [this]
  rfl

/-- The smooth block writes `mouseState` once, at its end. -/
theorem smoothBlock_phase (cfg : Config) (ph : Phases) (m : MazeModel) (env : Nat → Sensors)
    (button : Nat → Bool) (fuel : Nat) (w w1 : World)
    (h : smoothBlock cfg ph m env button fuel w = some w1) :
    w1.phase = (ph.FINISHED, w.phaseLog ++ [(w.mouseState, ph.FINISHED)]) := by
  simp only [smoothBlock, bind, Option.bind_eq_some, pure, Option.some.injEq] at h
  obtain ⟨wa, ha, r, hr, r2, h2, rfl⟩ := h
  have pa := generatePath_phase m fuel _ wa ha
  have pr := mouseRunSmoothTurns_phase cfg button _ fuel _ r hr
  have p2 := mouseSearchTo_phase cfg m env _ fuel _ r2.1 r2.2 h2
  rw [setPhase_phase, p2, pr]
  have : (((mouseTurnToFace cfg
      (m.direction_to_smallest wa.walls wa.cost wa.mouse.location wa.mouse.heading % 256)
        wa).call (.delay 200)).call .wait_for_front_sensor).phase = w.phase := by
    show (mouseTurnToFace cfg _ wa).phase = _
    rw [mouseTurnToFace_phase, pa]
    rfl
  rw [this]
  rfl

/-- A guarded block either ran or was skipped. -/
theorem guarded_block (g : Prop) [Decidable g] (blk : Option World) (w wa : World)
    (h : (if g then blk else some w) = some wa) : (g ∧ blk = some wa) ∨ (¬ g ∧ wa = w) := by
  split_ifs at h with hg
  · exact Or.inl ⟨hg, h⟩
  · exact Or.inr ⟨hg, (Option.some.inj h).symm⟩

/-- C14: whenever `mouseRunMaze` returns, each write to `mouseState` it has made replaced
SEARCHING by INPLACE_RUN, INPLACE_RUN by SMOOTH_RUN or SMOOTH_RUN by FINISHED. With the
four constants distinct, each write therefore raised the place of the phase in the mission
order by one, the phase at the end is not before the phase at the start, and from FINISHED
nothing is written and the phase stays FINISHED. -/
theorem mouseRunMaze_phase_writes (cfg : Config) (ph : Phases) (m : MazeModel)
    (env : Nat → Sensors) (button : Nat → Bool) (fuel : Nat) (w : World) (r : Int)
    (w1 : World) (h : mouseRunMaze cfg ph m env button fuel w = some (r, w1)) :
    ∃ writes, w1.phaseLog = w.phaseLog ++ writes ∧
      (∀ p ∈ writes, p = (ph.SEARCHING, ph.INPLACE_RUN) ∨ p = (ph.INPLACE_RUN, ph.SMOOTH_RUN) ∨
        p = (ph.SMOOTH_RUN, ph.FINISHED)) ∧
      (ph.Distinct → ∀ p ∈ writes, ph.rank p.2 = ph.rank p.1 + 1) ∧
      (ph.Distinct → ph.rank w.mouseState ≤ ph.rank w1.mouseState) ∧
      (ph.Distinct → w.mouseState = ph.FINISHED → writes = [] ∧ w1.mouseState = ph.FINISHED) := by
  simp only [mouseRunMaze, Option.bind_eq_some, Option.some.injEq, Prod.mk.injEq] at h
  obtain ⟨wa, ha, wb, hb, wc, hc, _, rfl⟩ := h
  -- each write is a successor pair
  have step1 : ∃ l1, wa.phaseLog = w.phaseLog ++ l1 ∧
      (l1 = [] ∧ wa.mouseState = w.mouseState ∨
        l1 = [(ph.SEARCHING, ph.INPLACE_RUN)] ∧ w.mouseState = ph.SEARCHING ∧
          wa.mouseState = ph.INPLACE_RUN) := by
    rcases guarded_block _ _ w wa ha with ⟨hg, hblk⟩ | ⟨_, rfl⟩
    · have hp := searchingBlock_phase cfg ph m env fuel w wa hblk
      simp only [World.phase, Prod.mk.injEq] at hp
      exact ⟨_, hp.2, Or.inr ⟨by rw [hg], hg, hp.1⟩⟩
    · exact ⟨[], by simp, Or.inl ⟨rfl, rfl⟩⟩
  have step2 : ∃ l2, wb.phaseLog = wa.phaseLog ++ l2 ∧
      (l2 = [] ∧ wb.mouseState = wa.mouseState ∨
        l2 = [(ph.INPLACE_RUN, ph.SMOOTH_RUN)] ∧ wa.mouseState = ph.INPLACE_RUN ∧
          wb.mouseState = ph.SMOOTH_RUN) := by
    rcases guarded_block _ _ wa wb hb with ⟨hg, hblk⟩ | ⟨_, rfl⟩
    · have hp := inplaceBlock_phase cfg ph m env button fuel wa wb hblk
      simp only [World.phase, Prod.mk.injEq] at hp
      exact ⟨_, hp.2, Or.inr ⟨by rw [hg], hg, hp.1⟩⟩
    · exact ⟨[], by simp, Or.inl ⟨rfl, rfl⟩⟩
  have step3 : ∃ l3, wc.phaseLog = wb.phaseLog ++ l3 ∧
      (l3 = [] ∧ wc.mouseState = wb.mouseState ∨
        l3 = [(ph.SMOOTH_RUN, ph.FINISHED)] ∧ wb.mouseState = ph.SMOOTH_RUN ∧
          wc.mouseState = ph.FINISHED) := by
    rcases guarded_block _ _ wb wc hc with ⟨hg, hblk⟩ | ⟨_, rfl⟩
    · have hp := smoothBlock_phase cfg ph m env button fuel wb wc hblk
      simp only [World.phase, Prod.mk.injEq] at hp
      exact ⟨_, hp.2, Or.inr ⟨by rw [hg], hg, hp.1⟩⟩
    · exact ⟨[], by simp, Or.inl ⟨rfl, rfl⟩⟩
  obtain ⟨l1, e1, c1⟩ := step1
  obtain ⟨l2, e2, c2⟩ := step2
  obtain ⟨l3, e3, c3⟩ := step3
  have hmem : ∀ p ∈ l1 ++ l2 ++ l3, p = (ph.SEARCHING, ph.INPLACE_RUN) ∨
      p = (ph.INPLACE_RUN, ph.SMOOTH_RUN) ∨ p = (ph.SMOOTH_RUN, ph.FINISHED) := by
    intro p hp
    simp only [List.mem_append] at hp
    rcases hp with (hp | hp) | hp
    · rcases c1 with ⟨rfl, _⟩ | ⟨rfl, _⟩
      · simp at hp
      · exact Or.inl (by simpa using hp)
    · rcases c2 with ⟨rfl, _⟩ | ⟨rfl, _⟩
      · simp at hp
      · exact Or.inr (Or.inl (by simpa using hp))
    · rcases c3 with ⟨rfl, _⟩ | ⟨rfl, _⟩
      · simp at hp
      · exact Or.inr (Or.inr (by simpa using hp))
  refine ⟨l1 ++ l2 ++ l3, ?_, hmem, ?_, ?_, ?_⟩
  · show wc.phaseLog = _
    rw [e3, e2, e1, List.append_assoc, List.append_assoc, List.append_assoc]
  · intro hd p hp
    obtain ⟨d1, d2, d3, d4, d5, d6⟩ := hd
    rcases hmem p hp with rfl | rfl | rfl
    · simp [Phases.rank, d1.symm]
    · simp [Phases.rank, d1.symm, d2.symm, d4.symm, d1, d4]
    · simp [Phases.rank, d2.symm, d3.symm, d4.symm, d5.symm, d6.symm, d2, d4, d6]
  · intro hd
    obtain ⟨d1, d2, d3, d4, d5, d6⟩ := hd
    show ph.rank w.mouseState ≤ ph.rank wc.mouseState
    have hle : ∀ p, ph.rank p ≤ 3 := by
      intro p; unfold Phases.rank; split_ifs <;> omega
    have hF : ph.rank ph.FINISHED = 3 := by simp [Phases.rank, d3.symm, d5.symm, d6.symm]
    rcases c3 with ⟨_, h3⟩ | ⟨_, _, h3⟩
    · rcases c2 with ⟨_, h2⟩ | ⟨_, hwa, h2⟩
      · rcases c1 with ⟨_, h1⟩ | ⟨_, h1s, h1⟩
        · rw [h3, h2, h1]
        · rw [h3, h2, h1, h1s]; simp [Phases.rank, d1.symm]
      · rw [h3, h2]
        have : ph.rank ph.SMOOTH_RUN = 2 := by simp [Phases.rank, d2.symm, d4.symm]
        rw [this]
        rcases c1 with ⟨_, h1⟩ | ⟨_, h1s, _⟩
        · rw [← h1, hwa]; simp [Phases.rank, d1.symm]
        · rw [h1s]; simp [Phases.rank]
    · rw [h3, hF]; exact hle _
  · intro hd hfin
    obtain ⟨d1, d2, d3, d4, d5, d6⟩ := hd
    have h1 : l1 = [] ∧ wa.mouseState = w.mouseState := by
      rcases c1 with h | ⟨_, hs, _⟩
      · exact h
      · exact absurd (hs.symm.trans hfin) d3
    have h2 : l2 = [] ∧ wb.mouseState = wa.mouseState := by
      rcases c2 with h | ⟨_, hs, _⟩
      · exact h
      · exact absurd ((hs.symm.trans h1.2).trans hfin) d5
    have h3 : l3 = [] ∧ wc.mouseState = wb.mouseState := by
      rcases c3 with h | ⟨_, hs, _⟩
      · exact h
      · exact absurd (((hs.symm.trans h2.2).trans h1.2).trans hfin) d6
    refine ⟨by rw [h1.1, h2.1, h3.1]; rfl, ?_⟩
    show wc.mouseState = _
    rw [h3.2, h2.2, h1.2, hfin]

set_option maxRecDepth 100000 in
/-- Witness of C14: the mission in the closed maze, started in the searching phase, makes
the three writes 1 to 2, 2 to 3 and 3 to 4. -/
theorem mouseRunMaze_phase_writes_witness :
    ∃ r w1, mouseRunMaze sampleConfig samplePhases walledInModel quietSensors noAbort 300
        walledInWorld = some (r, w1) ∧
      w1.phaseLog = [(1, 2), (2, 3), (3, 4)] ∧
      ∃ writes, w1.phaseLog = walledInWorld.phaseLog ++ writes ∧
        (∀ p ∈ writes, p = (samplePhases.SEARCHING, samplePhases.INPLACE_RUN) ∨
          p = (samplePhases.INPLACE_RUN, samplePhases.SMOOTH_RUN) ∨
          p = (samplePhases.SMOOTH_RUN, samplePhases.FINISHED)) ∧
        (samplePhases.Distinct → ∀ p ∈ writes,
          samplePhases.rank p.2 = samplePhases.rank p.1 + 1) := by
  have hlog : (mouseRunMaze sampleConfig samplePhases walledInModel quietSensors noAbort 300
      walledInWorld).map (fun r => r.2.phaseLog) = some [(1, 2), (2, 3), (3, 4)] := by decide
  obtain ⟨⟨r, w1⟩, hr, hl⟩ := Option.map_eq_some'.mp hlog
  obtain ⟨writes, h1, h2, h3, _⟩ := mouseRunMaze_phase_writes sampleConfig samplePhases
    walledInModel quietSensors noAbort 300 walledInWorld r w1 hr
  exact ⟨r, w1, hr, hl, writes, h1, h2, h3⟩

/-! ## Paths without a turn-around -/

/-- When the way ahead qualifies or the way back does not, and some direction qualifies,
the switch chooses F, R or L. -/
theorem pathSwitch_no_turnaround (m : MazeModel) (walls cost : Cells) (cell d e : Nat)
    (nextCost : Int) (hd : d < 4) (he : e < 4)
    (hsome : exitWithCost m walls cost cell e nextCost = true)
    (hback : exitWithCost m walls cost cell d nextCost = true ∨
      exitWithCost m walls cost cell ((d + 2) % 4) nextCost = false) :
    isForwardOrTurn (pathSwitch m walls cost cell d nextCost).1 := by
  interval_cases d <;> interval_cases e <;>
    simp only [pathSwitch, NORTH, EAST, SOUTH, WEST, DtoR, DtoL, DtoB, isForwardOrTurn] at * <;>
    cases h0 : exitWithCost m walls cost cell 0 nextCost <;>
    cases h1 : exitWithCost m walls cost cell 1 nextCost <;>
    cases h2 : exitWithCost m walls cost cell 2 nextCost <;>
    cases h3 : exitWithCost m walls cost cell 3 nextCost <;>
    simp_all

/-- The test on an open exit, on a consistent flood: the cost of the cell behind the exit
is the wanted cost. -/
theorem exitWithCost_iff (m : MazeModel) (walls cost : Cells) (cell d : Nat) (nextCost : Int)
    (hcons : ConsistentFlood m walls cost) (hcell : cell < 256) (hd : d < 4) :
    exitWithCost m walls cost cell d nextCost = true ↔
      m.is_exit walls cell d = true ∧ (cost (nextCell m cell d) : Int) = nextCost := by
  simp only [exitWithCost, Bool.and_eq_true, decide_eq_true_eq]
  constructor
  · rintro ⟨h1, h2⟩
    exact ⟨h1, by rw [← hcons.1 cell hcell d hd h1]; exact h2⟩
  · rintro ⟨h1, h2⟩
    exact ⟨h1, by rw [hcons.1 cell hcell d hd h1]; exact h2⟩

/-- The loop on a consistent flood with the back-step property, from a state in which the
way ahead qualifies or the way back does not: every step writes F, R or L. -/
theorem pathLoop_no_turnaround (m : MazeModel) (walls cost : Cells)
    (hcons : ConsistentFlood m walls cost) (hback : BackStep m) :
    ∀ (fuel : Nat) (s : PathState), s.cell < 256 →
      s.nextCost = (cost s.cell : Int) - 1 → cost s.cell < m.MAX_COST →
      (0 ≤ s.nextCost → s.direction < 4 ∧
        (exitWithCost m walls cost s.cell s.direction s.nextCost = true ∨
          exitWithCost m walls cost s.cell ((s.direction + 2) % 4) s.nextCost = false)) →
      ∀ t ∈ pathWalk m walls cost fuel s, isForwardOrTurn (stepSymbol m walls cost t) := by
  intro fuel
  induction fuel with
  | zero => intro s _ _ _ _ t ht; simp [pathWalk] at ht
  | succ fuel ih =>
    intro s hcell hnc hfin hinv t ht
    by_cases hpos : 0 ≤ s.nextCost
    · obtain ⟨hdir, hnb⟩ := hinv hpos
      obtain ⟨_, hlt, hexit, hcell1, hcost1⟩ :=
        pathStep_descends m walls cost s hcons hcell hdir hnc hpos hfin
      have hcpos : 0 < cost s.cell := by omega
      obtain ⟨e, he, hex, hec⟩ := hcons.2 s.cell hcell hcpos hfin
      have hsome : exitWithCost m walls cost s.cell e s.nextCost = true :=
        (exitWithCost_iff m walls cost s.cell e s.nextCost hcons hcell he).mpr
          ⟨hex, by rw [hnc]; omega⟩
      simp only [pathWalk, hpos, if_true, List.mem_cons] at ht
      rcases ht with rfl | ht
      · exact pathSwitch_no_turnaround m walls cost t.cell t.direction e t.nextCost hdir he
          hsome hnb
      · have hc1 : (pathStep m walls cost s).cell < 256 := by
          rw [hcell1]; exact Nat.mod_lt _ (by decide)
        have hnc1 : (pathStep m walls cost s).nextCost
            = (cost (pathStep m walls cost s).cell : Int) - 1 := by
          show s.nextCost - 1 = _
          omega
        refine ih (pathStep m walls cost s) hc1 hnc1 (by omega) (fun _ => ⟨hlt, Or.inr ?_⟩) t ht
        have hb4 : (stepHeading m walls cost s + 2) % 4 < 4 := Nat.mod_lt _ (by decide)
        rw [Bool.eq_false_iff]
        intro hcon
        have hcon2 := (exitWithCost_iff m walls cost _ _ _ hcons hc1 hb4).mp hcon
        have hret : nextCell m (pathStep m walls cost s).cell
            ((stepHeading m walls cost s + 2) % 4) = s.cell := by
          rw [hcell1]; exact hback s.cell hcell _ hlt
        have h2 := hcon2.2
        rw [hret, hnc1] at h2
        omega
    · simp [pathWalk, hpos] at ht

/-- The path left by `pathGenerate` from a start cell of cost at most 253: `B`, the symbols
of the walk, `S`, then the NUL. -/
theorem pathGenerate_path (m : MazeModel) (walls cost : Cells) (startCell : Nat)
    (path0 : Buf) (fuel : Nat) (hc : cost startCell ≤ 253) (hfuel : cost startCell < fuel) :
    ∃ final, pathGenerate m walls cost fuel startCell path0 = some final ∧
      final.path = (path0.writeList 0 ('B' ::
          (pathWalk m walls cost fuel (pathInit m walls cost startCell path0)).map
            (stepSymbol m walls cost) ++ ['S'])).write
        ('B' :: (pathWalk m walls cost fuel (pathInit m walls cost startCell path0)).map
            (stepSymbol m walls cost) ++ ['S']).length NUL := by
  obtain ⟨lf, hlf, hci, hpath, _⟩ := pathLoop_writes m walls cost (cost startCell) fuel
    (pathInit m walls cost startCell path0) rfl hfuel (by simp only [pathInit]; omega)
  have hlen := (pathLoop_steps m walls cost (cost startCell) fuel
    (pathInit m walls cost startCell path0) rfl hfuel).2
  generalize pathWalk m walls cost fuel (pathInit m walls cost startCell path0) = walk
    at hpath hlen ⊢
  have hci1 : lf.commandIndex = cost startCell + 1 := by
    rw [hci]; simp only [pathInit]; omega
  have hlen2 : ('B' :: walk.map (stepSymbol m walls cost) ++ ['S']).length
      = cost startCell + 2 := by
    simp [hlen]
  have hidx : (lf.commandIndex + 1) % 256 = cost startCell + 2 := by
    rw [hci1]; exact Nat.mod_eq_of_lt (by omega)
  have hw2 : path0.writeList 0 ('B' :: walk.map (stepSymbol m walls cost) ++ ['S'])
      = ((path0.write 0 'B').writeList 1 (walk.map (stepSymbol m walls cost))).write
          (cost startCell + 1) 'S' := by
    show (path0.write 0 'B').writeList (0 + 1) (walk.map (stepSymbol m walls cost) ++ ['S']) = _
    rw [Buf.writeList_append]
    simp only [Buf.writeList, List.length_map, hlen, Nat.zero_add, Nat.add_comm 1]
  refine ⟨pathFinish lf, by simp [pathGenerate, hlf], ?_⟩
  simp only [pathFinish, hidx, hlen2]
  rw [hw2, hpath, hci1]
  rfl

/-- C16, with the condition it needs on the start cell: on a consistent flood with the
back-step property, from a start cell of finite cost none of whose open exits leads to a
cell more than one cheaper, and with `direction_to_smallest` giving an open exit of smallest
neighbour cost, `pathGenerate` returns and every step of its walk writes F, R or L. For a
start cost of at most 253 the path string therefore has no `A`, all its characters are
accepted by `pathExpand`, and `pathExpand` returns on it when its expansion fits. -/
theorem pathGenerate_no_turnaround (m : MazeModel) (walls cost : Cells) (startCell : Nat)
    (path0 commands0 : Buf) (fuel : Nat) (hcons : ConsistentFlood m walls cost)
    (hback : BackStep m) (hstart : startCell < 256) (hfin : cost startCell < m.MAX_COST)
    (hdts : 0 < cost startCell → SmallestExit m walls cost startCell
      (m.direction_to_smallest walls cost startCell NORTH))
    (hwave : ∀ d, d < 4 → m.is_exit walls startCell d = true →
      cost startCell ≤ cost (nextCell m startCell d) + 1)
    (hfuel : cost startCell < fuel) :
    ∃ final, pathGenerate m walls cost fuel startCell path0 = some final ∧
      (∀ t ∈ pathWalk m walls cost fuel (pathInit m walls cost startCell path0),
        isForwardOrTurn (stepSymbol m walls cost t)) ∧
      (cost startCell ≤ 253 →
        'A' ∉ final.path.cstr ∧ (∀ c ∈ final.path.cstr, inExpandAlphabet c) ∧
        (('B' :: expandSpec final.path.cstr).length < BUFSIZE →
          ∃ commands idx, pathExpand (fuel + 2) final.path commands0 = .done commands idx ∧
            commands.cstr = 'B' :: expandSpec final.path.cstr)) := by
  have hwalk : ∀ t ∈ pathWalk m walls cost fuel (pathInit m walls cost startCell path0),
      isForwardOrTurn (stepSymbol m walls cost t) := by
    apply pathLoop_no_turnaround m walls cost hcons hback fuel
      (pathInit m walls cost startCell path0) hstart rfl hfin
    intro hpos
    have hcpos : 0 < cost startCell := by simp only [pathInit] at hpos; omega
    obtain ⟨hd0, hex0, hmin⟩ := hdts hcpos
    have hdir : (pathInit m walls cost startCell path0).direction
        = m.direction_to_smallest walls cost startCell NORTH := by
      show _ % 256 = _
      exact Nat.mod_eq_of_lt (by omega)
    rw [hdir]
    refine ⟨hd0, Or.inl ?_⟩
    obtain ⟨e, he, hex, hec⟩ := hcons.2 startCell hstart hcpos hfin
    have h1 := hmin e he hex
    rw [hcons.1 startCell hstart _ hd0 hex0, hcons.1 startCell hstart e he hex] at h1
    have h2 := hwave _ hd0 hex0
    refine (exitWithCost_iff m walls cost startCell _ _ hcons hstart hd0).mpr ⟨hex0, ?_⟩
    show _ = (cost startCell : Int) - 1
    omega
  obtain ⟨⟨lf, hlf⟩, _⟩ := pathLoop_steps m walls cost (cost startCell) fuel
    (pathInit m walls cost startCell path0) rfl hfuel
  refine ⟨pathFinish lf, by simp [pathGenerate, hlf], hwalk, fun hc => ?_⟩
  obtain ⟨final, hfinal, hpath⟩ := pathGenerate_path m walls cost startCell path0 fuel hc hfuel
  have hsame : pathFinish lf = final := by
    simp only [pathGenerate, hlf, Option.map_some', Option.some.injEq] at hfinal
    exact hfinal
  rw [hsame]
  have hlen := (pathLoop_steps m walls cost (cost startCell) fuel
    (pathInit m walls cost startCell path0) rfl hfuel).2
  generalize pathWalk m walls cost fuel (pathInit m walls cost startCell path0) = walk
    at hpath hlen hwalk
  have hsyms : ∀ x ∈ walk.map (stepSymbol m walls cost), isForwardOrTurn x := by
    intro x hx
    obtain ⟨t, ht, rfl⟩ := List.mem_map.mp hx
    exact hwalk t ht
  have hall : ∀ x ∈ 'B' :: walk.map (stepSymbol m walls cost) ++ ['S'],
      inExpandAlphabet x ∧ x ≠ 'A' := by
    intro x hx
    simp only [List.cons_append, List.mem_cons, List.mem_append, List.mem_singleton,
      List.not_mem_nil, or_false] at hx
    rcases hx with rfl | hx | rfl
    · exact ⟨by decide, by decide⟩
    · rcases hsyms x hx with rfl | rfl | rfl <;> exact ⟨by decide, by decide⟩
    · exact ⟨by decide, by decide⟩
  have hnul : NUL ∉ 'B' :: walk.map (stepSymbol m walls cost) ++ ['S'] :=
    fun h => inExpandAlphabet_ne_NUL _ (hall _ h).1 rfl
  have hlen2 : ('B' :: walk.map (stepSymbol m walls cost) ++ ['S']).length < BUFSIZE := by
    simp only [List.cons_append, List.length_cons, List.length_append, List.length_map, hlen,
      List.length_nil, BUFSIZE]
    omega
  have hcstr : final.path.cstr = 'B' :: walk.map (stepSymbol m walls cost) ++ ['S'] := by
    rw [hpath]
    exact Buf.cstr_writeList _ _ hnul hlen2
  rw [hcstr]
  refine ⟨fun h => (hall _ h).2 rfl, fun c hc => (hall c hc).1, fun hfit => ?_⟩
  have hholds : final.path.holds ('B' :: walk.map (stepSymbol m walls cost) ++ ['S']) := by
    intro i hi
    rw [hpath]
    rcases Nat.lt_or_ge i ('B' :: walk.map (stepSymbol m walls cost) ++ ['S']).length with h | h
    · exact Buf.written_get _ _ i h
    · have : i = ('B' :: walk.map (stepSymbol m walls cost) ++ ['S']).length := by omega
      rw [this, Buf.write_same, List.getD_eq_default _ _ (le_refl _)]
  have hdone := pathExpand_done final.path commands0 _ (fuel + 2) hholds
    (fun c hc => (hall c hc).1) hfit
    (by simp only [List.cons_append, List.length_cons, List.length_append, List.length_map,
          hlen, List.length_nil]; omega)
  refine ⟨_, _, hdone, ?_⟩
  apply Buf.cstr_writeList _ _ _ hfit
  simp only [List.mem_cons, not_or]
  exact ⟨by decide, expandSpec_no_NUL _⟩

/-- The reference model has the back-step property. -/
theorem gridModel_backStep (flood : Cells → Int → Cells) : BackStep (gridModel flood) := by
  intro cell hcell d hd
  have h0 : nextCell (gridModel flood) (nextCell (gridModel flood) cell 0) 2 = cell := by
    show ((cell + 1) % 256 % 256 + 255) % 256 % 256 = cell
    omega
  have h1 : nextCell (gridModel flood) (nextCell (gridModel flood) cell 1) 3 = cell := by
    show ((cell + 16) % 256 % 256 + 240) % 256 % 256 = cell
    omega
  have h2 : nextCell (gridModel flood) (nextCell (gridModel flood) cell 2) 0 = cell := by
    show ((cell + 255) % 256 % 256 + 1) % 256 % 256 = cell
    omega
  have h3 : nextCell (gridModel flood) (nextCell (gridModel flood) cell 3) 1 = cell := by
    show ((cell + 240) % 256 % 256 + 16) % 256 % 256 = cell
    omega
  interval_cases d
  · exact h0
  · exact h1
  · exact h2
  · exact h3

/-- The ring cost field is consistent in the sense of C16. -/
theorem ring_consistent : ConsistentFlood ringModel ringWalls ringCost := by
  constructor
  · intro cell _ d hd hexit
    exact gridModel_neighbour_cost _ ringWalls ringCost cell d hd hexit
  · intro cell hcell hpos hfin
    have h : cell = 3 ∨ cell = 20 ∨ cell = 19 ∨ cell = 18 ∨ cell = 17 ∨ cell = 16 ∨ cell = 0
        ∨ cell = 1 ∨ cell = 2 := by
      have hM : ringModel.MAX_COST = 255 := rfl
      rw [hM] at hfin
      by_contra hne
      simp only [not_or] at hne
      obtain ⟨n3, n20, n19, n18, n17, n16, n0, n1, n2⟩ := hne
      by_cases n4 : cell = 4
      · rw [n4] at hpos
        exact absurd hpos (by decide)
      · have : ringCost cell = 255 := by
          simp only [ringCost, n4, n3, n20, n19, n18, n17, n16, n0, n1, n2, if_false]
        omega
    rcases h with rfl | rfl | rfl | rfl | rfl | rfl | rfl | rfl | rfl
    · exact ⟨0, by decide, by decide, by decide⟩
    · exact ⟨3, by decide, by decide, by decide⟩
    · exact ⟨0, by decide, by decide, by decide⟩
    · exact ⟨0, by decide, by decide, by decide⟩
    · exact ⟨0, by decide, by decide, by decide⟩
    · exact ⟨0, by decide, by decide, by decide⟩
    · exact ⟨1, by decide, by decide, by decide⟩
    · exact ⟨2, by decide, by decide, by decide⟩
    · exact ⟨2, by decide, by decide, by decide⟩

/-- Witness of C16 as amended: the sample maze from cell 0, whose path BFRLLS has no `A` and
is expanded by `pathExpand`. -/
theorem pathGenerate_no_turnaround_witness :
    ConsistentFlood sampleModel sampleWalls sampleCost ∧ BackStep sampleModel ∧
    0 < 256 ∧ sampleCost 0 < sampleModel.MAX_COST ∧
    SmallestExit sampleModel sampleWalls sampleCost 0
      (sampleModel.direction_to_smallest sampleWalls sampleCost 0 NORTH) ∧
    (∀ d, d < 4 → sampleModel.is_exit sampleWalls 0 d = true →
      sampleCost 0 ≤ sampleCost (nextCell sampleModel 0 d) + 1) ∧
    sampleCost 0 < 5 ∧
    ∃ final, pathGenerate sampleModel sampleWalls sampleCost 5 0 (fun _ => NUL) = some final ∧
      (∀ t ∈ pathWalk sampleModel sampleWalls sampleCost 5
          (pathInit sampleModel sampleWalls sampleCost 0 (fun _ => NUL)),
        isForwardOrTurn (stepSymbol sampleModel sampleWalls sampleCost t)) ∧
      (sampleCost 0 ≤ 253 →
        'A' ∉ final.path.cstr ∧ (∀ c ∈ final.path.cstr, inExpandAlphabet c) ∧
        (('B' :: expandSpec final.path.cstr).length < BUFSIZE →
          ∃ commands idx,
            pathExpand (5 + 2) final.path (fun _ => NUL) = .done commands idx ∧
            commands.cstr = 'B' :: expandSpec final.path.cstr)) :=
  ⟨sample_consistent, gridModel_backStep _, by decide, by decide,
   ⟨by decide, by decide, by decide⟩, by decide, by decide,
   pathGenerate_no_turnaround sampleModel sampleWalls sampleCost 0 (fun _ => NUL)
     (fun _ => NUL) 5 sample_consistent (gridModel_backStep _) (by decide) (by decide)
     (fun _ => ⟨by decide, by decide, by decide⟩) (by decide) (by decide)⟩

/-- Counterexample to C16 as stated: the ring cost field meets every condition of the claim
(each cell of cost above 0 has an open exit to a cell of cost one less, stepping there and
back returns to the same cell, and `direction_to_smallest` gives the open exit of smallest
neighbour cost at the start cell 2), yet the path generated from cell 2 is `BAFLLFFFLS`:
the walk starts facing cell 3 of cost 1, the only exit to a cell of cost 7 is behind it, and
`pathExpand` does not return on that string. -/
theorem pathGenerate_turnaround_counterexample :
    ConsistentFlood ringModel ringWalls ringCost ∧ BackStep ringModel ∧
    ringCost 2 < ringModel.MAX_COST ∧
    SmallestExit ringModel ringWalls ringCost 2
      (ringModel.direction_to_smallest ringWalls ringCost 2 NORTH) ∧
    (pathGenerate ringModel ringWalls ringCost 9 2 (fun _ => NUL)).map
      (fun s => s.path.cstr) = some ['B', 'A', 'F', 'L', 'L', 'F', 'F', 'F', 'L', 'S'] ∧
    pathExpand 1000 (Buf.ofList ['B', 'A', 'F', 'L', 'L', 'F', 'F', 'F', 'L', 'S'])
      (fun _ => NUL) = .timeout :=
  ⟨ring_consistent, gridModel_backStep _, by decide, ⟨by decide, by decide, by decide⟩,
   by decide,
   expandLoop_unknown _ ['B'] _ 1000 (by decide) (by decide) (by decide) (by decide)
     (by decide)⟩

/-! ## The two strategies side by side -/

/-- The recorded loop returns what `inplaceLoop` returns. -/
theorem inplaceTrace_result (cfg : Config) (button : Nat → Bool) (topSpeed : Int) :
    ∀ (fuel i : Nat) (w : World),
      (inplaceTrace cfg button topSpeed fuel i w).map Prod.snd
        = inplaceLoop cfg button topSpeed fuel i w := by
  intro fuel
  induction fuel with
  | zero => intro i w; rfl
  | succ fuel ih =>
    intro i w
    unfold inplaceTrace inplaceLoop
    split_ifs <;> simp only [Option.map_some', Option.map_map] <;>
      first
        | rfl
        | exact ih _ _

/-- The recorded loop returns what `smoothLoop` returns. -/
theorem smoothTrace_result (cfg : Config) (button : Nat → Bool) (topSpeed : Int) :
    ∀ (fuel i : Nat) (w : World),
      (smoothTrace cfg button topSpeed fuel i w).map Prod.snd
        = smoothLoop cfg button topSpeed fuel i w := by
  intro fuel
  induction fuel with
  | zero => intro i w; rfl
  | succ fuel ih =>
    intro i w
    unfold smoothTrace smoothLoop
    split_ifs <;> simp only [Option.map_some', Option.map_map] <;>
      first
        | rfl
        | exact ih _ _

/-- Recording one more branch in front of two runs with the same outcome. -/
theorem scanOutcome_cons (b : Branch) (x y : Option (List Branch × ExecResult))
    (h : x.map scanOutcome = y.map scanOutcome) :
    (x.map fun p => (b :: p.1, p.2)).map scanOutcome
      = (y.map fun p => (b :: p.1, p.2)).map scanOutcome := by
  cases x <;> cases y <;> simp_all [scanOutcome]

/-- The two loops in step: started at the same scan index on the same command string, with
the same number of samples taken and the same heading and location, they take the same
branches and leave in the same way. -/
theorem traces_in_step (cfg : Config) (button : Nat → Bool) (topSpeed : Int) :
    ∀ (fuel i : Nat) (w1 w2 : World), w1.commands = w2.commands → w1.samples = w2.samples →
      w1.mouse.heading = w2.mouse.heading → w1.mouse.location = w2.mouse.location →
      (inplaceTrace cfg button topSpeed fuel i w1).map scanOutcome
        = (smoothTrace cfg button topSpeed fuel i w2).map scanOutcome := by
  intro fuel
  induction fuel with
  | zero => intro i w1 w2 _ _ _ _; rfl
  | succ fuel ih =>
    intro i w1 w2 hc hs hh hl
    unfold inplaceTrace smoothTrace
    rw [← hc, ← hs]
    split_ifs
    · simp [scanOutcome, hh, hl, hs]
    · simp [scanOutcome, World.sample, hh, hl, hs]
    · exact scanOutcome_cons _ _ _ (ih _ _ _ hc (by simp [World.sample, hs]) hh hl)
    · exact scanOutcome_cons _ _ _ (ih _ _ _ hc
        (by simp [World.sample, move_forward, World.call, turnIP90R, turnSS90R, World.turnBy, hs])
        (by simp [World.sample, move_forward, World.call, turnIP90R, turnSS90R, World.turnBy, hh])
        hl)
    · exact scanOutcome_cons _ _ _ (ih _ _ _ hc
        (by simp [World.sample, move_forward, World.call, turnIP90L, turnSS90L, World.turnBy, hs])
        (by simp [World.sample, move_forward, World.call, turnIP90L, turnSS90L, World.turnBy, hh])
        hl)
    · exact scanOutcome_cons _ _ _ (ih _ _ _ hc
        (by simp [World.sample, move_forward, World.call, hs]) hh hl)
    · exact scanOutcome_cons _ _ _ (ih _ _ _ hc
        (by simp [World.sample, move_forward, World.call, hs]) hh hl)
    · simp [scanOutcome, World.sample, hh, hl, hs]

/-- The outcome of a call of an executor, from the outcome of its loop: the closing
statement puts `GOAL` in `mouse.location`. -/
theorem outcome_atGoal (cfg : Config) (x : Option (List Branch × ExecResult)) :
    ((x.map Prod.snd).map (ExecResult.atGoal cfg)).map ExecResult.outcome
      = (x.map scanOutcome).map fun o => (o.2.1, o.2.2.1, o.2.2.2.1, cfg.GOAL, o.2.2.2.2.2) := by
  cases x <;> simp [scanOutcome, ExecResult.outcome, ExecResult.atGoal]

/-- C21: the loops of `mouseRunInplaceTurns` and `mouseRunSmoothTurns`, run on the same
command string from the same world (so with the same heading, and reading the same samples
of the abort signal), take the same sequence of branches, are left in the same way at the
same scan index after the same number of samples, or both do not leave within the budget,
and leave the same `mouse.heading` and `mouse.location`; the recorded loops are the loops of
the two functions. The two functions themselves, called in the same world, return alike
with the same exit, scan index, `mouse.heading` and `mouse.location`. -/
theorem executors_same_branches (cfg : Config) (button : Nat → Bool) (topSpeed : Int)
    (fuel : Nat) (w : World) :
    (inplaceTrace cfg button topSpeed fuel 0 w).map scanOutcome
      = (smoothTrace cfg button topSpeed fuel 0 w).map scanOutcome ∧
    (inplaceTrace cfg button topSpeed fuel 0 w).map Prod.snd
      = inplaceLoop cfg button topSpeed fuel 0 w ∧
    (smoothTrace cfg button topSpeed fuel 0 w).map Prod.snd
      = smoothLoop cfg button topSpeed fuel 0 w ∧
    (mouseRunInplaceTurns cfg button topSpeed fuel w).map ExecResult.outcome
      = (mouseRunSmoothTurns cfg button topSpeed fuel w).map ExecResult.outcome := by
  refine ⟨traces_in_step cfg button topSpeed fuel 0 w w rfl rfl rfl rfl,
    inplaceTrace_result cfg button topSpeed fuel 0 w,
    smoothTrace_result cfg button topSpeed fuel 0 w, ?_⟩
  unfold mouseRunInplaceTurns mouseRunSmoothTurns
  cases hexp : w.expandPath fuel with
  | none => rfl
  | some w1 =>
    simp only
    rw [← inplaceTrace_result cfg button topSpeed fuel 0 w1,
      ← smoothTrace_result cfg button topSpeed fuel 0 w1, outcome_atGoal, outcome_atGoal,
      traces_in_step cfg button topSpeed fuel 0 w1 w1 rfl rfl rfl rfl]

/-- The branches taken on the expansion `BHHRHHLHHLHHS` of the sample path `BFRLLS`, by
either loop: the skip of `B`, `HH`, `HRH`, `HLH`, `HLH`, `HS`, then the loop is left at the
`S` at index 12 with the mouse heading west. -/
theorem traces_on_sample_path :
    ((pathWorld ['B', 'F', 'R', 'L', 'L', 'S']).expandPath 10).bind
        (fun w => (inplaceTrace sampleConfig noAbort 800 20 0 w).map scanOutcome)
      = some ([.skipB, .hh, .hrh, .hlh, .hlh, .hs], .stop, 12, 3, 0, 6) ∧
    ((pathWorld ['B', 'F', 'R', 'L', 'L', 'S']).expandPath 10).bind
        (fun w => (smoothTrace sampleConfig noAbort 800 20 0 w).map scanOutcome)
      = some ([.skipB, .hh, .hrh, .hlh, .hlh, .hs], .stop, 12, 3, 0, 6) := by
  constructor <;> decide

/-! ## Theorems on the turns -/

/-- C22: for a current heading `h` and a requested heading `n`, both in 0..3, and
`delta = (n - h) mod 4`, `mouseTurnToFace(n)` does what the turn named for `delta` does (no
turn for 0, `turnIP90R` for 1, `turnIP180` for 2, `turnIP90L` for 3); the `hdgChange` switch
of `mouseSearchTo` run on `delta` issues the same in-place turn, behind its own `stop_at` or
`wait_until_position`; and after either of them `mouse.heading` is `n`. -/
theorem mouseTurnToFace_matches_headingSwitch (cfg : Config) (w : World) (n : Nat)
    (hh : w.mouse.heading < 4) (hn : n < 4) :
    mouseTurnToFace cfg n w
      = turnForChange cfg (((n : Int) - (w.mouse.heading : Int)) % 4) w ∧
    (mouseTurnToFace cfg n w).log.filter Motion.isSpin
      = (headingSwitch cfg (((n : Int) - (w.mouse.heading : Int)) % 4) w).log.filter
          Motion.isSpin ∧
    (mouseTurnToFace cfg n w).direction
      = (headingSwitch cfg (((n : Int) - (w.mouse.heading : Int)) % 4) w).direction ∧
    (mouseTurnToFace cfg n w).mouse.heading = n ∧
    (headingSwitch cfg (((n : Int) - (w.mouse.heading : Int)) % 4) w).mouse.heading = n := by
  obtain ⟨mouse, walls, cost, path, commands, mouseState, direction, log, reads, samples,
    phaseLog⟩ := w
  obtain ⟨heading, location, leftWall, frontWall, rightWall, handStart⟩ := mouse
  simp only at hh
  interval_cases heading <;> interval_cases n <;>
    simp [mouseTurnToFace, turnForChange, headingSwitch, turnIP90R, turnIP90L, turnIP180,
      stopAndAdjust, World.call, World.turnBy, NORTH, EAST, SOUTH, WEST, Motion.isSpin,
      List.filter_append]

/-- Witness of C22: heading south and asked to face east, the mouse turns left by 90. -/
theorem mouseTurnToFace_matches_headingSwitch_witness :
    southWorld.mouse.heading < 4 ∧ 1 < 4 ∧
    mouseTurnToFace sampleConfig 1 southWorld
      = turnForChange sampleConfig ((((1 : Nat) : Int) - (southWorld.mouse.heading : Int)) % 4)
          southWorld ∧
    (mouseTurnToFace sampleConfig 1 southWorld).log = [.spin_turn 90 400 4000] ∧
    (headingSwitch sampleConfig 3 southWorld).log = [.stop_at 180, .spin_turn 90 400 4000] ∧
    (mouseTurnToFace sampleConfig 1 southWorld).mouse.heading = 1 :=
  ⟨by decide, by decide,
   (mouseTurnToFace_matches_headingSwitch sampleConfig southWorld 1 (by decide) (by decide)).1,
   by decide, by decide,
   (mouseTurnToFace_matches_headingSwitch sampleConfig southWorld 1
     (by decide) (by decide)).2.2.2.1⟩

/-! ## Theorems on the turn-around -/

/-- One call of `turnIP180`: the static `direction` changes sign, the spin requested is 180
times the new `direction`, and the heading moves on by 2 modulo 4. -/
theorem turnIP180_call (cfg : Config) (v : World) :
    (turnIP180 cfg v).direction = -v.direction ∧
    (turnIP180 cfg v).log = v.log ++
      [.spin_turn (-v.direction * 180) cfg.SPEEDMAX_SPIN_TURN cfg.SPIN_TURN_ACCELERATION] ∧
    (turnIP180 cfg v).mouse.heading = (v.mouse.heading + 2) % 4 := by
  simp [turnIP180, World.call, World.turnBy]

/-- After `n` calls of `turnIP180` since start-up the static `direction` is `(-1)^n`. -/
theorem turnArounds_direction (cfg : Config) (between : Nat → World → World) (w : World)
    (hstart : w.direction = 1) (hframe : ∀ i v, (between i v).direction = v.direction) :
    ∀ n, (turnArounds cfg between n w).direction = (-1) ^ n := by
  intro n
  induction n with
  | zero => simp [turnArounds, hframe, hstart]
  | succ n ih =>
    rw [turnArounds, hframe, (turnIP180_call cfg _).1, ih, pow_succ]
    ring

/-- C23: with the static `direction` at its start-up value 1 and whatever code runs between
the calls (it cannot reach `direction`), call number `n + 1` of `turnIP180` requests a spin
of `(-1)^(n+1) * 180`, the call after it requests the opposite spin, and each call moves
`mouse.heading` on by 2 modulo 4. -/
theorem turnIP180_alternates (cfg : Config) (between : Nat → World → World) (w : World)
    (n : Nat) (hstart : w.direction = 1)
    (hframe : ∀ i v, (between i v).direction = v.direction) :
    (turnIP180 cfg (turnArounds cfg between n w)).log
      = (turnArounds cfg between n w).log ++
        [.spin_turn ((-1) ^ (n + 1) * 180) cfg.SPEEDMAX_SPIN_TURN
          cfg.SPIN_TURN_ACCELERATION] ∧
    (turnIP180 cfg (turnArounds cfg between (n + 1) w)).log
      = (turnArounds cfg between (n + 1) w).log ++
        [.spin_turn (-((-1) ^ (n + 1) * 180)) cfg.SPEEDMAX_SPIN_TURN
          cfg.SPIN_TURN_ACCELERATION] ∧
    (turnIP180 cfg (turnArounds cfg between n w)).mouse.heading
      = ((turnArounds cfg between n w).mouse.heading + 2) % 4 := by
  have hd := turnArounds_direction cfg between w hstart hframe
  refine ⟨?_, ?_, (turnIP180_call cfg _).2.2⟩
  · rw [(turnIP180_call cfg _).2.1, hd n, pow_succ]
    congr 3
    ring
  · rw [(turnIP180_call cfg _).2.1, hd (n + 1)]
    congr 3
    ring

/-- Witness of C23: from start-up, with a right turn in place after every turn-around, the
first three turn-arounds request -180, 180 and -180. -/
theorem turnIP180_alternates_witness :
    (startWorld closedWalls).direction = 1 ∧
    (∀ i v, ((fun (_ : Nat) => turnIP90R sampleConfig) i v).direction = v.direction) ∧
    (turnIP180 sampleConfig
        (turnArounds sampleConfig (fun _ => turnIP90R sampleConfig) 2
          (startWorld closedWalls))).log
      = [.spin_turn (-90) 400 4000, .spin_turn (-180) 400 4000, .spin_turn (-90) 400 4000,
         .spin_turn 180 400 4000, .spin_turn (-90) 400 4000, .spin_turn (-180) 400 4000] ∧
    (turnIP180 sampleConfig
        (turnArounds sampleConfig (fun _ => turnIP90R sampleConfig) 2
          (startWorld closedWalls))).log
      = (turnArounds sampleConfig (fun _ => turnIP90R sampleConfig) 2
          (startWorld closedWalls)).log ++ [.spin_turn ((-1) ^ (2 + 1) * 180) 400 4000] :=
  ⟨rfl, fun _ _ => rfl, by decide,
   (turnIP180_alternates sampleConfig (fun _ => turnIP90R sampleConfig)
     (startWorld closedWalls) 2 rfl (fun _ _ => rfl)).1⟩

/-! ## Theorems on a whole call of the mission -/

/-- A guarded block of `mouseRunMaze` that returned: either it ran, and left its phase
written over the guard's, or the guard failed and nothing changed. -/
theorem guarded_phase (g p : Nat) (blk : Option World) (w wa : World)
    (hblk : ∀ wa, blk = some wa → wa.phase = (p, w.phaseLog ++ [(w.mouseState, p)]))
    (h : (if w.mouseState = g then blk else some w) = some wa) :
    (w.mouseState = g ∧ wa.mouseState = p ∧ wa.phaseLog = w.phaseLog ++ [(g, p)]) ∨
    (w.mouseState ≠ g ∧ wa = w) := by
  rcases guarded_block _ _ w wa h with ⟨hg, hb⟩ | ⟨hg, rfl⟩
  · have hp := hblk wa hb
    simp only [World.phase, Prod.mk.injEq] at hp
    exact Or.inl ⟨hg, hp.1, by rw [hp.2, hg]⟩
  · exact Or.inr ⟨hg, rfl⟩

/-- C24: a whole call of `mouseRunMaze`. Entered with `mouseState` at SEARCHING,
INPLACE_RUN or SMOOTH_RUN, a call that returns leaves it at FINISHED, having made (for
distinct phase constants) every write of the mission order from the phase of entry on.
Entered with `mouseState` at none of these three values, the call returns 0 having done
nothing but `stop_motors()`: the world is as before with that one call added, so
`mouseState`, `mouse.location`, `mouse.heading`, `cost`, `path` and `commands` are unchanged;
for distinct constants this is the case of FINISHED. -/
theorem mouseRunMaze_whole_call (cfg : Config) (ph : Phases) (m : MazeModel)
    (env : Nat → Sensors) (button : Nat → Bool) (fuel : Nat) (w : World) :
    (∀ r w1, mouseRunMaze cfg ph m env button fuel w = some (r, w1) →
      w.mouseState = ph.SEARCHING ∨ w.mouseState = ph.INPLACE_RUN ∨
        w.mouseState = ph.SMOOTH_RUN →
      w1.mouseState = ph.FINISHED ∧
      (ph.Distinct → w1.phaseLog = w.phaseLog ++
        [(ph.SEARCHING, ph.INPLACE_RUN), (ph.INPLACE_RUN, ph.SMOOTH_RUN),
          (ph.SMOOTH_RUN, ph.FINISHED)].drop (ph.rank w.mouseState))) ∧
    (w.mouseState ≠ ph.SEARCHING → w.mouseState ≠ ph.INPLACE_RUN →
      w.mouseState ≠ ph.SMOOTH_RUN →
      mouseRunMaze cfg ph m env button fuel w = some (0, w.call .stop_motors)) ∧
    (ph.Distinct → w.mouseState = ph.FINISHED →
      mouseRunMaze cfg ph m env button fuel w = some (0, w.call .stop_motors)) := by
  have hskip : w.mouseState ≠ ph.SEARCHING → w.mouseState ≠ ph.INPLACE_RUN →
      w.mouseState ≠ ph.SMOOTH_RUN →
      mouseRunMaze cfg ph m env button fuel w = some (0, w.call .stop_motors) := by
    intro n1 n2 n3
    simp [mouseRunMaze, n1, n2, n3]
  refine ⟨?_, hskip, ?_⟩
  · intro r w1 h hentry
    simp only [mouseRunMaze, Option.bind_eq_some, Option.some.injEq, Prod.mk.injEq] at h
    obtain ⟨wa, ha, wb, hb, wc, hc, _, rfl⟩ := h
    have s1 := guarded_phase ph.SEARCHING ph.INPLACE_RUN _ w wa
      (fun v hv => searchingBlock_phase cfg ph m env fuel w v hv) ha
    have s2 := guarded_phase ph.INPLACE_RUN ph.SMOOTH_RUN _ wa wb
      (fun v hv => inplaceBlock_phase cfg ph m env button fuel wa v hv) hb
    have s3 := guarded_phase ph.SMOOTH_RUN ph.FINISHED _ wb wc
      (fun v hv => smoothBlock_phase cfg ph m env button fuel wb v hv) hc
    constructor
    · show wc.mouseState = ph.FINISHED
      rcases s3 with ⟨_, h3, _⟩ | ⟨n3, rfl⟩
      · exact h3
      · exfalso
        rcases s2 with ⟨_, h2, _⟩ | ⟨n2, rfl⟩
        · exact n3 h2
        · rcases s1 with ⟨_, h1, _⟩ | ⟨n1, rfl⟩
          · exact n2 h1
          · rcases hentry with e | e | e
            · exact n1 e
            · exact n2 e
            · exact n3 e
    · intro hd
      obtain ⟨d1, d2, d3, d4, d5, d6⟩ := hd
      show wc.phaseLog = _
      rcases hentry with e | e | e
      · -- entered at SEARCHING: the three blocks run
        rcases s1 with ⟨_, h1, l1⟩ | ⟨n1, _⟩
        · rcases s2 with ⟨_, h2, l2⟩ | ⟨n2, _⟩
          · rcases s3 with ⟨_, _, l3⟩ | ⟨n3, _⟩
            · rw [l3, l2, l1, e]
              simp [Phases.rank]
            · exact absurd h2 n3
          · exact absurd h1 n2
        · exact absurd e n1
      · -- entered at INPLACE_RUN: the first block is skipped
        rcases s1 with ⟨g1, _, _⟩ | ⟨_, rfl⟩
        · exact absurd (g1.symm.trans e) d1
        · rcases s2 with ⟨_, h2, l2⟩ | ⟨n2, _⟩
          · rcases s3 with ⟨_, _, l3⟩ | ⟨n3, _⟩
            · rw [l3, l2, e]
              simp [Phases.rank, d1.symm]
            · exact absurd h2 n3
          · exact absurd e n2
      · -- entered at SMOOTH_RUN: the first two blocks are skipped
        rcases s1 with ⟨g1, _, _⟩ | ⟨_, rfl⟩
        · exact absurd (g1.symm.trans e) d2
        · rcases s2 with ⟨g2, _, _⟩ | ⟨_, rfl⟩
          · exact absurd (g2.symm.trans e) d4
          · rcases s3 with ⟨_, _, l3⟩ | ⟨n3, _⟩
            · rw [l3, e]
              simp [Phases.rank, d2.symm, d4.symm]
            · exact absurd e n3
  · intro hd hfin
    obtain ⟨d1, d2, d3, d4, d5, d6⟩ := hd
    exact hskip (by rw [hfin]; exact d3.symm) (by rw [hfin]; exact d5.symm)
      (by rw [hfin]; exact d6.symm)

set_option maxRecDepth 100000 in
/-- Witness of C24: the mission in the closed maze entered at SEARCHING returns at FINISHED
with the three writes made, and a call entered with the byte 77 in `mouseState` only stops
the motors. -/
theorem mouseRunMaze_whole_call_witness :
    (∃ r w1, mouseRunMaze sampleConfig samplePhases walledInModel quietSensors noAbort 300
        walledInWorld = some (r, w1) ∧
      walledInWorld.mouseState = samplePhases.SEARCHING ∧
      w1.mouseState = samplePhases.FINISHED ∧
      w1.phaseLog = [(1, 2), (2, 3), (3, 4)]) ∧
    coldWorld.mouseState ≠ samplePhases.SEARCHING ∧
    coldWorld.mouseState ≠ samplePhases.INPLACE_RUN ∧
    coldWorld.mouseState ≠ samplePhases.SMOOTH_RUN ∧
    mouseRunMaze sampleConfig samplePhases walledInModel quietSensors noAbort 300 coldWorld
      = some (0, coldWorld.call .stop_motors) ∧
    (coldWorld.call .stop_motors).log = [.stop_motors] := by
  have hsome : (mouseRunMaze sampleConfig samplePhases walledInModel quietSensors noAbort 300
      walledInWorld).isSome = true := by decide
  obtain ⟨⟨r, w1⟩, hr⟩ := Option.isSome_iff_exists.mp hsome
  have h := (mouseRunMaze_whole_call sampleConfig samplePhases walledInModel quietSensors
    noAbort 300 walledInWorld).1 r w1 hr (Or.inl rfl)
  refine ⟨⟨r, w1, hr, rfl, h.1, ?_⟩, by decide, by decide, by decide, ?_, rfl⟩
  · rw [h.2 (by decide)]
    rfl
  · exact (mouseRunMaze_whole_call sampleConfig samplePhases walledInModel quietSensors
      noAbort 300 coldWorld).2.1 (by decide) (by decide) (by decide)

/-! ## Theorems on the bounds of `commands` -/

/-- One loop body on an accepted symbol with the write index at most 256: the rule is stored
when its last character still lands inside `commands`, and otherwise the first write that
falls outside is the one at index 256. -/
theorem expandSwitch_bounds (c : Char) (st : ExpandState) (hc : inExpandAlphabet c)
    (hci : st.commandIndex ≤ BUFSIZE) :
    (st.commandIndex + (expandRule c).length ≤ BUFSIZE →
      expandSwitch c st = .ok
        { pathIndex := st.pathIndex + 1,
          commandIndex := st.commandIndex + (expandRule c).length,
          commands := st.commands.writeList st.commandIndex (expandRule c) }) ∧
    (BUFSIZE < st.commandIndex + (expandRule c).length →
      expandSwitch c st = .error BUFSIZE) := by
  constructor
  · intro hfit
    rcases hc with h | h | h | h | h | h <;> subst h <;>
      simp [expandRule, BUFSIZE] at hfit <;>
      simp (disch := omega) [expandSwitch, expandRule, ExpandState.emit, ExpandState.advance,
        Buf.writeList, BUFSIZE, bind, Except.bind, pure, Except.pure, if_pos]
  · intro hout
    simp only [BUFSIZE] at hci
    rcases hc with h | h | h | h | h | h <;> subst h <;>
      simp [expandRule, BUFSIZE] at hout
    · omega
    · omega
    · have h1 : st.commandIndex = 255 ∨ st.commandIndex = 256 := by omega
      rcases h1 with h1 | h1 <;>
        simp [expandSwitch, ExpandState.emit, BUFSIZE, bind, Except.bind, h1]
    · have h1 : st.commandIndex = 254 ∨ st.commandIndex = 255 ∨ st.commandIndex = 256 := by
        omega
      rcases h1 with h1 | h1 | h1 <;>
        simp [expandSwitch, ExpandState.emit, BUFSIZE, bind, Except.bind, h1]
    · have h1 : st.commandIndex = 254 ∨ st.commandIndex = 255 ∨ st.commandIndex = 256 := by
        omega
      rcases h1 with h1 | h1 | h1 <;>
        simp [expandSwitch, ExpandState.emit, BUFSIZE, bind, Except.bind, h1]
    · have h1 : st.commandIndex = 256 := by omega
      simp [expandSwitch, ExpandState.emit, BUFSIZE, bind, Except.bind, h1]

/-- The loop on a string of accepted symbols whose expansion, with its terminator, does not
fit behind the write index: a write lands on index 256, the first one outside `commands`. -/
theorem expandLoop_overflow (pathString : Buf) (suf : List Char) :
    ∀ (st : ExpandState) (fuel : Nat),
      (∀ j, j ≤ suf.length → pathString (st.pathIndex + j) = suf.getD j NUL) →
      (∀ c ∈ suf, inExpandAlphabet c) →
      st.commandIndex ≤ BUFSIZE →
      BUFSIZE ≤ st.commandIndex + (expandSpec suf).length →
      suf.length < fuel →
      expandLoop pathString fuel st = .overflow BUFSIZE := by
  induction suf with
  | nil =>
    intro st fuel hstr _ hci hbig hfuel
    obtain ⟨fuel, rfl⟩ : ∃ f, fuel = f + 1 := ⟨fuel - 1, by simp at hfuel; omega⟩
    have h0 : pathString st.pathIndex = NUL := by simpa using hstr 0 (by simp)
    simp only [expandSpec, List.flatMap_nil, List.length_nil, Nat.add_zero] at hbig
    have hidx : st.commandIndex = BUFSIZE := by omega
    rw [expandLoop, if_pos h0, if_neg (by omega), hidx]
  | cons c cs ih =>
    intro st fuel hstr halpha hci hbig hfuel
    obtain ⟨fuel, rfl⟩ : ∃ f, fuel = f + 1 := ⟨fuel - 1, by simp at hfuel; omega⟩
    have hc : inExpandAlphabet c := halpha c (by simp)
    have h0 : pathString st.pathIndex = c := by simpa using hstr 0 (by simp)
    rw [expandSpec_cons, List.length_append] at hbig
    rw [expandLoop, h0, if_neg (inExpandAlphabet_ne_NUL c hc)]
    rcases Nat.lt_or_ge BUFSIZE (st.commandIndex + (expandRule c).length) with hout | hin
    · rw [(expandSwitch_bounds c st hc hci).2 hout]
    · rw [(expandSwitch_bounds c st hc hci).1 hin]
      simp only
      apply ih _ fuel ?_ (fun x hx => halpha x (List.mem_cons_of_mem _ hx)) hin
        (by simpa [Nat.add_assoc] using hbig) (by simpa using hfuel)
      intro j hj
      have := hstr (j + 1) (by simpa using hj)
      simp only [List.getD_cons_succ] at this
      rw [← this]
      show pathString (st.pathIndex + 1 + j) = _
      congr 1
      omega

/-- C25: on a path string `s` over B, space, F, R, L, S of at most 255 characters,
`pathExpand` keeps its writes inside `commands` exactly when `B`, the rewrites of `s` and the
closing NUL take at most 256 bytes. When they take more, which a string of 129 characters
can already cause, the function writes at index 256, one past the end of the array. -/
theorem pathExpand_writes_outside (pathString commands0 : Buf) (s : List Char) (fuel : Nat)
    (hstr : pathString.holds s) (halpha : ∀ c ∈ s, inExpandAlphabet c)
    (_hlen : s.length ≤ 255) (hfuel : s.length < fuel) :
    (('B' :: expandSpec s).length < BUFSIZE →
      pathExpand fuel pathString commands0 =
        .done ((commands0.writeList 0 ('B' :: expandSpec s)).write
          ('B' :: expandSpec s).length NUL) ('B' :: expandSpec s).length) ∧
    (BUFSIZE ≤ ('B' :: expandSpec s).length →
      pathExpand fuel pathString commands0 = .overflow BUFSIZE) := by
  refine ⟨fun hfit => pathExpand_done pathString commands0 s fuel hstr halpha hfit hfuel,
    fun hbig => ?_⟩
  apply expandLoop_overflow pathString s _ fuel
  · intro j hj; simpa using hstr j hj
  · exact halpha
  · show 1 ≤ BUFSIZE
    decide
  · simp only [List.length_cons] at hbig
    show BUFSIZE ≤ 1 + (expandSpec s).length
    omega
  · exact hfuel

set_option maxRecDepth 100000 in
/-- Witness of C25: the straight of 127 cells, 129 characters long, whose expansion is `B`,
254 times `H` and `S`; the closing NUL is written at index 256. -/
theorem pathExpand_writes_outside_witness :
    (Buf.ofList longStraight).holds longStraight ∧
    (∀ c ∈ longStraight, inExpandAlphabet c) ∧
    longStraight.length ≤ 255 ∧ longStraight.length < 130 ∧
    BUFSIZE ≤ ('B' :: expandSpec longStraight).length ∧
    pathExpand 130 (Buf.ofList longStraight) (fun _ => NUL) = .overflow BUFSIZE :=
  ⟨fun _ _ => rfl, by decide, by decide, by decide, by decide,
   (pathExpand_writes_outside (Buf.ofList longStraight) (fun _ => NUL) longStraight 130
     (fun _ _ => rfl) (by decide) (by decide) (by decide)).2 (by decide)⟩

end Mazerunner
